import Mathlib

/-!
X-Lock: a shallow embedding of `src/xlock.c`, `src/indexes.c` and `include/bits.h`.

Buffers of `unsigned char` and of `unsigned int` are lists of natural numbers.
Every array access is checked: an execution that leaves the bounds of a buffer,
divides by zero or never returns ends in a `Fault` instead of a value.
Positions and counters are natural numbers. In `prng_rand`, `gen` and `rep` the
`unsigned` sums and products that can wrap carry an explicit `% 2 ^ 32`. In `lock` and
`unlock` the values that the C code passes or computes in the type `int` go through
`as_int`, which is a fault from `2 ^ 31` on.
-/

namespace XLock

/-- Ways in which an execution leaves defined behaviour or fails to return. -/
inductive Fault where
  | oob
  | div_zero
  | loops
  | overflow
  deriving DecidableEq, Repr

/-- Results of executions can be compared. -/
instance decEqExcept {α : Type} [DecidableEq α] : DecidableEq (Except Fault α) := fun a b =>
  match a, b with
  | .ok x, .ok y =>
    if h : x = y then isTrue (by rw [h]) else isFalse (fun e => by cases e; exact h rfl)
  | .error x, .error y =>
    if h : x = y then isTrue (by rw [h]) else isFalse (fun e => by cases e; exact h rfl)
  | .ok _, .error _ => isFalse (fun e => by cases e)
  | .error _, .ok _ => isFalse (fun e => by cases e)

/-- Read of element `i` of a C array: `b[i]`. Outside the array it is a fault. -/
def load (b : List Nat) (i : Nat) : Except Fault Nat :=
  match b[i]? with
  | some x => .ok x
  | none => .error .oob

/-- Write of element `i` of a C array: `b[i] = x`. Outside the array it is a fault. -/
def store (b : List Nat) (i : Nat) (x : Nat) : Except Fault (List Nat) :=
  if i < b.length then .ok (b.set i x) else .error .oob

/-- The loop `for (i = 0; i < n; i++) body(i)` over a state `s`: the first `n`
iterations are the first `n - 1` iterations followed by iteration `n - 1`. -/
def forLoop {σ : Type} (n : Nat) (body : Nat → σ → Except Fault σ) (s : σ) : Except Fault σ :=
  match n with
  | 0 => .ok s
  | m + 1 => do
    let s1 ← forLoop m body s
    body m s1

/-! ## `include/bits.h` -/

/-- `CEIL(a, b)`: `((a) / (b)) + (((a) % (b)) > 0 ? 1 : 0)`. -/
def CEIL (a b : Nat) : Nat := a / b + (if a % b > 0 then 1 else 0)

/-- `bits_to_bytes(bits)`: `CEIL(bits, 8)`. -/
def bits_to_bytes (bits : Nat) : Nat := CEIL bits 8

/-- `set_bit(n, bit)`: `(n & 1ULL) | (1 << bit)`. -/
def set_bit (n bit : Nat) : Nat := (n &&& 1) ||| (1 <<< bit)

/-- `char_check_bit(arr, bit)`: `(1ULL & (arr[(bit) / 8] >> (bit) % 8) & 1)`. -/
def char_check_bit (arr : List Nat) (bit : Nat) : Except Fault Nat := do
  let a ← load arr (bit / 8)
  pure (1 &&& (a >>> (bit % 8)) &&& 1)

/-- `char_set_bit(arr, bit)`: `(arr[(bit) / 8] = set_bit(arr[(bit) / 8], (bit) % 8))`,
stored into an `unsigned char`. -/
def char_set_bit (arr : List Nat) (bit : Nat) : Except Fault (List Nat) := do
  let a ← load arr (bit / 8)
  store arr (bit / 8) (set_bit a (bit % 8) % 256)

/-! ## Bit access of `src/xlock.c` -/

/-- A value of the type `int`. An `unsigned` value that is passed for an `int` parameter
or stored to an `int` keeps its value when it is below `2 ^ 31`; from `2 ^ 31` on the
conversion is implementation-defined or raises a signal, and an `int` product or sum that
does not fit the type is undefined: both are the fault `overflow`. The operands are never
negative, so neither are the values. -/
def as_int (x : Nat) : Except Fault Nat :=
  if x < 2 ^ 31 then .ok x else .error .overflow

/-- `get_bit(b, i)`: `(unsigned char)((b[i / 8] >> i % 8) & 1)`. -/
def get_bit (b : List Nat) (i : Nat) : Except Fault Nat := do
  let x ← load b (i / 8)
  pure ((x >>> (i % 8)) &&& 1)

/-- `get_bit_2D(b, i, j, jj)`: `get_bit(b, i * jj + j)`, for `int` values `i`, `j`, `jj`
and with the product and the sum computed in `int`. -/
def get_bit_2D (b : List Nat) (i j jj : Nat) : Except Fault Nat := do
  let m ← as_int (i * jj)
  let p ← as_int (m + j)
  get_bit b p

/-- `get_int_3D(b, i, j, k, di, kk)`: `b[i * di + j * kk + k]`, for `int` values `i`, `j`,
`k`, `di`, `kk` and with the products and the sums computed in `int`. -/
def get_int_3D (b : List Nat) (i j k di kk : Nat) : Except Fault Nat := do
  let m1 ← as_int (i * di)
  let m2 ← as_int (j * kk)
  let s ← as_int (m1 + m2)
  let p ← as_int (s + k)
  load b p

/-- `set_bit_v(b, i, v)`: with `t0 = i / 8` and `t1 = b[t0]`,
`t1 ^= (-v ^ b[t0]) & (1UL << (i % 8)); b[t0] = t1`. The negation of `v` is taken
in `int` and widened to the 64 bits of `1UL`; `t1` is an `unsigned char`. -/
def set_bit_v (b : List Nat) (i v : Nat) : Except Fault (List Nat) := do
  let t0 := i / 8
  let t1 ← load b t0
  let bt0 ← load b t0
  let t1 := (t1 ^^^ ((((2 ^ 64 - v) % 2 ^ 64) ^^^ bt0) &&& (1 <<< (i % 8)))) % 256
  store b t0 t1

/-- `set_bit_v_2D(b, i, j, jj, v)`: `set_bit_v(b, i * jj + j, v)`, for `int` values `i`,
`j`, `jj` and with the product and the sum computed in `int`. -/
def set_bit_v_2D (b : List Nat) (i j jj v : Nat) : Except Fault (List Nat) := do
  let m ← as_int (i * jj)
  let p ← as_int (m + j)
  set_bit_v b p v

/-! ## The locker of `src/xlock.c` -/

/-- Innermost loop of `lock`: `for (k = 0; k < n_xoration; k++)
t0 ^= get_bit(source, source_indexes[ijk++]);` over the pair `(t0, ijk)`. The entry of
the index array is an `unsigned` value that `get_bit` receives as an `int`; the running
index `ijk` is an `unsigned int`. The operands are bits, so the `unsigned char` `t0`
holds the XOR without truncation. -/
def lock_xor (source source_indexes : List Nat) (n_xoration : Nat) (t0 ijk : Nat) :
    Except Fault (Nat × Nat) :=
  forLoop n_xoration (fun _ (acc : Nat × Nat) => do
    let x ← load source_indexes acc.2
    let i1 ← as_int x
    let s ← get_bit source i1
    pure (acc.1 ^^^ s, (acc.2 + 1) % 2 ^ 32)) (t0, ijk)

/-- Middle loop of `lock`: `for (j = 0; j < n_locks; j++) { t0 = b; ...;
set_bit_v_2D(vault, i, j, n_locks, t0); }` over the pair `(vault, ijk)`. The `unsigned`
values `i`, `j` and `n_locks` are passed for `int` parameters. -/
def lock_row (source source_indexes : List Nat) (n_locks n_xoration : Nat) (i b : Nat)
    (vault : List Nat) (ijk : Nat) : Except Fault (List Nat × Nat) :=
  forLoop n_locks (fun j (st : List Nat × Nat) => do
    let r ← lock_xor source source_indexes n_xoration b st.2
    let ii ← as_int i
    let ji ← as_int j
    let jj ← as_int n_locks
    let vault1 ← set_bit_v_2D st.1 ii ji jj r.1
    pure (vault1, r.2)) (vault, ijk)

/-- State of `lock` after its outer loop `for (i = 0; i < pool_bits; i++)
{ b = get_bit(pool, i); ... }`: the vault and the running index `ijk`. The `unsigned`
counter `i` is passed to `get_bit` for an `int` parameter. -/
def lock_loop (source source_indexes pool : List Nat) (pool_bits n_locks n_xoration : Nat)
    (vault : List Nat) : Except Fault (List Nat × Nat) :=
  forLoop pool_bits (fun i (st : List Nat × Nat) => do
    let ii ← as_int i
    let b ← get_bit pool ii
    lock_row source source_indexes n_locks n_xoration i b st.1 st.2) (vault, 0)

/-- `lock(source, source_indexes, pool, pool_bits, n_locks, n_xoration, vault)`:
returns the vault it leaves. -/
def lock (source source_indexes pool : List Nat) (pool_bits n_locks n_xoration : Nat)
    (vault : List Nat) : Except Fault (List Nat) := do
  let st ← lock_loop source source_indexes pool pool_bits n_locks n_xoration vault
  pure st.1

/-- Decoding of one lock cell in `unlock`: `b = get_bit_2D(vault, i0, j, n_locks);
for (k = 0; k < n_xoration; k++) { i1 = get_int_3D(source_indexes, i0, j, k, di,
n_xoration); b ^= get_bit(source, i1); }`. The `unsigned` values `i0`, `j`, `k`,
`n_locks`, `n_xoration` and `i1` are passed for `int` parameters; `di` is the value of
`int di = n_locks * n_xoration`, an `unsigned` product stored to an `int`, converted here
where it is used. -/
def unlock_cell (source source_indexes vault : List Nat) (n_locks n_xoration : Nat)
    (i0 j : Nat) : Except Fault Nat := do
  let ii ← as_int i0
  let ji ← as_int j
  let jj ← as_int n_locks
  let b ← get_bit_2D vault ii ji jj
  forLoop n_xoration (fun k b => do
    let ki ← as_int k
    let di ← as_int (n_locks * n_xoration % 2 ^ 32)
    let kk ← as_int n_xoration
    let x ← get_int_3D source_indexes ii ji ki di kk
    let i1 ← as_int x
    let s ← get_bit source i1
    pure (b ^^^ s)) b

/-- The vote counter `c` of `unlock` for pool bit `i0`: `c = 0;
for (j = 0; j < n_locks; j++) { ...; if (b) c++; }`. The counter is an `int`. -/
def unlock_votes (source source_indexes vault : List Nat) (n_locks n_xoration : Nat)
    (i0 : Nat) : Except Fault Nat :=
  forLoop n_locks (fun j c => do
    let b ← unlock_cell source source_indexes vault n_locks n_xoration i0 j
    if b ≠ 0 then as_int (c + 1) else pure c) 0

/-- `unlock(source, source_indexes, vault, key, key_indexes, key_bits, n_locks,
n_xoration)`: returns the key buffer it leaves. `mid` is the value of
`int mid = n_locks / 2`, converted here where it is compared with the `int` counter `c`;
the `unsigned` counter `i` is passed to `set_bit_v` for an `int` parameter. -/
def unlock (source source_indexes vault key key_indexes : List Nat)
    (key_bits n_locks n_xoration : Nat) : Except Fault (List Nat) :=
  forLoop key_bits (fun i key => do
    let i0 ← load key_indexes i
    let c ← unlock_votes source source_indexes vault n_locks n_xoration i0
    let mid ← as_int (n_locks / 2)
    let ii ← as_int i
    if c > mid then set_bit_v key ii 1 else set_bit_v key ii 0) key

/-! ## The index generator of `src/indexes.c`

The C library state is made explicit: `now` is the value that `time(NULL)` returns at
the call, as an `unsigned long`, and `rand s k` is the value of the `k`-th call of
`rand()` after `srand(s)`. The build flag `_DEBUG_` is the parameter `debug`; the
build without `_SPEED_` is modelled, in which a call that is not rejected returns 0.
A null pointer is `none`. `unsigned long` and `size_t` have 64 bits, `unsigned` 32. -/

/-- What a call of `prng_rand` leaves: the returned value, the contents of the
caller's seed slot and the contents of the caller's output array. -/
structure RandResult where
  ret : Int
  seed : Option Nat
  indexes : Option (List Nat)
  deriving DecidableEq, Repr

/-- Number of bytes of the scratch array `unsigned char arr[upperbound - lowerbound + 1]`,
computed in `unsigned` arithmetic. -/
def scratch_len (lowerbound upperbound : Nat) : Nat :=
  (upperbound + 2 ^ 32 - lowerbound + 1) % 2 ^ 32

/-- The scan `while (char_check_bit(arr, index)) index = (index + 1) % upperbound;`.
The scan leaves `arr` as it is and after `upperbound` steps it is back at the slot it
started from, so a scan that has not stopped within `upperbound` steps never stops:
the first argument counts the steps that remain of the first `upperbound`. -/
def probe (arr : List Nat) (upperbound : Nat) : Nat → Nat → Except Fault Nat
  | 0, _ => .error .loops
  | fuel + 1, index => do
    let c ← char_check_bit arr index
    if c ≠ 0 then probe arr upperbound fuel ((index + 1) % 2 ^ 32 % upperbound)
    else pure index

/-- One iteration of `while (i < size) { ... }` in `prng_rand`, on the pair
`(arr, indexes)`: `index = (rand() + lowerbound) % upperbound;` then, without
replacement, the scan and `char_set_bit(arr, index);` and last `indexes[i++] = index;`.
The sum is an `unsigned` sum. -/
def prng_rand_step (stream : Nat → Nat) (lowerbound upperbound replacement : Nat)
    (i : Nat) (st : List Nat × List Nat) : Except Fault (List Nat × List Nat) :=
  if upperbound = 0 then .error .div_zero
  else
    let index := (stream i + lowerbound) % 2 ^ 32 % upperbound
    if replacement = 0 then do
      let index1 ← probe st.1 upperbound upperbound index
      let arr1 ← char_set_bit st.1 index1
      let out1 ← store st.2 i index1
      pure (arr1, out1)
    else do
      let out1 ← store st.2 i index
      pure (st.1, out1)

/-- The value `_seed` given to `srand` by `prng_rand`: `if (seed && *seed) _seed = *seed;
else _seed = (unsigned long)time(NULL);`. -/
def seed_used (now : Nat) (seed : Option Nat) : Nat :=
  match seed with
  | some s => if s ≠ 0 then s else now
  | none => now

/-- The caller's seed slot after that block: in the `else` branch
`if (seed) *seed = _seed;`. -/
def seed_left (now : Nat) (seed : Option Nat) : Option Nat :=
  match seed with
  | some s => if s ≠ 0 then some s else some now
  | none => none

/-- `prng_rand(seed, size, indexes, lowerbound, upperbound, replacement)`: the checks
under `#ifdef _DEBUG_`, the scratch array `arr` (zeroed by `memset` without replacement,
never read with replacement), the seed, `srand(_seed)` and the loop
`i = 0; while (i < size) { ... }`.
The counter `i` is an `unsigned int` compared with a `size_t`: for a `size` of
`2 ^ 32` or more it never reaches `size`. A null `indexes` is an array without
elements. -/
def prng_rand (debug : Bool) (now : Nat) (rand : Nat → Nat → Nat) (seed : Option Nat)
    (size : Nat) (indexes : Option (List Nat)) (lowerbound upperbound replacement : Nat) :
    Except Fault RandResult :=
  if debug = true ∧ size < 1 then .ok ⟨-1, seed, indexes⟩
  else if debug = true ∧ upperbound ≤ lowerbound then .ok ⟨-1, seed, indexes⟩
  else if debug = true ∧ replacement = 0 ∧ upperbound - lowerbound < size then
    .ok ⟨-1, seed, indexes⟩
  else if debug = true ∧ indexes = none then .ok ⟨-1, seed, indexes⟩
  else
    let arr := List.replicate (scratch_len lowerbound upperbound) 0
    let _seed := seed_used now seed
    if 2 ^ 32 ≤ size then .error .loops
    else do
      let st ← forLoop size
        (prng_rand_step (rand (_seed % 2 ^ 32)) lowerbound upperbound replacement)
        (arr, indexes.getD [])
      pure ⟨0, seed_left now seed, indexes.map (fun _ => st.2)⟩

/-- `prng_rand_with_replacement`: `prng_rand(seed, size, indexes, lowerbound,
upperbound, 1)`. -/
def prng_rand_with_replacement (debug : Bool) (now : Nat) (rand : Nat → Nat → Nat)
    (seed : Option Nat) (size : Nat) (indexes : Option (List Nat))
    (lowerbound upperbound : Nat) : Except Fault RandResult :=
  prng_rand debug now rand seed size indexes lowerbound upperbound 1

/-- `prng_rand_without_replacement`: `prng_rand(seed, size, indexes, lowerbound,
upperbound, 0)`. -/
def prng_rand_without_replacement (debug : Bool) (now : Nat) (rand : Nat → Nat → Nat)
    (seed : Option Nat) (size : Nat) (indexes : Option (List Nat))
    (lowerbound upperbound : Nat) : Except Fault RandResult :=
  prng_rand debug now rand seed size indexes lowerbound upperbound 0

/-! ## The extractor of `src/xlock.c`

`HMAC k m` is the digest that `HMAC(EVP_sha256(), &k, sizeof(unsigned long), m, len, md,
&md_len)` writes to `md` for the `unsigned long` key `k` and the message bytes `m`; the
library writes the whole digest and sets `md_len` to its length, whatever `md_len` holds
at the call. The local arrays of
`gen` and `rep` are not initialised: their first contents are the parameter `junk`.
The calls of `time(NULL)` each have their own reading. The build without `_SPEED_` and
without `_VERBOSE_` is modelled. -/

/-- Contents of the local arrays of `gen` and `rep` before their first write. -/
structure Junk where
  key_pre : Nat → Nat
  source_indexes : Nat → Nat
  key_indexes : Nat → Nat
  T : Nat → Nat

/-- A local array `unsigned char a[n]` that has not been written. -/
def local_bytes (junk : Nat → Nat) (n : Nat) : List Nat :=
  (List.range n).map (fun k => junk k % 256)

/-- A local array `unsigned int a[n]` that has not been written. -/
def local_words (junk : Nat → Nat) (n : Nat) : List Nat :=
  (List.range n).map (fun k => junk k % 2 ^ 32)

/-- The first `n` bytes of a buffer, as a library function reads them. -/
def read_bytes (b : List Nat) (n : Nat) : Except Fault (List Nat) :=
  if n ≤ b.length then .ok (b.take n) else .error .oob

/-- The buffer `b` after a library function has written the bytes `d` to its start. -/
def write_bytes (b d : List Nat) : Except Fault (List Nat) :=
  if d.length ≤ b.length then .ok (d ++ b.drop d.length) else .error .oob

/-- The `unsigned long` behind a pointer that is read; a fault for a null pointer. -/
def deref (p : Option Nat) : Except Fault Nat :=
  match p with
  | some x => .ok x
  | none => .error .oob

/-- `strncmp(s1, s2, n)` of the C library, from position `i` on with `n` characters
left: the characters are compared in order, the first difference decides the sign of
the result, and the comparison ends with 0 after `n` characters or after a character
that is the null character in both strings. -/
def strncmp_from (s1 s2 : List Nat) : Nat → Nat → Except Fault Int
  | _, 0 => .ok 0
  | i, n + 1 => do
    let a ← load s1 i
    let b ← load s2 i
    if a ≠ b then pure ((a : Int) - (b : Int))
    else if a = 0 then pure 0
    else strncmp_from s1 s2 (i + 1) n

/-- `strncmp(s1, s2, n)` of the C library. -/
def strncmp (s1 s2 : List Nat) (n : Nat) : Except Fault Int :=
  strncmp_from s1 s2 0 n

/-- What `gen` leaves: its return value, the two seed slots, the local `key_pre` as it
is given to HMAC, the nonce slot, the key buffer and the token buffer. -/
structure GenResult where
  ret : Int
  source_seed : Option Nat
  key_seed : Option Nat
  key_pre : List Nat
  nonce : Nat
  key : List Nat
  token : List Nat
  deriving DecidableEq, Repr

/-- `gen(read, source_seed, source_bits, vault, key, key_seed, key_bits, key_pre_bits,
nonce, token, token_bytes, pool_bits, n_locks, n_xoration)`. The product
`pool_bits * n_locks * n_xoration` is an `unsigned` product. -/
def gen (debug : Bool) (now_src now_key now_nonce : Nat) (rand : Nat → Nat → Nat)
    (HMAC : Nat → List Nat → List Nat) (junk : Junk)
    (read : List Nat) (source_seed : Option Nat) (source_bits : Nat) (vault key : List Nat)
    (key_seed : Option Nat) (key_bits key_pre_bits : Nat) (token : List Nat)
    (token_bytes pool_bits n_locks n_xoration : Nat) : Except Fault GenResult := do
  let key_pre := local_bytes junk.key_pre (bits_to_bytes key_pre_bits)
  let source_indexes :=
    local_words junk.source_indexes (pool_bits * n_locks * n_xoration % 2 ^ 32)
  let key_indexes := local_words junk.key_indexes key_pre_bits
  -- generate sets of indexes
  let r1 ← prng_rand_without_replacement debug now_src rand source_seed
    (pool_bits * n_locks * n_xoration % 2 ^ 32) (some source_indexes) 0 source_bits
  let r2 ← prng_rand_without_replacement debug now_key rand key_seed
    key_pre_bits (some key_indexes) 0 pool_bits
  -- generate key_pre
  let key_pre1 ← unlock read (r1.indexes.getD []) vault key_pre (r2.indexes.getD [])
    key_pre_bits n_locks n_xoration
  -- srand(time(NULL)); *nonce = (unsigned long)rand();
  let nonce := rand (now_nonce % 2 ^ 32) 0
  -- key = hash(key_pre, nonce)
  let _md_len := bits_to_bytes key_bits
  let msg ← read_bytes key_pre1 (bits_to_bytes key_pre_bits)
  let key1 ← write_bytes key (HMAC nonce msg)
  -- token = hash(key, key_seed)
  let _md_len := token_bytes
  let ks ← deref r2.seed
  let msg2 ← read_bytes key1 (bits_to_bytes key_bits)
  let token1 ← write_bytes token (HMAC ks msg2)
  pure ⟨0, r1.seed, r2.seed, key_pre1, nonce, key1, token1⟩

/-- The state of `rep` when it reaches `if (strncmp(...))`: the two seed slots, the
local `key_pre`, the key buffer with the recomputed key and the local `T` with the
recomputed token. -/
structure RepState where
  source_seed : Option Nat
  key_seed : Option Nat
  key_pre : List Nat
  key : List Nat
  T : List Nat
  deriving DecidableEq, Repr

/-- What `rep` leaves: its return value and the state in which it returns. -/
structure RepResult where
  ret : Int
  source_seed : Option Nat
  key_seed : Option Nat
  key_pre : List Nat
  key : List Nat
  T : List Nat
  deriving DecidableEq, Repr

/-- The statements of `rep` before the comparison of the tokens. -/
def rep_recompute (debug : Bool) (now_src now_key : Nat) (rand : Nat → Nat → Nat)
    (HMAC : Nat → List Nat → List Nat) (junk : Junk)
    (read : List Nat) (source_seed : Option Nat) (source_bits : Nat) (vault key : List Nat)
    (key_seed : Option Nat) (key_bits key_pre_bits : Nat) (nonce : Nat)
    (token_bytes pool_bits n_locks n_xoration : Nat) : Except Fault RepState := do
  let key_pre := local_bytes junk.key_pre (bits_to_bytes key_pre_bits)
  let T := local_bytes junk.T token_bytes
  let source_indexes :=
    local_words junk.source_indexes (pool_bits * n_locks * n_xoration % 2 ^ 32)
  let key_indexes := local_words junk.key_indexes key_pre_bits
  -- generate sets of indexes
  let r1 ← prng_rand_without_replacement debug now_src rand source_seed
    (pool_bits * n_locks * n_xoration % 2 ^ 32) (some source_indexes) 0 source_bits
  let r2 ← prng_rand_without_replacement debug now_key rand key_seed
    key_pre_bits (some key_indexes) 0 pool_bits
  -- generate key_pre
  let key_pre1 ← unlock read (r1.indexes.getD []) vault key_pre (r2.indexes.getD [])
    key_pre_bits n_locks n_xoration
  -- key = hash(key_pre, nonce)
  let _md_len := bits_to_bytes key_bits
  let msg ← read_bytes key_pre1 (bits_to_bytes key_pre_bits)
  let key1 ← write_bytes key (HMAC nonce msg)
  -- token = hash(key, key_seed)
  let _md_len := token_bytes
  let ks ← deref r2.seed
  let msg2 ← read_bytes key1 (bits_to_bytes key_bits)
  let T1 ← write_bytes T (HMAC ks msg2)
  pure ⟨r1.seed, r2.seed, key_pre1, key1, T1⟩

/-- The end of `rep`: `if (strncmp((char *)T, (char *)token, token_bytes))
{ for (i = 0; i < bits_to_bytes(key_bits); i++) key[i] = 0; key = NULL; } return 0;`.
The assignment `key = NULL` changes the local pointer only. -/
def rep_check (st : RepState) (key_bits : Nat) (token : List Nat) (token_bytes : Nat) :
    Except Fault RepResult := do
  let c ← strncmp st.T token token_bytes
  if c ≠ 0 then do
    let key1 ← forLoop (bits_to_bytes key_bits) (fun i key => store key i 0) st.key
    pure ⟨0, st.source_seed, st.key_seed, st.key_pre, key1, st.T⟩
  else
    pure ⟨0, st.source_seed, st.key_seed, st.key_pre, st.key, st.T⟩

/-- `rep(read, source_seed, source_bits, vault, key, key_seed, key_bits, key_pre_bits,
nonce, token, token_bytes, pool_bits, n_locks, n_xoration)`. -/
def rep (debug : Bool) (now_src now_key : Nat) (rand : Nat → Nat → Nat)
    (HMAC : Nat → List Nat → List Nat) (junk : Junk)
    (read : List Nat) (source_seed : Option Nat) (source_bits : Nat) (vault key : List Nat)
    (key_seed : Option Nat) (key_bits key_pre_bits : Nat) (nonce : Nat) (token : List Nat)
    (token_bytes pool_bits n_locks n_xoration : Nat) : Except Fault RepResult := do
  let st ← rep_recompute debug now_src now_key rand HMAC junk read source_seed source_bits
    vault key key_seed key_bits key_pre_bits nonce token_bytes pool_bits n_locks n_xoration
  rep_check st key_bits token token_bytes

/-! ## Specification-level readings of the buffers -/

/-- Value of bit `i` of a buffer, LSB first within each byte; 0 outside the buffer.
It is what `get_bit` returns inside the buffer (`get_bit_ok`). -/
def bit_of (b : List Nat) (i : Nat) : Nat := (b.getD (i / 8) 0 >>> (i % 8)) &&& 1

/-- Byte computed by `set_bit_v` from the old byte `t`, the bit number `k` and `v`. -/
def put_bit (t k v : Nat) : Nat :=
  (t ^^^ ((((2 ^ 64 - v) % 2 ^ 64) ^^^ t) &&& (1 <<< k))) % 256

/-- XOR of the `n` source bits selected by `source_indexes[base .. base + n - 1]`. -/
def xor_src (source source_indexes : List Nat) (base : Nat) : Nat → Nat
  | 0 => 0
  | n + 1 => xor_src source source_indexes base n
      ^^^ bit_of source (source_indexes.getD (base + n) 0)

/-- The indices of `source_indexes` all address a bit inside `source`. -/
def indexes_inside (source source_indexes : List Nat) : Prop :=
  ∀ x ∈ source_indexes, x / 8 < source.length


/-- Value decoded by `unlock` from lock cell `(i0, j)`: the vault bit XOR the source
bits selected for that cell (`unlock_cell_ok`). -/
def cell_value (source source_indexes vault : List Nat) (n_locks n_xoration : Nat)
    (i0 j : Nat) : Nat :=
  bit_of vault (i0 * n_locks + j)
    ^^^ xor_src source source_indexes ((i0 * n_locks + j) * n_xoration) n_xoration

/-- Number of lock cells of pool bit `i0` that decode to a non-zero value. -/
def vote_count (source source_indexes vault : List Nat) (n_locks n_xoration : Nat)
    (i0 : Nat) : Nat :=
  (List.range n_locks).countP
    (fun j => decide (cell_value source source_indexes vault n_locks n_xoration i0 j ≠ 0))

/-! ## Stand-ins for the C library in the evaluations below -/

/-- A stand-in for `srand`/`rand`: after `srand(s)` the `k`-th value is `s + k`. -/
def test_rand : Nat → Nat → Nat := fun s k => s + k

/-- A stand-in for HMAC-SHA256 with a digest of 32 bytes: every byte of the digest is
the key plus the first byte of the message, modulo 256. -/
def test_HMAC : Nat → List Nat → List Nat :=
  fun k m => List.replicate 32 ((k + m.headD 0) % 256)

/-- Local arrays that start with all bits 0. -/
def junk_zeros : Junk := ⟨fun _ => 0, fun _ => 0, fun _ => 0, fun _ => 0⟩

/-- Local arrays that start with all bits 1. -/
def junk_ones : Junk := ⟨fun _ => 255, fun _ => 2 ^ 32 - 1, fun _ => 2 ^ 32 - 1, fun _ => 255⟩

/-! ## Basic facts -/

theorem load_ok {b : List Nat} {i : Nat} (h : i < b.length) : load b i = .ok (b.getD i 0) := by
  simp [load, List.getD, List.getElem?_eq_getElem h]

theorem load_ok_iff {b : List Nat} {i : Nat} : (∃ x, load b i = .ok x) ↔ i < b.length := by
  constructor
  · rintro ⟨x, hx⟩
    by_contra hlt
    have : b[i]? = none := List.getElem?_eq_none (by omega)
    simp [load, this] at hx
  · intro h
    exact ⟨_, load_ok h⟩

theorem store_ok {b : List Nat} {i : Nat} (x : Nat) (h : i < b.length) :
    store b i x = .ok (b.set i x) := by
  simp [store, h]

theorem get_bit_ok {b : List Nat} {i : Nat} (h : i / 8 < b.length) :
    get_bit b i = .ok (bit_of b i) := by
  simp [get_bit, bit_of, load_ok h, bind, Except.bind, pure, Except.pure]

theorem get_bit_ok_of_lt {b : List Nat} {i n : Nat} (hi : i < n) (hn : n ≤ 8 * b.length) :
    get_bit b i = .ok (bit_of b i) :=
  get_bit_ok (by omega)

theorem set_bit_v_ok {b : List Nat} {i : Nat} (v : Nat) (h : i / 8 < b.length) :
    set_bit_v b i v = .ok (b.set (i / 8) (put_bit (b.getD (i / 8) 0) (i % 8) v)) := by
  simp [set_bit_v, put_bit, load_ok h, store_ok _ h, bind, Except.bind]

theorem shr_and_one (x m : Nat) : (x >>> m) &&& 1 = (x.testBit m).toNat := by
  rw [Nat.and_one_is_mod, Nat.testBit_to_div_mod, Nat.shiftRight_eq_div_pow]
  rcases Nat.mod_two_eq_zero_or_one (x / 2 ^ m) with h | h <;> simp [h]

theorem bit_of_le_one (b : List Nat) (i : Nat) : bit_of b i ≤ 1 := by
  unfold bit_of
  rw [shr_and_one]
  cases Nat.testBit _ _ <;> simp

theorem put_bit_testBit (t k v m : Nat) (hk : k < 8) (hm : m < 8) (hv : v ≤ 1) :
    (put_bit t k v).testBit m = if m = k then decide (v = 1) else t.testBit m := by
  have h256 : (256 : Nat) = 2 ^ 8 := by norm_num
  unfold put_bit
  rw [h256, Nat.testBit_mod_two_pow, Nat.testBit_xor, Nat.testBit_and, Nat.testBit_xor,
    Nat.one_shiftLeft, Nat.testBit_two_pow]
  have hv2 : v = 0 ∨ v = 1 := by omega
  rcases hv2 with rfl | rfl
  · by_cases hmk : m = k
    · subst hmk
      simp [hm]
    · have : ¬ k = m := fun h => hmk h.symm
      simp [hm, hmk, this]
  · have h1 : (2 ^ 64 - 1) % 2 ^ 64 = 2 ^ 64 - 1 := by norm_num
    rw [h1, Nat.testBit_two_pow_sub_one]
    have hm64 : m < 64 := by omega
    by_cases hmk : m = k
    · subst hmk
      simp [hm, hm64]
    · have : ¬ k = m := fun h => hmk h.symm
      simp [hm, hmk, this]

theorem bit_of_set (b : List Nat) (i v j : Nat) (h : i / 8 < b.length) (hv : v ≤ 1) :
    bit_of (b.set (i / 8) (put_bit (b.getD (i / 8) 0) (i % 8) v)) j
      = if j = i then v else bit_of b j := by
  unfold bit_of
  by_cases hb : j / 8 = i / 8
  · have hget : (b.set (i / 8) (put_bit (b.getD (i / 8) 0) (i % 8) v)).getD (j / 8) 0
        = put_bit (b.getD (i / 8) 0) (i % 8) v := by
      rw [hb]
      simp [List.getD, List.getElem?_set, h]
    rw [hget, shr_and_one, shr_and_one,
      put_bit_testBit _ _ _ _ (Nat.mod_lt _ (by norm_num)) (Nat.mod_lt _ (by norm_num)) hv]
    by_cases hji : j = i
    · subst hji
      have hv2 : v = 0 ∨ v = 1 := by omega
      rcases hv2 with rfl | rfl <;> simp
    · have hmod : ¬ j % 8 = i % 8 := by omega
      simp [hmod, hji, hb]
  · have hji : ¬ j = i := fun h => hb (by rw [h])
    have hne : ¬ i / 8 = j / 8 := fun h => hb h.symm
    simp [List.getD, List.getElem?_set, hne, hji]

theorem xor_le_one {a b : Nat} (ha : a ≤ 1) (hb : b ≤ 1) : a ^^^ b ≤ 1 := by
  have ha2 : a = 0 ∨ a = 1 := by omega
  have hb2 : b = 0 ∨ b = 1 := by omega
  rcases ha2 with rfl | rfl <;> rcases hb2 with rfl | rfl <;> decide

theorem xor_xor_cancel (p x : Nat) : (p ^^^ x) ^^^ x = p := by
  rw [Nat.xor_assoc, Nat.xor_self, Nat.xor_zero]

theorem forLoop_zero {σ : Type} (body : Nat → σ → Except Fault σ) (s : σ) :
    forLoop 0 body s = .ok s := rfl

theorem forLoop_succ {σ : Type} (n : Nat) (body : Nat → σ → Except Fault σ) (s : σ) :
    forLoop (n + 1) body s = (forLoop n body s >>= body n) := rfl

/-- Invariant rule for `forLoop`: an invariant that holds at entry and that every
iteration re-establishes (while returning a value) holds when the loop returns. -/
theorem forLoop_inv {σ : Type} (P : Nat → σ → Prop) (body : Nat → σ → Except Fault σ)
    (s0 : σ) (n : Nat) (h0 : P 0 s0)
    (hstep : ∀ i s, i < n → P i s → ∃ s1, body i s = .ok s1 ∧ P (i + 1) s1) :
    ∃ s, forLoop n body s0 = .ok s ∧ P n s := by
  induction n with
  | zero => exact ⟨s0, rfl, h0⟩
  | succ m ih =>
    obtain ⟨s, hs, hP⟩ := ih (fun i s hi hp => hstep i s (Nat.lt_succ_of_lt hi) hp)
    obtain ⟨s1, hs1, hP1⟩ := hstep m s (Nat.lt_succ_self m) hP
    exact ⟨s1, by rw [forLoop_succ, hs]; exact hs1, hP1⟩

theorem xor_src_le_one (source source_indexes : List Nat) (base n : Nat) :
    xor_src source source_indexes base n ≤ 1 := by
  induction n with
  | zero => simp [xor_src]
  | succ m ih => exact xor_le_one ih (bit_of_le_one _ _)

theorem indexes_inside_of_lt {source source_indexes : List Nat} {source_bits : Nat}
    (hI : ∀ x ∈ source_indexes, x < source_bits) (hs : source_bits ≤ 8 * source.length) :
    indexes_inside source source_indexes := by
  intro x hx
  have := hI x hx
  omega

theorem getD_mem {l : List Nat} {i : Nat} (h : i < l.length) : l.getD i 0 ∈ l := by
  have : l.getD i 0 = l[i] := by simp [List.getD, List.getElem?_eq_getElem h]
  rw [this]
  exact List.getElem_mem h

theorem as_int_ok {x : Nat} (h : x < 2 ^ 31) : as_int x = .ok x := by
  unfold as_int
  rw [if_pos h]

theorem get_bit_2D_ok {b : List Nat} {i j jj : Nat} (h : i * jj + j < 2 ^ 31) :
    get_bit_2D b i j jj = get_bit b (i * jj + j) := by
  have h1 : i * jj < 2 ^ 31 := by omega
  simp only [get_bit_2D, as_int_ok h1, as_int_ok h, bind, Except.bind]

theorem set_bit_v_2D_ok {b : List Nat} {i j jj : Nat} (v : Nat) (h : i * jj + j < 2 ^ 31) :
    set_bit_v_2D b i j jj v = set_bit_v b (i * jj + j) v := by
  have h1 : i * jj < 2 ^ 31 := by omega
  simp only [set_bit_v_2D, as_int_ok h1, as_int_ok h, bind, Except.bind]

theorem get_int_3D_ok {b : List Nat} {i j k di kk : Nat} (h : i * di + j * kk + k < 2 ^ 31) :
    get_int_3D b i j k di kk = load b (i * di + j * kk + k) := by
  have h1 : i * di < 2 ^ 31 := by omega
  have h2 : j * kk < 2 ^ 31 := by omega
  have h3 : i * di + j * kk < 2 ^ 31 := by omega
  simp only [get_int_3D, as_int_ok h1, as_int_ok h2, as_int_ok h3, as_int_ok h, bind,
    Except.bind]

theorem lock_xor_ok (source source_indexes : List Nat) (n_xoration t0 ijk : Nat)
    (hin : indexes_inside source source_indexes)
    (hlen : ijk + n_xoration ≤ source_indexes.length)
    (h31 : ∀ x ∈ source_indexes, x < 2 ^ 31) (hw : ijk + n_xoration < 2 ^ 32) :
    lock_xor source source_indexes n_xoration t0 ijk
      = .ok (t0 ^^^ xor_src source source_indexes ijk n_xoration, ijk + n_xoration) := by
  obtain ⟨s, hs, hP⟩ := forLoop_inv
    (fun k (acc : Nat × Nat) => acc = (t0 ^^^ xor_src source source_indexes ijk k, ijk + k))
    (fun _ (acc : Nat × Nat) => do
      let x ← load source_indexes acc.2
      let i1 ← as_int x
      let s ← get_bit source i1
      pure (acc.1 ^^^ s, (acc.2 + 1) % 2 ^ 32)) (t0, ijk) n_xoration
    (by simp [xor_src])
    (by
      intro k acc hk hacc
      subst hacc
      have hk2 : ijk + k < source_indexes.length := by omega
      have hmod : (ijk + (k + 1)) % 2 ^ 32 = ijk + (k + 1) := Nat.mod_eq_of_lt (by omega)
      refine ⟨_, ?_, rfl⟩
      simp only [load_ok hk2, as_int_ok (h31 _ (getD_mem hk2)),
        get_bit_ok (hin _ (getD_mem hk2)), bind, Except.bind, pure,
        Except.pure, xor_src, Nat.xor_assoc, Nat.add_assoc, hmod])
  unfold lock_xor
  rw [hs, hP]

theorem cell_lt {i j a b : Nat} (hi : i < a) (hj : j < b) : i * b + j < a * b := by
  calc i * b + j < i * b + b := by omega
    _ = (i + 1) * b := by ring
    _ ≤ a * b := Nat.mul_le_mul_right b hi

theorem cell_succ_le {i a b : Nat} (hi : i < a) : i * b + b ≤ a * b := by
  calc i * b + b = (i + 1) * b := by ring
    _ ≤ a * b := Nat.mul_le_mul_right b hi

theorem lock_row_ok (source source_indexes : List Nat) (n_locks n_xoration i b : Nat)
    (vault : List Nat) (ijk : Nat) (hb : b ≤ 1)
    (hin : indexes_inside source source_indexes)
    (hI : ijk + n_locks * n_xoration ≤ source_indexes.length)
    (hV : i * n_locks + n_locks ≤ 8 * vault.length)
    (h31 : ∀ x ∈ source_indexes, x < 2 ^ 31) (hw : ijk + n_locks * n_xoration < 2 ^ 32)
    (hc : i * n_locks + n_locks < 2 ^ 31) :
    ∃ V, lock_row source source_indexes n_locks n_xoration i b vault ijk
        = .ok (V, ijk + n_locks * n_xoration) ∧
      V.length = vault.length ∧
      (∀ j, j < n_locks → bit_of V (i * n_locks + j)
        = b ^^^ xor_src source source_indexes (ijk + j * n_xoration) n_xoration) ∧
      (∀ pos, (pos < i * n_locks ∨ i * n_locks + n_locks ≤ pos) →
        bit_of V pos = bit_of vault pos) := by
  obtain ⟨st, hst, hP1, hP2, hP3, hP4⟩ := forLoop_inv
    (fun j (st : List Nat × Nat) =>
      st.2 = ijk + j * n_xoration ∧ st.1.length = vault.length ∧
      (∀ j1, j1 < j → bit_of st.1 (i * n_locks + j1)
        = b ^^^ xor_src source source_indexes (ijk + j1 * n_xoration) n_xoration) ∧
      (∀ pos, (pos < i * n_locks ∨ i * n_locks + j ≤ pos) → bit_of st.1 pos = bit_of vault pos))
    (fun j (st : List Nat × Nat) => do
      let r ← lock_xor source source_indexes n_xoration b st.2
      let ii ← as_int i
      let ji ← as_int j
      let jj ← as_int n_locks
      let vault1 ← set_bit_v_2D st.1 ii ji jj r.1
      pure (vault1, r.2)) (vault, ijk) n_locks
    (by
      refine ⟨by simp, rfl, ?_, ?_⟩
      · intro j1 hj1
        omega
      · intro pos _
        rfl)
    (by
      rintro j ⟨V, c⟩ hj ⟨h1, h2, h3, h4⟩
      simp only at h1 h2 h3 h4
      subst h1
      have hle : j * n_xoration + n_xoration ≤ n_locks * n_xoration := cell_succ_le hj
      have hx := lock_xor_ok source source_indexes n_xoration b (ijk + j * n_xoration) hin
        (by omega) h31 (by omega)
      have hpos : (i * n_locks + j) / 8 < V.length := by omega
      have hi31 : i < 2 ^ 31 := by
        have : i ≤ i * n_locks := Nat.le_mul_of_pos_right i (by omega)
        omega
      have hj31 : j < 2 ^ 31 := by omega
      have hn31 : n_locks < 2 ^ 31 := by omega
      have hp31 : i * n_locks + j < 2 ^ 31 := by omega
      have hv : b ^^^ xor_src source source_indexes (ijk + j * n_xoration) n_xoration ≤ 1 :=
        xor_le_one hb (xor_src_le_one _ _ _ _)
      refine ⟨(V.set ((i * n_locks + j) / 8) (put_bit (V.getD ((i * n_locks + j) / 8) 0)
        ((i * n_locks + j) % 8)
        (b ^^^ xor_src source source_indexes (ijk + j * n_xoration) n_xoration)),
        ijk + j * n_xoration + n_xoration), ?_, ?_, ?_, ?_, ?_⟩
      · simp only [hx, as_int_ok hi31, as_int_ok hj31, as_int_ok hn31, set_bit_v_2D_ok _ hp31,
          set_bit_v_ok _ hpos, bind, Except.bind, pure, Except.pure]
      · simp only
        ring
      · simp [h2]
      · intro j1 hj1
        simp only
        rw [bit_of_set _ _ _ _ hpos hv]
        by_cases hjj : j1 = j
        · subst hjj
          simp
        · have : ¬ i * n_locks + j1 = i * n_locks + j := by omega
          rw [if_neg this]
          exact h3 j1 (by omega)
      · intro pos hp
        simp only
        rw [bit_of_set _ _ _ _ hpos hv]
        have : ¬ pos = i * n_locks + j := by omega
        rw [if_neg this]
        exact h4 pos (by omega))
  refine ⟨st.1, ?_, hP2, hP3, hP4⟩
  unfold lock_row
  rw [hst, ← hP1]


theorem lock_loop_ok (source source_indexes pool : List Nat)
    (pool_bits n_locks n_xoration : Nat) (vault : List Nat)
    (hin : indexes_inside source source_indexes)
    (hI : pool_bits * n_locks * n_xoration ≤ source_indexes.length)
    (hP : pool_bits ≤ 8 * pool.length)
    (hV : pool_bits * n_locks ≤ 8 * vault.length)
    (h31 : ∀ x ∈ source_indexes, x < 2 ^ 31) (hpb : pool_bits ≤ 2 ^ 31)
    (hc : pool_bits * n_locks < 2 ^ 31) (hw : pool_bits * n_locks * n_xoration < 2 ^ 32) :
    ∃ V, lock_loop source source_indexes pool pool_bits n_locks n_xoration vault
        = .ok (V, pool_bits * n_locks * n_xoration) ∧
      V.length = vault.length ∧
      (∀ i j, i < pool_bits → j < n_locks → bit_of V (i * n_locks + j)
        = bit_of pool i ^^^ xor_src source source_indexes ((i * n_locks + j) * n_xoration)
            n_xoration) ∧
      (∀ pos, pool_bits * n_locks ≤ pos → bit_of V pos = bit_of vault pos) := by
  obtain ⟨st, hst, hP1, hP2, hP3, hP4⟩ := forLoop_inv
    (fun i (st : List Nat × Nat) =>
      st.2 = i * n_locks * n_xoration ∧ st.1.length = vault.length ∧
      (∀ i1 j, i1 < i → j < n_locks → bit_of st.1 (i1 * n_locks + j)
        = bit_of pool i1 ^^^ xor_src source source_indexes ((i1 * n_locks + j) * n_xoration)
            n_xoration) ∧
      (∀ pos, i * n_locks ≤ pos → bit_of st.1 pos = bit_of vault pos))
    (fun i (st : List Nat × Nat) => do
      let ii ← as_int i
      let b ← get_bit pool ii
      lock_row source source_indexes n_locks n_xoration i b st.1 st.2) (vault, 0) pool_bits
    (by
      refine ⟨by simp, rfl, ?_, ?_⟩
      · intro i1 j hi1
        omega
      · intro pos _
        rfl)
    (by
      rintro i ⟨V, c⟩ hi ⟨h1, h2, h3, h4⟩
      simp only at h1 h2 h3 h4
      subst h1
      have hrow : i * n_locks + n_locks ≤ pool_bits * n_locks := cell_succ_le hi
      have hidx : i * n_locks * n_xoration + n_locks * n_xoration
          ≤ pool_bits * n_locks * n_xoration := by
        calc i * n_locks * n_xoration + n_locks * n_xoration
            = (i * n_locks + n_locks) * n_xoration := by ring
          _ ≤ pool_bits * n_locks * n_xoration := Nat.mul_le_mul_right _ hrow
      obtain ⟨V1, hr, hl, hbits, hframe⟩ := lock_row_ok source source_indexes n_locks
        n_xoration i (bit_of pool i) V (i * n_locks * n_xoration) (bit_of_le_one _ _) hin
        (by omega) (by omega) h31 (by omega) (by omega)
      refine ⟨(V1, i * n_locks * n_xoration + n_locks * n_xoration), ?_, ?_, ?_, ?_, ?_⟩
      · simp only [as_int_ok (show i < 2 ^ 31 by omega),
          get_bit_ok (show i / 8 < pool.length by omega), bind, Except.bind, hr]
      · simp only
        ring
      · simp only
        omega
      · intro i1 j hi1 hj
        simp only
        by_cases hii : i1 = i
        · subst hii
          rw [hbits j hj]
          congr 2
          ring
        · have hlt : i1 < i := by omega
          have : i1 * n_locks + j < i * n_locks := cell_lt hlt hj
          rw [hframe _ (Or.inl this)]
          exact h3 i1 j hlt hj
      · intro pos hp
        simp only
        have hp2 : i * n_locks + n_locks ≤ pos := by
          have : (i + 1) * n_locks = i * n_locks + n_locks := by ring
          omega
        rw [hframe _ (Or.inr hp2)]
        exact h4 pos (by omega))
  refine ⟨st.1, ?_, hP2, hP3, hP4⟩
  unfold lock_loop
  rw [hst, ← hP1]

/-- Under the bounds of its buffers `lock` returns a vault of the same length whose
cell `(i, j)` is `P[i]` XOR the `n_xoration` source bits selected by the entries
`(i * n_locks + j) * n_xoration ..` of the index sequence; bits past the last cell
are left as they were. -/
theorem lock_ok (source source_indexes pool : List Nat)
    (pool_bits n_locks n_xoration : Nat) (vault : List Nat)
    (hin : indexes_inside source source_indexes)
    (hI : pool_bits * n_locks * n_xoration ≤ source_indexes.length)
    (hP : pool_bits ≤ 8 * pool.length)
    (hV : pool_bits * n_locks ≤ 8 * vault.length)
    (h31 : ∀ x ∈ source_indexes, x < 2 ^ 31) (hpb : pool_bits ≤ 2 ^ 31)
    (hc : pool_bits * n_locks < 2 ^ 31) (hw : pool_bits * n_locks * n_xoration < 2 ^ 32) :
    ∃ V, lock source source_indexes pool pool_bits n_locks n_xoration vault = .ok V ∧
      V.length = vault.length ∧
      (∀ i j, i < pool_bits → j < n_locks → bit_of V (i * n_locks + j)
        = bit_of pool i ^^^ xor_src source source_indexes ((i * n_locks + j) * n_xoration)
            n_xoration) ∧
      (∀ pos, pool_bits * n_locks ≤ pos → bit_of V pos = bit_of vault pos) := by
  obtain ⟨V, h, hl, hb, hf⟩ := lock_loop_ok source source_indexes pool pool_bits n_locks
    n_xoration vault hin hI hP hV h31 hpb hc hw
  exact ⟨V, by simp [lock, h, bind, Except.bind, pure, Except.pure], hl, hb, hf⟩



theorem ok_bind {α β : Type} (a : α) (f : α → Except Fault β) :
    (Except.ok a >>= f) = f a := rfl

theorem unlock_cell_ok (source source_indexes vault : List Nat) (n_locks n_xoration : Nat)
    (i0 j : Nat) (hin : indexes_inside source source_indexes)
    (hI : (i0 * n_locks + j) * n_xoration + n_xoration ≤ source_indexes.length)
    (hV : (i0 * n_locks + j) / 8 < vault.length)
    (h31 : ∀ x ∈ source_indexes, x < 2 ^ 31)
    (hj : j < n_locks) (hn : n_locks < 2 ^ 31)
    (hp31 : i0 * n_locks + j < 2 ^ 31)
    (hx31 : (i0 * n_locks + j) * n_xoration + n_xoration < 2 ^ 31)
    (hdi : n_locks * n_xoration < 2 ^ 31) :
    unlock_cell source source_indexes vault n_locks n_xoration i0 j
      = .ok (cell_value source source_indexes vault n_locks n_xoration i0 j) := by
  have hbase : ∀ k, i0 * (n_locks * n_xoration) + j * n_xoration + k
      = (i0 * n_locks + j) * n_xoration + k := by
    intro k
    ring
  have hi31 : i0 < 2 ^ 31 := by
    have : i0 ≤ i0 * n_locks := Nat.le_mul_of_pos_right i0 (by omega)
    omega
  have hj31 : j < 2 ^ 31 := by omega
  have hdimod : n_locks * n_xoration % 2 ^ 32 = n_locks * n_xoration :=
    Nat.mod_eq_of_lt (by omega)
  obtain ⟨s, hs, hP⟩ := forLoop_inv
    (fun k (b : Nat) => b = bit_of vault (i0 * n_locks + j)
      ^^^ xor_src source source_indexes ((i0 * n_locks + j) * n_xoration) k)
    (fun k b => do
      let ki ← as_int k
      let di ← as_int (n_locks * n_xoration % 2 ^ 32)
      let kk ← as_int n_xoration
      let x ← get_int_3D source_indexes i0 j ki di kk
      let i1 ← as_int x
      let s ← get_bit source i1
      pure (b ^^^ s)) (bit_of vault (i0 * n_locks + j)) n_xoration
    (by simp [xor_src])
    (by
      intro k b hk hb
      subst hb
      have hk2 : (i0 * n_locks + j) * n_xoration + k < source_indexes.length := by omega
      have hk31 : k < 2 ^ 31 := by omega
      have hnx31 : n_xoration < 2 ^ 31 := by
        have : n_xoration ≤ n_locks * n_xoration := Nat.le_mul_of_pos_left _ (by omega)
        omega
      have hpos3 : i0 * (n_locks * n_xoration) + j * n_xoration + k < 2 ^ 31 := by
        rw [hbase]
        omega
      refine ⟨_, ?_, rfl⟩
      simp only [as_int_ok hk31, hdimod, as_int_ok hdi, as_int_ok hnx31, get_int_3D_ok hpos3,
        hbase, load_ok hk2, as_int_ok (h31 _ (getD_mem hk2)),
        get_bit_ok (hin _ (getD_mem hk2)), bind,
        Except.bind, pure, Except.pure, xor_src, Nat.xor_assoc])
  unfold unlock_cell
  rw [as_int_ok hi31, ok_bind, as_int_ok hj31, ok_bind, as_int_ok hn, ok_bind,
    get_bit_2D_ok hp31, get_bit_ok hV, ok_bind]
  exact hs.trans (congrArg Except.ok hP)

theorem countP_range_succ (p : Nat → Bool) (n : Nat) :
    (List.range (n + 1)).countP p = (List.range n).countP p + (if p n then 1 else 0) := by
  rw [List.range_succ, List.countP_append]
  simp [List.countP_cons]

theorem unlock_votes_ok (source source_indexes vault : List Nat) (n_locks n_xoration : Nat)
    (i0 : Nat) (hin : indexes_inside source source_indexes)
    (hI : (i0 * n_locks + n_locks) * n_xoration ≤ source_indexes.length)
    (hV : i0 * n_locks + n_locks ≤ 8 * vault.length)
    (h31 : ∀ x ∈ source_indexes, x < 2 ^ 31)
    (hc31 : i0 * n_locks + n_locks < 2 ^ 31)
    (hx31 : (i0 * n_locks + n_locks) * n_xoration < 2 ^ 31) :
    unlock_votes source source_indexes vault n_locks n_xoration i0
      = .ok (vote_count source source_indexes vault n_locks n_xoration i0) := by
  obtain ⟨s, hs, hP⟩ := forLoop_inv
    (fun j (c : Nat) => c = (List.range j).countP
      (fun j => decide (cell_value source source_indexes vault n_locks n_xoration i0 j ≠ 0)))
    (fun j c => do
      let b ← unlock_cell source source_indexes vault n_locks n_xoration i0 j
      if b ≠ 0 then as_int (c + 1) else pure c) 0 n_locks
    (by simp)
    (by
      intro j c hj hc
      subst hc
      have h1 : (i0 * n_locks + j) * n_xoration + n_xoration
          ≤ (i0 * n_locks + n_locks) * n_xoration := by
        calc (i0 * n_locks + j) * n_xoration + n_xoration
            = (i0 * n_locks + j + 1) * n_xoration := by ring
          _ ≤ (i0 * n_locks + n_locks) * n_xoration := Nat.mul_le_mul_right _ (by omega)
      have hdi : n_locks * n_xoration ≤ (i0 * n_locks + n_locks) * n_xoration :=
        Nat.mul_le_mul_right _ (Nat.le_add_left _ _)
      have hcnt : (List.range j).countP
          (fun j => decide (cell_value source source_indexes vault n_locks n_xoration i0 j
            ≠ 0)) + 1 < 2 ^ 31 := by
        have := List.countP_le_length
          (fun j => decide (cell_value source source_indexes vault n_locks n_xoration i0 j
            ≠ 0)) (l := List.range j)
        rw [List.length_range] at this
        omega
      refine ⟨_, ?_, rfl⟩
      rw [countP_range_succ]
      beta_reduce
      rw [unlock_cell_ok source source_indexes vault n_locks n_xoration i0 j hin
        (by omega) (by omega) h31 hj (by omega) (by omega) (by omega) (by omega), ok_bind]
      by_cases hc : cell_value source source_indexes vault n_locks n_xoration i0 j = 0
      · simp [hc, pure, Except.pure]
      · rw [if_pos hc, as_int_ok hcnt]
        simp [hc])
  unfold unlock_votes
  rw [hs, hP]
  rfl

/-- Under the bounds of its buffers `unlock` returns a key buffer of the same length
whose bit `i < key_bits` is 1 exactly when more than `n_locks / 2` cells of pool bit
`key_indexes[i]` decode to a non-zero value; the bits from `key_bits` on are left as
they were. -/
theorem unlock_ok (source source_indexes vault key key_indexes : List Nat)
    (key_bits n_locks n_xoration pool_bits : Nat)
    (hin : indexes_inside source source_indexes)
    (hI : pool_bits * n_locks * n_xoration ≤ source_indexes.length)
    (hV : pool_bits * n_locks ≤ 8 * vault.length)
    (hKI : key_bits ≤ key_indexes.length)
    (hKIb : ∀ i, i < key_bits → key_indexes.getD i 0 < pool_bits)
    (hK : key_bits ≤ 8 * key.length)
    (h31 : ∀ x ∈ source_indexes, x < 2 ^ 31)
    (hc31 : pool_bits * n_locks < 2 ^ 31)
    (hx31 : pool_bits * n_locks * n_xoration < 2 ^ 31)
    (hkb : key_bits ≤ 2 ^ 31) :
    ∃ K, unlock source source_indexes vault key key_indexes key_bits n_locks n_xoration
        = .ok K ∧
      K.length = key.length ∧
      (∀ i, i < key_bits → bit_of K i
        = if vote_count source source_indexes vault n_locks n_xoration (key_indexes.getD i 0)
            > n_locks / 2 then 1 else 0) ∧
      (∀ pos, key_bits ≤ pos → bit_of K pos = bit_of key pos) := by
  obtain ⟨K, hs, hP1, hP2, hP3⟩ := forLoop_inv
    (fun i (K : List Nat) => K.length = key.length ∧
      (∀ i1, i1 < i → bit_of K i1
        = if vote_count source source_indexes vault n_locks n_xoration
            (key_indexes.getD i1 0) > n_locks / 2 then 1 else 0) ∧
      (∀ pos, i ≤ pos → bit_of K pos = bit_of key pos))
    (fun i key => do
      let i0 ← load key_indexes i
      let c ← unlock_votes source source_indexes vault n_locks n_xoration i0
      let mid ← as_int (n_locks / 2)
      let ii ← as_int i
      if c > mid then set_bit_v key ii 1 else set_bit_v key ii 0) key key_bits
    (by
      refine ⟨rfl, ?_, ?_⟩
      · intro i1 hi1
        omega
      · intro pos _
        rfl)
    (by
      rintro i K hi ⟨h1, h2, h3⟩
      have hi0 := hKIb i hi
      have hrow : key_indexes.getD i 0 * n_locks + n_locks ≤ pool_bits * n_locks :=
        cell_succ_le hi0
      have hrowx : (key_indexes.getD i 0 * n_locks + n_locks) * n_xoration
          ≤ pool_bits * n_locks * n_xoration := Nat.mul_le_mul_right _ hrow
      have hv := unlock_votes_ok source source_indexes vault n_locks n_xoration
        (key_indexes.getD i 0) hin
        (le_trans hrowx hI) (by omega) h31 (by omega) (by omega)
      have hpos : i / 8 < K.length := by omega
      have hmid : n_locks / 2 < 2 ^ 31 := by omega
      have hi31 : i < 2 ^ 31 := by omega
      by_cases hc : vote_count source source_indexes vault n_locks n_xoration
          (key_indexes.getD i 0) > n_locks / 2
      · refine ⟨K.set (i / 8) (put_bit (K.getD (i / 8) 0) (i % 8) 1), ?_, ?_, ?_, ?_⟩
        · simp only [load_ok (show i < key_indexes.length by omega), hv, as_int_ok hmid,
            as_int_ok hi31, bind, Except.bind, if_pos hc, set_bit_v_ok _ hpos]
        · simp [h1]
        · intro i1 hi1
          rw [bit_of_set _ _ _ _ hpos (by norm_num)]
          by_cases hii : i1 = i
          · subst hii
            rw [if_pos rfl, if_pos hc]
          · rw [if_neg hii]
            exact h2 i1 (by omega)
        · intro pos hp
          rw [bit_of_set _ _ _ _ hpos (by norm_num)]
          have : ¬ pos = i := by omega
          rw [if_neg this]
          exact h3 pos (by omega)
      · refine ⟨K.set (i / 8) (put_bit (K.getD (i / 8) 0) (i % 8) 0), ?_, ?_, ?_, ?_⟩
        · simp only [load_ok (show i < key_indexes.length by omega), hv, as_int_ok hmid,
            as_int_ok hi31, bind, Except.bind, if_neg hc, set_bit_v_ok _ hpos]
        · simp [h1]
        · intro i1 hi1
          rw [bit_of_set _ _ _ _ hpos (by norm_num)]
          by_cases hii : i1 = i
          · subst hii
            rw [if_pos rfl, if_neg hc]
          · rw [if_neg hii]
            exact h2 i1 (by omega)
        · intro pos hp
          rw [bit_of_set _ _ _ _ hpos (by norm_num)]
          have : ¬ pos = i := by omega
          rw [if_neg this]
          exact h3 pos (by omega))
  exact ⟨K, hs, hP1, hP2, hP3⟩


theorem cell_value_le_one (source source_indexes vault : List Nat) (n_locks n_xoration : Nat)
    (i0 j : Nat) : cell_value source source_indexes vault n_locks n_xoration i0 j ≤ 1 :=
  xor_le_one (bit_of_le_one _ _) (xor_src_le_one _ _ _ _)

theorem vote_count_const (source source_indexes vault : List Nat) (n_locks n_xoration : Nat)
    (i0 p : Nat)
    (h : ∀ j, j < n_locks → cell_value source source_indexes vault n_locks n_xoration i0 j = p) :
    vote_count source source_indexes vault n_locks n_xoration i0
      = if p ≠ 0 then n_locks else 0 := by
  unfold vote_count
  by_cases hp : p = 0
  · rw [if_neg (by simpa using hp), List.countP_eq_zero]
    intro j hj
    rw [h j (List.mem_range.mp hj)]
    simp [hp]
  · rw [if_pos hp]
    have := (List.countP_eq_length (l := List.range n_locks)
      (p := fun j => decide (cell_value source source_indexes vault n_locks n_xoration i0 j
        ≠ 0))).mpr (by
        intro j hj
        rw [h j (List.mem_range.mp hj)]
        simpa using hp)
    rw [this, List.length_range]

theorem getD_lt_of_forall {l : List Nat} {n i : Nat} (h : ∀ x ∈ l, x < n) (hi : i < l.length) :
    l.getD i 0 < n :=
  h _ (getD_mem hi)

theorem lt_int_of_lt {l : List Nat} {n : Nat} (h : ∀ x ∈ l, x < n) (hn : n ≤ 2 ^ 31) :
    ∀ x ∈ l, x < 2 ^ 31 :=
  fun x hx => Nat.lt_of_lt_of_le (h x hx) hn

/-- C1: round trip under zero noise. With every entry of the index sequence below
`source_bits`, `n_locks >= 1`, buffers that hold the bits they are declared to hold and
sizes whose bit positions and index positions fit the type `int` (`source_bits <= 2^31`,
`pool_bits * n_locks < 2^31`, `pool_bits * n_locks * n_xoration < 2^31`),
`lock` returns a vault `V`, `unlock` on the same source and indexes with
`key_indexes = [0, ..., pool_bits - 1]` and `key_bits = pool_bits` returns a key, and
bit `i` of that key is bit `i` of the pool for every `i < pool_bits`. -/
theorem lock_unlock_round_trip (source source_indexes pool vault key : List Nat)
    (pool_bits n_locks n_xoration source_bits : Nat)
    (hL : 1 ≤ n_locks)
    (hIlen : source_indexes.length = pool_bits * n_locks * n_xoration)
    (hIlt : ∀ x ∈ source_indexes, x < source_bits)
    (hS : source_bits ≤ 8 * source.length)
    (hP : pool_bits ≤ 8 * pool.length)
    (hV : pool_bits * n_locks ≤ 8 * vault.length)
    (hK : pool_bits ≤ 8 * key.length)
    (hSi : source_bits ≤ 2 ^ 31)
    (hCi : pool_bits * n_locks < 2 ^ 31)
    (hIi : pool_bits * n_locks * n_xoration < 2 ^ 31) :
    ∃ V K, lock source source_indexes pool pool_bits n_locks n_xoration vault = .ok V ∧
      unlock source source_indexes V key (List.range pool_bits) pool_bits n_locks n_xoration
        = .ok K ∧
      ∀ i, i < pool_bits → ∃ p, get_bit pool i = .ok p ∧ get_bit K i = .ok p := by
  have hin := indexes_inside_of_lt hIlt hS
  have h31 := lt_int_of_lt hIlt hSi
  have hPi : pool_bits ≤ 2 ^ 31 := by
    have : pool_bits ≤ pool_bits * n_locks := Nat.le_mul_of_pos_right _ (by omega)
    omega
  obtain ⟨V, hlock, hVlen, hVbits, _⟩ := lock_ok source source_indexes pool pool_bits n_locks
    n_xoration vault hin (by omega) hP hV h31 hPi hCi (by omega)
  obtain ⟨K, hunlock, hKlen, hKbits, _⟩ := unlock_ok source source_indexes V key
    (List.range pool_bits) pool_bits n_locks n_xoration pool_bits hin (by omega) (by omega)
    (by simp) (by
      intro i hi
      simp [List.getD, List.getElem?_range hi, hi]) hK h31 hCi hIi hPi
  refine ⟨V, K, hlock, hunlock, ?_⟩
  intro i hi
  refine ⟨bit_of pool i, get_bit_ok (by omega), ?_⟩
  rw [get_bit_ok (by omega), hKbits i hi]
  have hget : (List.range pool_bits).getD i 0 = i := by
    simp [List.getD, List.getElem?_range hi]
  rw [hget, vote_count_const source source_indexes V n_locks n_xoration i (bit_of pool i) (by
    intro j hj
    unfold cell_value
    rw [hVbits i j hi hj, xor_xor_cancel])]
  have hp := bit_of_le_one pool i
  by_cases h0 : bit_of pool i = 0
  · rw [h0]
    simp
  · have h1 : bit_of pool i = 1 := by omega
    rw [h1]
    have : n_locks / 2 < n_locks := by omega
    simp [this]

/-- Witness of C1: a pool of 4 bits, 3 locks per bit and one source bit per lock. -/
theorem lock_unlock_round_trip_witness :
    ∃ V K, lock [181] [0, 1, 2, 3, 4, 5, 6, 7, 0, 1, 2, 3] [5] 4 3 1 [0, 0] = .ok V ∧
      unlock [181] [0, 1, 2, 3, 4, 5, 6, 7, 0, 1, 2, 3] V [255] (List.range 4) 4 3 1 = .ok K ∧
      ∀ i, i < 4 → ∃ p, get_bit [5] i = .ok p ∧ get_bit K i = .ok p :=
  lock_unlock_round_trip [181] [0, 1, 2, 3, 4, 5, 6, 7, 0, 1, 2, 3] [5] [0, 0] [255] 4 3 1 8
    (by decide) (by decide) (by decide) (by decide) (by decide) (by decide) (by decide)
    (by decide) (by decide) (by decide)


theorem flipped_cell (a b x : Nat) (ha : a ≤ 1) (hb : b ≤ 1) (hx : x ≤ 1) :
    (a ^^^ x ≠ 0) ↔ ((a = b ∧ b ^^^ x ≠ 0) ∨ (a ≠ b ∧ b ^^^ x = 0)) := by
  have ha2 : a = 0 ∨ a = 1 := by omega
  have hb2 : b = 0 ∨ b = 1 := by omega
  have hx2 : x = 0 ∨ x = 1 := by omega
  rcases ha2 with rfl | rfl <;> rcases hb2 with rfl | rfl <;> rcases hx2 with rfl | rfl <;> decide

theorem minority_flips_zero (d : Nat → Bool) (L : Nat)
    (h : (List.range L).countP d < CEIL L 2) : ¬ (List.range L).countP d > L / 2 := by
  unfold CEIL at h
  split at h <;> omega

theorem minority_flips_one (d : Nat → Bool) (L : Nat)
    (h : (List.range L).countP d < CEIL L 2) :
    (List.range L).countP (fun j => ! d j) > L / 2 := by
  have hsum := List.length_eq_countP_add_countP (p := d) (List.range L)
  rw [List.length_range] at hsum
  have heq : (List.range L).countP (fun a => decide (¬ d a = true))
      = (List.range L).countP (fun j => ! d j) := by
    apply List.countP_congr
    intro j _
    cases d j <;> simp
  rw [heq] at hsum
  unfold CEIL at h
  split at h <;> omega

/-- C7: majority invariance. Let the sizes be such that every bit position and index
position fits the type `int` (`source_bits`, `pool_bits`, `key_bits` at most `2^31`,
`pool_bits * n_locks` and `pool_bits * n_locks * n_xoration` below `2^31`). Let `V` be
the vault written by `lock` and let `V1` be a
vault of the same size that differs from `V` in fewer than `CEIL(n_locks, 2)` of the
`n_locks` cells of pool bit `i0` (which forces `n_locks >= 1`). Then `unlock` on `V1`
with the same source and indexes returns a key whose bit `i`, for a key index
`key_indexes[i] = i0`, is still the pool bit `P[i0]`. -/
theorem majority_invariance (source source_indexes pool vault key key_indexes : List Nat)
    (pool_bits n_locks n_xoration source_bits key_bits i i0 : Nat)
    (hIlen : source_indexes.length = pool_bits * n_locks * n_xoration)
    (hIlt : ∀ x ∈ source_indexes, x < source_bits)
    (hS : source_bits ≤ 8 * source.length)
    (hP : pool_bits ≤ 8 * pool.length)
    (hV : pool_bits * n_locks ≤ 8 * vault.length)
    (hK : key_bits ≤ 8 * key.length)
    (hKI : key_bits ≤ key_indexes.length)
    (hKIb : ∀ x ∈ key_indexes, x < pool_bits)
    (hi : i < key_bits)
    (hi0 : key_indexes[i]? = some i0)
    (hSi : source_bits ≤ 2 ^ 31) (hPi : pool_bits ≤ 2 ^ 31) (hKi : key_bits ≤ 2 ^ 31)
    (hCi : pool_bits * n_locks < 2 ^ 31)
    (hIi : pool_bits * n_locks * n_xoration < 2 ^ 31) :
    ∃ V, lock source source_indexes pool pool_bits n_locks n_xoration vault = .ok V ∧
      ∀ V1 : List Nat, V1.length = V.length →
        (List.range n_locks).countP (fun j =>
          decide (get_bit V1 (i0 * n_locks + j) ≠ get_bit V (i0 * n_locks + j)))
          < CEIL n_locks 2 →
        ∃ K, unlock source source_indexes V1 key key_indexes key_bits n_locks n_xoration
            = .ok K ∧
          ∃ p, get_bit pool i0 = .ok p ∧ get_bit K i = .ok p := by
  have hin := indexes_inside_of_lt hIlt hS
  have h31 := lt_int_of_lt hIlt hSi
  obtain ⟨V, hlock, hVlen, hVbits, _⟩ := lock_ok source source_indexes pool pool_bits n_locks
    n_xoration vault hin (by omega) hP hV h31 hPi hCi (by omega)
  refine ⟨V, hlock, ?_⟩
  intro V1 hV1len hflips
  have hi0' : key_indexes.getD i 0 = i0 := by simp [List.getD, hi0]
  have hi0lt : i0 < pool_bits := by
    rw [← hi0']
    exact getD_lt_of_forall hKIb (by omega)
  obtain ⟨K, hunlock, hKlen, hKbits, _⟩ := unlock_ok source source_indexes V1 key
    key_indexes key_bits n_locks n_xoration pool_bits hin (by omega) (by omega) hKI
    (fun i1 hi1 => getD_lt_of_forall hKIb (by omega)) hK h31 hCi hIi hKi
  refine ⟨K, hunlock, bit_of pool i0, get_bit_ok (by omega), ?_⟩
  rw [get_bit_ok (by omega), hKbits i hi, hi0']
  -- the cells of row `i0` that decode to a non-zero value
  have hrow : ∀ j, j < n_locks → (i0 * n_locks + j) / 8 < V.length := by
    intro j hj
    have := cell_lt hi0lt hj
    omega
  have hcell : ∀ j, j < n_locks →
      (cell_value source source_indexes V1 n_locks n_xoration i0 j ≠ 0 ↔
        ((get_bit V1 (i0 * n_locks + j) = get_bit V (i0 * n_locks + j) ∧ bit_of pool i0 ≠ 0) ∨
         (get_bit V1 (i0 * n_locks + j) ≠ get_bit V (i0 * n_locks + j)
            ∧ bit_of pool i0 = 0))) := by
    intro j hj
    have hp : bit_of V (i0 * n_locks + j)
        ^^^ xor_src source source_indexes ((i0 * n_locks + j) * n_xoration) n_xoration
        = bit_of pool i0 := by
      rw [hVbits i0 j hi0lt hj, xor_xor_cancel]
    have hf := flipped_cell (bit_of V1 (i0 * n_locks + j)) (bit_of V (i0 * n_locks + j))
      (xor_src source source_indexes ((i0 * n_locks + j) * n_xoration) n_xoration)
      (bit_of_le_one _ _) (bit_of_le_one _ _) (xor_src_le_one _ _ _ _)
    rw [hp] at hf
    rw [get_bit_ok (hrow j hj), get_bit_ok (show (i0 * n_locks + j) / 8 < V1.length by
      rw [hV1len]; exact hrow j hj)]
    unfold cell_value
    rw [hf]
    simp
  have hle := bit_of_le_one pool i0
  unfold vote_count
  by_cases h0 : bit_of pool i0 = 0
  · have hc : (List.range n_locks).countP (fun j =>
        decide (cell_value source source_indexes V1 n_locks n_xoration i0 j ≠ 0))
        = (List.range n_locks).countP (fun j =>
          decide (get_bit V1 (i0 * n_locks + j) ≠ get_bit V (i0 * n_locks + j))) := by
      apply List.countP_congr
      intro j hj
      have := hcell j (List.mem_range.mp hj)
      simp only [decide_eq_true_eq]
      rw [this]
      simp [h0]
    rw [hc, h0, if_neg (minority_flips_zero _ _ hflips)]
  · have h1 : bit_of pool i0 = 1 := by omega
    have hc : (List.range n_locks).countP (fun j =>
        decide (cell_value source source_indexes V1 n_locks n_xoration i0 j ≠ 0))
        = (List.range n_locks).countP (fun j =>
          ! decide (get_bit V1 (i0 * n_locks + j) ≠ get_bit V (i0 * n_locks + j))) := by
      apply List.countP_congr
      intro j hj
      have := hcell j (List.mem_range.mp hj)
      simp only [decide_eq_true_eq]
      rw [this]
      simp [h1]
    rw [hc, h1, if_pos (minority_flips_one _ _ hflips)]

/-- Witness of C7: one of the 3 cells of pool bit 2 is flipped (vault byte 114 becomes
50) and the key bit for key index 2 is still the pool bit. -/
theorem majority_invariance_witness :
    ∃ K, unlock [181] [0, 1, 2, 3, 4, 5, 6, 7, 0, 1, 2, 3] [50, 4] [255] [2, 0] 2 3 1 = .ok K ∧
      ∃ p, get_bit [5] 2 = .ok p ∧ get_bit K 0 = .ok p := by
  obtain ⟨V, hV, h⟩ := majority_invariance [181] [0, 1, 2, 3, 4, 5, 6, 7, 0, 1, 2, 3] [5]
    [0, 0] [255] [2, 0] 4 3 1 8 2 0 2 (by decide) (by decide) (by decide) (by decide)
    (by decide) (by decide) (by decide) (by decide) (by decide) (by decide)
    (by decide) (by decide) (by decide) (by decide) (by decide)
  have hV2 : V = [114, 4] := by
    have h2 : lock [181] [0, 1, 2, 3, 4, 5, 6, 7, 0, 1, 2, 3] [5] 4 3 1 [0, 0]
        = .ok [114, 4] := by rfl
    rw [h2] at hV
    exact (Except.ok.inj hV).symm
  subst hV2
  exact h [50, 4] rfl (by decide)

/-- C8: tie-break. For even `n_locks` and sizes whose bit positions and index positions
fit the type `int` (`source_bits` and `key_bits` at most `2^31`, `pool_bits * n_locks`
and `pool_bits * n_locks * n_xoration` below `2^31`), if exactly `n_locks / 2` of the
`n_locks` lock cells of pool bit `key_indexes[i]` decode to 1, so that the vote counter
equals `mid`, then `unlock` returns a key whose bit `i` is 0. -/
theorem tie_break_zero (source source_indexes vault key key_indexes : List Nat)
    (pool_bits n_locks n_xoration source_bits key_bits i i0 : Nat)
    (heven : n_locks % 2 = 0)
    (hIlen : source_indexes.length = pool_bits * n_locks * n_xoration)
    (hIlt : ∀ x ∈ source_indexes, x < source_bits)
    (hS : source_bits ≤ 8 * source.length)
    (hV : pool_bits * n_locks ≤ 8 * vault.length)
    (hK : key_bits ≤ 8 * key.length)
    (hKI : key_bits ≤ key_indexes.length)
    (hKIb : ∀ x ∈ key_indexes, x < pool_bits)
    (hi : i < key_bits)
    (hi0 : key_indexes[i]? = some i0)
    (hSi : source_bits ≤ 2 ^ 31) (hKi : key_bits ≤ 2 ^ 31)
    (hCi : pool_bits * n_locks < 2 ^ 31)
    (hIi : pool_bits * n_locks * n_xoration < 2 ^ 31)
    (htie : (List.range n_locks).countP (fun j =>
        decide (unlock_cell source source_indexes vault n_locks n_xoration i0 j = .ok 1))
        = n_locks / 2) :
    unlock_votes source source_indexes vault n_locks n_xoration i0 = .ok (n_locks / 2) ∧
    ∃ K, unlock source source_indexes vault key key_indexes key_bits n_locks n_xoration
        = .ok K ∧ get_bit K i = .ok 0 := by
  have hin := indexes_inside_of_lt hIlt hS
  have hi0' : key_indexes.getD i 0 = i0 := by simp [List.getD, hi0]
  have hi0lt : i0 < pool_bits := by
    rw [← hi0']
    exact getD_lt_of_forall hKIb (by omega)
  have h31 := lt_int_of_lt hIlt hSi
  obtain ⟨K, hunlock, hKlen, hKbits, _⟩ := unlock_ok source source_indexes vault key
    key_indexes key_bits n_locks n_xoration pool_bits hin (by omega) hV hKI
    (fun i1 hi1 => getD_lt_of_forall hKIb (by omega)) hK h31 hCi hIi hKi
  have hrow : i0 * n_locks + n_locks ≤ pool_bits * n_locks := cell_succ_le hi0lt
  have hrowx : (i0 * n_locks + n_locks) * n_xoration ≤ pool_bits * n_locks * n_xoration :=
    Nat.mul_le_mul_right _ hrow
  have hdi : n_locks * n_xoration ≤ (i0 * n_locks + n_locks) * n_xoration :=
    Nat.mul_le_mul_right _ (Nat.le_add_left _ _)
  have hvotes : vote_count source source_indexes vault n_locks n_xoration i0 = n_locks / 2 := by
    rw [← htie]
    unfold vote_count
    apply List.countP_congr
    intro j hj
    have hj2 := List.mem_range.mp hj
    have h1 : (i0 * n_locks + j) * n_xoration + n_xoration
        ≤ pool_bits * n_locks * n_xoration := by
      calc (i0 * n_locks + j) * n_xoration + n_xoration
          = (i0 * n_locks + j + 1) * n_xoration := by ring
        _ ≤ pool_bits * n_locks * n_xoration := Nat.mul_le_mul_right _ (by omega)
    rw [unlock_cell_ok source source_indexes vault n_locks n_xoration i0 j hin (by omega)
      (by omega) h31 hj2 (by omega) (by omega) (by omega) (by omega)]
    have hle := cell_value_le_one source source_indexes vault n_locks n_xoration i0 j
    simp only [decide_eq_true_eq, ne_eq, Except.ok.injEq]
    omega
  refine ⟨?_, K, hunlock, ?_⟩
  · rw [unlock_votes_ok source source_indexes vault n_locks n_xoration i0 hin
      (le_trans hrowx (by omega)) (by omega) h31 (by omega) (by omega), hvotes]
  · rw [get_bit_ok (by omega), hKbits i hi, hi0', hvotes, if_neg (by omega)]

/-- Witness of C8: with 2 locks, exactly one cell of pool bit 1 decodes to 1. -/
theorem tie_break_zero_witness :
    unlock_votes [181] [0, 1, 2, 3, 4, 5, 6, 7] [114] 2 1 1 = .ok (2 / 2) ∧
    ∃ K, unlock [181] [0, 1, 2, 3, 4, 5, 6, 7] [114] [255] [1, 0] 2 2 1 = .ok K ∧
      get_bit K 0 = .ok 0 :=
  tie_break_zero [181] [0, 1, 2, 3, 4, 5, 6, 7] [114] [255] [1, 0] 4 2 1 8 2 0 1
    (by decide) (by decide) (by decide) (by decide) (by decide) (by decide) (by decide)
    (by decide) (by decide) (by decide) (by decide) (by decide) (by decide) (by decide)
    (by decide)


theorem char_check_bit_ok {arr : List Nat} {i : Nat} (h : i / 8 < arr.length) :
    char_check_bit arr i = .ok (bit_of arr i) := by
  simp only [char_check_bit, bit_of, load_ok h, bind, Except.bind, pure, Except.pure]
  congr 1
  rw [Nat.and_one_is_mod, Nat.one_and_eq_mod_two, Nat.and_one_is_mod, Nat.mod_mod]

theorem char_set_bit_ok {arr : List Nat} {i : Nat} (h : i / 8 < arr.length) :
    char_set_bit arr i
      = .ok (arr.set (i / 8) (set_bit (arr.getD (i / 8) 0) (i % 8) % 256)) := by
  simp only [char_set_bit, load_ok h, store_ok _ h, bind, Except.bind]

theorem set_bit_testBit (a k m : Nat) (hm : m < 8) :
    (set_bit a k % 256).testBit m = ((decide (m = 0) && a.testBit 0) || decide (k = m)) := by
  have h256 : (256 : Nat) = 2 ^ 8 := by norm_num
  unfold set_bit
  rw [h256, Nat.testBit_mod_two_pow, Nat.testBit_or, Nat.testBit_and, Nat.one_shiftLeft,
    Nat.testBit_two_pow]
  have h1 : (1 : Nat).testBit m = decide (m = 0) := by
    have := Nat.testBit_two_pow (n := 0) (m := m)
    simp only [pow_zero] at this
    rw [this]
    by_cases h : m = 0 <;> simp [h, eq_comm]
  rw [h1]
  by_cases h0 : m = 0
  · subst h0
    simp
  · simp [hm, h0]

/-- After `char_set_bit(arr, i)` a slot is marked only if it was marked before or is `i`,
and slot `i` is marked. -/
theorem bit_of_char_set (arr : List Nat) (i x : Nat) (h : i / 8 < arr.length) :
    (bit_of (arr.set (i / 8) (set_bit (arr.getD (i / 8) 0) (i % 8) % 256)) x ≠ 0 →
      bit_of arr x ≠ 0 ∨ x = i) ∧
    bit_of (arr.set (i / 8) (set_bit (arr.getD (i / 8) 0) (i % 8) % 256)) i = 1 := by
  constructor
  · unfold bit_of
    by_cases hb : x / 8 = i / 8
    · have hget : (arr.set (i / 8) (set_bit (arr.getD (i / 8) 0) (i % 8) % 256)).getD (x / 8) 0
          = set_bit (arr.getD (i / 8) 0) (i % 8) % 256 := by
        rw [hb]
        simp [List.getD, List.getElem?_set, h]
      rw [hget, shr_and_one, shr_and_one, set_bit_testBit _ _ _ (Nat.mod_lt _ (by norm_num)), hb]
      by_cases hxi : x = i
      · intro _
        exact Or.inr hxi
      · have hmod : ¬ i % 8 = x % 8 := by omega
        by_cases h0 : x % 8 = 0
        · rw [h0]
          cases hbit : (arr.getD (i / 8) 0).testBit 0 <;> simp [hmod]
          omega
        · simp [hmod, h0]
    · have hne : ¬ i / 8 = x / 8 := fun h => hb h.symm
      intro hx
      left
      simpa [List.getD, List.getElem?_set, hne] using hx
  · unfold bit_of
    have hget : (arr.set (i / 8) (set_bit (arr.getD (i / 8) 0) (i % 8) % 256)).getD (i / 8) 0
        = set_bit (arr.getD (i / 8) 0) (i % 8) % 256 := by
      simp [List.getD, List.getElem?_set, h]
    rw [hget, shr_and_one, set_bit_testBit _ _ _ (Nat.mod_lt _ (by norm_num))]
    simp

theorem exists_unmarked (arr : List Nat) (high : Nat)
    (h : (List.range high).countP (fun x => decide (bit_of arr x ≠ 0)) < high) :
    ∃ x, x < high ∧ bit_of arr x = 0 := by
  by_contra hne
  push_neg at hne
  have := (List.countP_eq_length (l := List.range high)
    (p := fun x => decide (bit_of arr x ≠ 0))).mpr (by
      intro x hx
      simpa using hne x (List.mem_range.mp hx))
  rw [List.length_range] at this
  omega

theorem cyclic_offset {s x high : Nat} (hs : s < high) (hx : x < high) :
    ∃ d, d < high ∧ (s + d) % high = x := by
  by_cases h : s ≤ x
  · refine ⟨x - s, by omega, ?_⟩
    rw [show s + (x - s) = x by omega]
    exact Nat.mod_eq_of_lt hx
  · refine ⟨x + high - s, by omega, ?_⟩
    rw [show s + (x + high - s) = x + high by omega, Nat.add_mod_right]
    exact Nat.mod_eq_of_lt hx

theorem probe_finds (arr : List Nat) (high : Nat) (hin : high ≤ 8 * arr.length)
    (h32 : high < 2 ^ 32) :
    ∀ fuel s, s < high → (∃ d, d < fuel ∧ bit_of arr ((s + d) % high) = 0) →
      ∃ r, probe arr high fuel s = .ok r ∧ r < high ∧ bit_of arr r = 0 := by
  intro fuel
  induction fuel with
  | zero =>
    rintro s _ ⟨d, hd, _⟩
    omega
  | succ f ih =>
    rintro s hs ⟨d, hd, hbit⟩
    have hchk : char_check_bit arr s = .ok (bit_of arr s) := char_check_bit_ok (by omega)
    by_cases h0 : bit_of arr s = 0
    · refine ⟨s, ?_, hs, h0⟩
      simp only [probe, hchk, bind, Except.bind, h0, ne_eq, not_true_eq_false, if_false, pure,
        Except.pure]
    · have hd0 : d ≠ 0 := by
        intro hd0
        subst hd0
        rw [Nat.add_zero, Nat.mod_eq_of_lt hs] at hbit
        exact h0 hbit
      have hs1 : (s + 1) % 2 ^ 32 = s + 1 := Nat.mod_eq_of_lt (by omega)
      obtain ⟨r, hr, hrlt, hrbit⟩ := ih ((s + 1) % high) (Nat.mod_lt _ (by omega))
        ⟨d - 1, by omega, by
          rw [Nat.mod_add_mod, show s + 1 + (d - 1) = s + d by omega]
          exact hbit⟩
      refine ⟨r, ?_, hrlt, hrbit⟩
      simp only [probe, hchk, bind, Except.bind, ne_eq, h0, not_false_eq_true, if_true, hs1]
      exact hr

/-- A scan that starts below `upperbound` over a scratch array with an unmarked slot
returns an unmarked slot below `upperbound`. -/
theorem probe_ok (arr : List Nat) (high s : Nat) (hin : high ≤ 8 * arr.length)
    (h32 : high < 2 ^ 32) (hs : s < high)
    (hfree : (List.range high).countP (fun x => decide (bit_of arr x ≠ 0)) < high) :
    ∃ r, probe arr high high s = .ok r ∧ r < high ∧ bit_of arr r = 0 := by
  obtain ⟨x, hx, hx0⟩ := exists_unmarked arr high hfree
  obtain ⟨d, hd, hdx⟩ := cyclic_offset hs hx
  exact probe_finds arr high hin h32 high s hs ⟨d, hd, by rw [hdx]; exact hx0⟩


theorem marked_count_step (p q : Nat → Bool) (i : Nat)
    (h : ∀ x, q x = true → p x = true ∨ x = i) :
    ∀ n, (List.range n).countP q ≤ (List.range n).countP p + (if i < n then 1 else 0) := by
  intro n
  induction n with
  | zero => simp
  | succ m ih =>
    rw [countP_range_succ, countP_range_succ]
    by_cases hq : q m = true
    · rcases h m hq with hp | hmi
      · rw [if_pos hq, if_pos hp]
        split at ih <;> split <;> omega
      · subst hmi
        rw [if_pos hq]
        rw [if_neg (Nat.lt_irrefl _)] at ih
        rw [if_pos (Nat.lt_succ_self _)]
        split <;> omega
    · rw [if_neg hq]
      split at ih <;> split <;> split <;> omega

theorem marked_count_char_set (arr : List Nat) (i high : Nat) (h : i / 8 < arr.length) :
    (List.range high).countP (fun x => decide
        (bit_of (arr.set (i / 8) (set_bit (arr.getD (i / 8) 0) (i % 8) % 256)) x ≠ 0))
      ≤ (List.range high).countP (fun x => decide (bit_of arr x ≠ 0)) + 1 := by
  have := marked_count_step (fun x => decide (bit_of arr x ≠ 0))
    (fun x => decide
      (bit_of (arr.set (i / 8) (set_bit (arr.getD (i / 8) 0) (i % 8) % 256)) x ≠ 0)) i
    (by
      intro x hx
      have hx2 := (bit_of_char_set arr i x h).1 (by simpa using hx)
      rcases hx2 with h1 | h1
      · left
        simpa using h1
      · right
        exact h1) high
  split at this <;> omega

theorem getD_set_eq (l : List Nat) (i v : Nat) (h : i < l.length) :
    (l.set i v).getD i 0 = v := by
  simp [List.getD_eq_getElem?_getD, List.getElem?_set, h]

theorem getD_set_ne (l : List Nat) (i j v : Nat) (h : i ≠ j) :
    (l.set i v).getD j 0 = l.getD j 0 := by
  simp [List.getD_eq_getElem?_getD, List.getElem?_set, h]

theorem bit_of_replicate_zero (n x : Nat) : bit_of (List.replicate n 0) x = 0 := by
  unfold bit_of
  have : (List.replicate n 0).getD (x / 8) 0 = 0 := by
    rw [List.getD_eq_getElem?_getD, List.getElem?_replicate]
    split <;> rfl
  rw [this]
  simp

/-- One iteration of the `while` loop of `prng_rand` returns when the output array has a
slot `i`, `upperbound` is positive and, without replacement, the scratch array covers
`[0, upperbound)` and has an unmarked slot there; the index it stores is below
`upperbound` and at most one more slot is marked. -/
theorem prng_rand_step_ok (stream : Nat → Nat) (low high replacement i : Nat)
    (arr out : List Nat) (hhigh : 0 < high) (h32 : high < 2 ^ 32) (hi : i < out.length)
    (hin : replacement = 0 → high ≤ 8 * arr.length)
    (hfree : replacement = 0 →
      (List.range high).countP (fun x => decide (bit_of arr x ≠ 0)) < high) :
    ∃ arr1 idx, prng_rand_step stream low high replacement i (arr, out)
        = .ok (arr1, out.set i idx) ∧
      idx < high ∧ arr1.length = arr.length ∧
      (List.range high).countP (fun x => decide (bit_of arr1 x ≠ 0))
        ≤ (List.range high).countP (fun x => decide (bit_of arr x ≠ 0)) + 1 := by
  have hne : ¬ high = 0 := by omega
  by_cases hr : replacement = 0
  · obtain ⟨r, hprobe, hrlt, _⟩ := probe_ok arr high ((stream i + low) % 2 ^ 32 % high)
      (hin hr) h32 (Nat.mod_lt _ hhigh) (hfree hr)
    have hr8 : r / 8 < arr.length := by
      have := hin hr
      omega
    refine ⟨arr.set (r / 8) (set_bit (arr.getD (r / 8) 0) (r % 8) % 256), r, ?_, hrlt,
      by simp, marked_count_char_set arr r high hr8⟩
    simp only [prng_rand_step, if_neg hne, if_pos hr, hprobe, char_set_bit_ok hr8,
      store_ok _ hi, bind, Except.bind, pure, Except.pure]
  · refine ⟨arr, (stream i + low) % 2 ^ 32 % high, ?_, Nat.mod_lt _ hhigh, rfl,
      Nat.le_succ _⟩
    simp only [prng_rand_step, if_neg hne, if_neg hr, store_ok _ hi, bind, Except.bind, pure,
      Except.pure]

/-- The `while` loop of `prng_rand` returns after `size` iterations: the output array
keeps its length, its first `size` entries are below `upperbound` and the entries from
`size` on are left as they were. -/
theorem prng_rand_loop_ok (stream : Nat → Nat) (size low high replacement : Nat)
    (out : List Nat) (hhigh : 0 < high) (h32 : high < 2 ^ 32) (hout : size ≤ out.length)
    (hfeas : replacement = 0 → size ≤ high)
    (hscratch : replacement = 0 → high ≤ 8 * scratch_len low high) :
    ∃ st, forLoop size (prng_rand_step stream low high replacement)
        (List.replicate (scratch_len low high) 0, out) = .ok st ∧
      st.2.length = out.length ∧
      (∀ i, i < size → st.2.getD i 0 < high) ∧
      (∀ i, size ≤ i → st.2.getD i 0 = out.getD i 0) := by
  obtain ⟨st, hst, _, h2, h3, h4, _⟩ := forLoop_inv
    (fun t (st : List Nat × List Nat) =>
      st.1.length = scratch_len low high ∧ st.2.length = out.length ∧
      (∀ i, i < t → st.2.getD i 0 < high) ∧
      (∀ i, t ≤ i → st.2.getD i 0 = out.getD i 0) ∧
      (List.range high).countP (fun x => decide (bit_of st.1 x ≠ 0)) ≤ t)
    (prng_rand_step stream low high replacement)
    (List.replicate (scratch_len low high) 0, out) size
    (by
      refine ⟨by simp, rfl, ?_, ?_, ?_⟩
      · intro i hi
        omega
      · intro i _
        rfl
      · simp [bit_of_replicate_zero])
    (by
      rintro t ⟨arr, o⟩ ht ⟨h1, h2, h3, h4, h5⟩
      simp only at h1 h2 h3 h4 h5
      obtain ⟨arr1, idx, hstep, hidx, hlen, hcount⟩ := prng_rand_step_ok stream low high
        replacement t arr o hhigh h32 (by omega)
        (fun hr => by rw [h1]; exact hscratch hr)
        (fun hr => by have := hfeas hr; omega)
      refine ⟨(arr1, o.set t idx), hstep, by rw [hlen, h1], by simp [h2], ?_, ?_, ?_⟩
      · intro i hi
        show (o.set t idx).getD i 0 < high
        by_cases hit : i = t
        · subst hit
          rw [getD_set_eq _ _ _ (by omega)]
          exact hidx
        · rw [getD_set_ne _ _ _ _ (fun h => hit h.symm)]
          exact h3 i (by omega)
      · intro i hi
        show (o.set t idx).getD i 0 = out.getD i 0
        rw [getD_set_ne _ _ _ _ (by omega)]
        exact h4 i (by omega)
      · show (List.range high).countP (fun x => decide (bit_of arr1 x ≠ 0)) ≤ t + 1
        omega)
  exact ⟨st, hst, h2, h3, h4⟩


/-- A feasible call of `prng_rand` returns 0, leaves the seed slot as `seed_left` says
and fills the first `size` entries of the output array with values below `upperbound`. -/
theorem prng_rand_ok (debug : Bool) (now : Nat) (rand : Nat → Nat → Nat) (seed : Option Nat)
    (size : Nat) (out : List Nat) (low high replacement : Nat)
    (hsize : 1 ≤ size) (hrange : low < high) (h32 : high < 2 ^ 32)
    (hout : size ≤ out.length)
    (hsz : replacement ≠ 0 → size < 2 ^ 32)
    (hfeas : replacement = 0 → size ≤ high - low)
    (hscratch : replacement = 0 → high ≤ 8 * scratch_len low high) :
    ∃ out1, prng_rand debug now rand seed size (some out) low high replacement
        = .ok ⟨0, seed_left now seed, some out1⟩ ∧
      out1.length = out.length ∧
      (∀ i, i < size → out1.getD i 0 < high) ∧
      (∀ i, size ≤ i → out1.getD i 0 = out.getD i 0) ∧
      ∃ arr1, forLoop size
        (prng_rand_step (rand (seed_used now seed % 2 ^ 32)) low high replacement)
        (List.replicate (scratch_len low high) 0, out) = .ok (arr1, out1) := by
  obtain ⟨st, hst, h1, h2, h3⟩ := prng_rand_loop_ok
    (rand (seed_used now seed % 2 ^ 32)) size low high replacement out (by omega) h32 hout
    (fun hr => by have := hfeas hr; omega) hscratch
  refine ⟨st.2, ?_, h1, h2, h3, st.1, hst⟩
  have hsz2 : ¬ 2 ^ 32 ≤ size := by
    by_cases hr : replacement = 0
    · have := hfeas hr
      omega
    · have := hsz hr
      omega
  have c1 : ¬ (debug = true ∧ size < 1) := by omega
  have c2 : ¬ (debug = true ∧ high ≤ low) := by omega
  have c3 : ¬ (debug = true ∧ replacement = 0 ∧ high - low < size) := by
    rintro ⟨_, hr, hlt⟩
    have := hfeas hr
    omega
  have c4 : ¬ (debug = true ∧ some out = none) := by simp
  unfold prng_rand
  rw [if_neg c1, if_neg c2, if_neg c3, if_neg c4]
  simp only [if_neg hsz2, Option.getD_some, hst, bind, Except.bind, pure, Except.pure,
    Option.map_some']

/-- The scratch array is too small for a large `lowerbound`: with `lowerbound = 100`,
`upperbound = 101` and `size = 1`, without replacement, the scratch array has
`101 - 100 + 1 = 2` bytes, the first index is `(50 + 100) % 101 = 49` and the scan reads
`arr[49 / 8] = arr[6]`, outside the array: the call has no defined result, in the build
with `_DEBUG_` and in the build without. -/
theorem prng_rand_scratch_overrun :
    scratch_len 100 101 = 2 ∧
    prng_rand true 5 (fun _ _ => 50) (some 42) 1 (some [7]) 100 101 0 = .error .oob ∧
    prng_rand false 5 (fun _ _ => 50) (some 42) 1 (some [7]) 100 101 0 = .error .oob := by
  refine ⟨by rfl, by rfl, by rfl⟩

/-- C3: at `size = upperbound = 3`, `lowerbound = 0`, without replacement and with a raw
stream whose first values are 1, 2, 1, `prng_rand` returns the indices 1, 2, 1: index 1
is emitted twice and 0 never, in the build with `_DEBUG_` and in the build without. -/
theorem prng_rand_emits_duplicate :
    prng_rand true 5 (fun _ k => [1, 2, 1].getD k 0) (some 42) 3 (some [0, 0, 0]) 0 3 0
      = .ok ⟨0, some 42, some [1, 2, 1]⟩ ∧
    prng_rand false 5 (fun _ k => [1, 2, 1].getD k 0) (some 42) 3 (some [0, 0, 0]) 0 3 0
      = .ok ⟨0, some 42, some [1, 2, 1]⟩ ∧
    ¬ [1, 2, 1].Nodup := by
  refine ⟨by rfl, by rfl, by decide⟩

/-- C9, as stated, fails in the build without `_DEBUG_`: a call without replacement with
`upperbound - lowerbound = 2 < 3 = size` returns 0 and writes three indices, and a call
with `size = 0` and a zero seed returns 0 and overwrites the seed slot. -/
theorem prng_rand_release_no_error :
    prng_rand false 5 (fun _ k => [1, 0, 1].getD k 0) (some 42) 3 (some [7, 7, 7]) 0 2 0
      = .ok ⟨0, some 42, some [1, 0, 1]⟩ ∧
    prng_rand false 5 (fun _ k => [1, 0, 1].getD k 0) (some 0) 0 (some [7, 7, 7]) 0 2 0
      = .ok ⟨0, some 5, some [7, 7, 7]⟩ := by
  refine ⟨by rfl, by rfl⟩

/-- C9, amended: in the build with `_DEBUG_`, a call of `prng_rand` with `size < 1`, or
`upperbound <= lowerbound`, or no replacement and `upperbound - lowerbound < size`, or a
null output array returns -1 and leaves the output array and the seed slot as they
were. -/
theorem prng_rand_debug_rejects (now : Nat) (rand : Nat → Nat → Nat) (seed : Option Nat)
    (size : Nat) (indexes : Option (List Nat)) (low high replacement : Nat)
    (h : size < 1 ∨ high ≤ low ∨ (replacement = 0 ∧ high - low < size) ∨ indexes = none) :
    ∃ r, prng_rand true now rand seed size indexes low high replacement = .ok r ∧
      r.ret < 0 ∧ r.indexes = indexes ∧ r.seed = seed := by
  refine ⟨⟨-1, seed, indexes⟩, ?_, by show (-1 : Int) < 0; decide, rfl, rfl⟩
  unfold prng_rand
  by_cases c1 : size < 1
  · rw [if_pos ⟨rfl, c1⟩]
  · rw [if_neg (fun hc => c1 hc.2)]
    by_cases c2 : high ≤ low
    · rw [if_pos ⟨rfl, c2⟩]
    · rw [if_neg (fun hc => c2 hc.2)]
      by_cases c3 : replacement = 0 ∧ high - low < size
      · rw [if_pos ⟨rfl, c3⟩]
      · rw [if_neg (fun hc => c3 hc.2)]
        have c4 : indexes = none := by
          rcases h with h | h | h | h
          · exact absurd h c1
          · exact absurd h c2
          · exact absurd h c3
          · exact h
        rw [if_pos ⟨rfl, c4⟩]

/-- Witness of C9: three indices without replacement from a range of two. -/
theorem prng_rand_debug_rejects_witness :
    ∃ r, prng_rand true 5 (fun _ k => [1, 0, 1].getD k 0) (some 0) 3 (some [7, 7, 7]) 0 2 0
        = .ok r ∧
      r.ret < 0 ∧ r.indexes = some [7, 7, 7] ∧ r.seed = some 0 :=
  prng_rand_debug_rejects 5 (fun _ k => [1, 0, 1].getD k 0) (some 0) 3 (some [7, 7, 7]) 0 2 0
    (Or.inr (Or.inr (Or.inl ⟨rfl, by decide⟩)))


theorem bind_eq_ok {α β : Type} {x : Except Fault α} {f : α → Except Fault β} {b : β}
    (h : (x >>= f) = .ok b) : ∃ a, x = .ok a ∧ f a = .ok b := by
  cases x with
  | error e => cases h
  | ok a => exact ⟨a, rfl, h⟩

/-- C2: a failing run. With `key_pre_bits = 4` the four high bits of the only byte of the
local `key_pre` are never written. `gen`, entered with that byte 0x00, computes the key
`K` (32 bytes 10) and the token; `rep`, entered with that byte 0xFF and given the same
reading, vault, seeds, nonce and token, recomputes another key, finds another token
and leaves 32 zero bytes, not `K`. -/
theorem gen_rep_differ_on_stale_bits :
    gen false 1 2 3 test_rand test_HMAC junk_zeros [181] (some 8) 8 [114]
        (List.replicate 32 0) (some 16) 256 4 (List.replicate 32 0) 32 8 1 1
      = .ok ⟨0, some 8, some 16, [7], 3, List.replicate 32 10, List.replicate 32 26⟩ ∧
    rep false 1 2 test_rand test_HMAC junk_ones [181] (some 8) 8 [114]
        (List.replicate 32 0) (some 16) 256 4 3 (List.replicate 32 26) 32 8 1 1
      = .ok ⟨0, some 8, some 16, [247], List.replicate 32 0, List.replicate 32 10⟩ ∧
    List.replicate 32 0 ≠ List.replicate 32 10 := by
  refine ⟨by rfl, by rfl, by decide⟩

/-- C5: a failing run. The recomputed token `T` is 32 zero bytes, the published token is
a zero byte followed by 31 bytes 9: they differ in 31 byte positions, yet `strncmp`
stops at the null character in position 0 and returns 0, and `rep` leaves the
recomputed key (32 bytes 240) in the key buffer instead of zero bytes. -/
theorem rep_keeps_key_on_different_token :
    rep false 1 2 test_rand test_HMAC junk_zeros [181] (some 8) 8 [114]
        (List.replicate 32 0) (some 16) 256 8 41 (0 :: List.replicate 31 9) 32 8 1 1
      = .ok ⟨0, some 8, some 16, [199], List.replicate 32 240, List.replicate 32 0⟩ ∧
    strncmp (List.replicate 32 0) (0 :: List.replicate 31 9) 32 = .ok 0 ∧
    (List.replicate 32 0)[1]? ≠ (0 :: List.replicate 31 9)[1]? := by
  refine ⟨by rfl, by rfl, by decide⟩

theorem zero_loop_ok (key : List Nat) (n : Nat) (hn : n ≤ key.length) :
    ∃ key1, forLoop n (fun i key => store key i 0) key = .ok key1 ∧
      key1.length = key.length ∧ (∀ i, i < n → key1[i]? = some 0) ∧
      (∀ i, n ≤ i → key1[i]? = key[i]?) := by
  obtain ⟨k, hk, h1, h2, h3⟩ := forLoop_inv
    (fun t (k : List Nat) => k.length = key.length ∧ (∀ i, i < t → k[i]? = some 0) ∧
      (∀ i, t ≤ i → k[i]? = key[i]?))
    (fun i key => store key i 0) key n
    ⟨rfl, fun i hi => by omega, fun i _ => rfl⟩
    (by
      rintro t k ht ⟨h1, h2, h3⟩
      refine ⟨k.set t 0, store_ok _ (by omega), by simp [h1], ?_, ?_⟩
      · intro i hi
        by_cases hit : i = t
        · subst hit
          simp [List.getElem?_set, show i < k.length by omega]
        · have : ¬ t = i := fun h => hit h.symm
          simp only [List.getElem?_set, this, if_false]
          exact h2 i (by omega)
      · intro i hi
        have : ¬ t = i := by omega
        simp only [List.getElem?_set, this, if_false]
        exact h3 i (by omega))
  exact ⟨k, hk, h1, h2, h3⟩

theorem write_bytes_length {b d b1 : List Nat} (h : write_bytes b d = .ok b1) :
    b1.length = b.length := by
  unfold write_bytes at h
  split at h
  · cases h
    simp
    omega
  · cases h

theorem read_bytes_le {b m : List Nat} {n : Nat} (h : read_bytes b n = .ok m) :
    n ≤ b.length := by
  unfold read_bytes at h
  split at h
  · assumption
  · cases h

/-- When `rep` reaches the comparison, the key buffer holds `bits_to_bytes(key_bits)`
bytes: HMAC has just read that many bytes from it. -/
theorem rep_recompute_key_length {debug : Bool} {now_src now_key : Nat}
    {rand : Nat → Nat → Nat} {HMAC : Nat → List Nat → List Nat} {junk : Junk}
    {read : List Nat} {source_seed : Option Nat} {source_bits : Nat} {vault key : List Nat}
    {key_seed : Option Nat} {key_bits key_pre_bits nonce token_bytes pool_bits n_locks
      n_xoration : Nat} {st : RepState}
    (h : rep_recompute debug now_src now_key rand HMAC junk read source_seed source_bits
      vault key key_seed key_bits key_pre_bits nonce token_bytes pool_bits n_locks
      n_xoration = .ok st) :
    bits_to_bytes key_bits ≤ st.key.length ∧ st.key.length = key.length := by
  unfold rep_recompute at h
  obtain ⟨r1, _, h⟩ := bind_eq_ok h
  obtain ⟨r2, _, h⟩ := bind_eq_ok h
  obtain ⟨kp, _, h⟩ := bind_eq_ok h
  obtain ⟨msg, _, h⟩ := bind_eq_ok h
  obtain ⟨key1, hk1, h⟩ := bind_eq_ok h
  obtain ⟨ks, _, h⟩ := bind_eq_ok h
  obtain ⟨msg2, hm2, h⟩ := bind_eq_ok h
  obtain ⟨T1, _, h⟩ := bind_eq_ok h
  cases h
  exact ⟨read_bytes_le hm2, write_bytes_length hk1⟩

/-- C6: rep failure nullifies K. Whenever `rep` reaches the comparison of the tokens
and `strncmp` reports a mismatch (a non-zero value), `rep` returns and every one of the
`bits_to_bytes(key_bits)` first bytes of the caller's key buffer is 0. -/
theorem rep_failure_zeroes_key (debug : Bool) (now_src now_key : Nat)
    (rand : Nat → Nat → Nat) (HMAC : Nat → List Nat → List Nat) (junk : Junk)
    (read : List Nat) (source_seed : Option Nat) (source_bits : Nat) (vault key : List Nat)
    (key_seed : Option Nat) (key_bits key_pre_bits nonce : Nat) (token : List Nat)
    (token_bytes pool_bits n_locks n_xoration : Nat) (st : RepState) (c : Int)
    (hst : rep_recompute debug now_src now_key rand HMAC junk read source_seed source_bits
      vault key key_seed key_bits key_pre_bits nonce token_bytes pool_bits n_locks
      n_xoration = .ok st)
    (hcmp : strncmp st.T token token_bytes = .ok c) (hc : c ≠ 0) :
    ∃ r, rep debug now_src now_key rand HMAC junk read source_seed source_bits vault key
        key_seed key_bits key_pre_bits nonce token token_bytes pool_bits n_locks n_xoration
        = .ok r ∧
      r.key.length = key.length ∧
      ∀ i, i < bits_to_bytes key_bits → r.key[i]? = some 0 := by
  obtain ⟨hlen, hlen2⟩ := rep_recompute_key_length hst
  obtain ⟨key1, hk, hl, hz, _⟩ := zero_loop_ok st.key (bits_to_bytes key_bits) hlen
  refine ⟨⟨0, st.source_seed, st.key_seed, st.key_pre, key1, st.T⟩, ?_, by
    show key1.length = key.length
    omega, hz⟩
  unfold rep
  rw [hst]
  show rep_check st key_bits token token_bytes = _
  unfold rep_check
  rw [hcmp]
  show (if c ≠ 0 then _ else _) = _
  rw [if_pos hc, hk]
  rfl

/-- Witness of C6: `rep` recomputes the token 32 bytes 10 against the published token
32 bytes 26. -/
theorem rep_failure_zeroes_key_witness :
    ∃ r, rep false 1 2 test_rand test_HMAC junk_ones [181] (some 8) 8 [114]
        (List.replicate 32 0) (some 16) 256 4 3 (List.replicate 32 26) 32 8 1 1 = .ok r ∧
      r.key.length = (List.replicate 32 0).length ∧
      ∀ i, i < bits_to_bytes 256 → r.key[i]? = some 0 :=
  rep_failure_zeroes_key false 1 2 test_rand test_HMAC junk_ones [181] (some 8) 8 [114]
    (List.replicate 32 0) (some 16) 256 4 3 (List.replicate 32 26) 32 8 1 1
    ⟨some 8, some 16, [247], List.replicate 32 250, List.replicate 32 10⟩ (-16)
    (by rfl) (by rfl) (by decide)


theorem le_bits_to_bytes (n : Nat) : n ≤ 8 * bits_to_bytes n := by
  unfold bits_to_bytes CEIL
  split <;> omega

theorem local_bytes_length (junk : Nat → Nat) (n : Nat) : (local_bytes junk n).length = n := by
  simp [local_bytes]

theorem local_words_length (junk : Nat → Nat) (n : Nat) : (local_words junk n).length = n := by
  simp [local_words]

theorem scratch_len_zero (high : Nat) (h : high + 1 < 2 ^ 32) : scratch_len 0 high = high + 1 := by
  unfold scratch_len
  omega

theorem forall_mem_of_getD {l : List Nat} {n b : Nat} (hlen : l.length = n)
    (h : ∀ i, i < n → l.getD i 0 < b) : ∀ x ∈ l, x < b := by
  intro x hx
  obtain ⟨i, hi, rfl⟩ := List.mem_iff_getElem.mp hx
  have := h i (by omega)
  rwa [List.getD_eq_getElem?_getD, List.getElem?_eq_getElem hi] at this

theorem store_eq_ok {b b1 : List Nat} {i x : Nat} (h : store b i x = .ok b1) :
    i < b.length ∧ b1 = b.set i x := by
  unfold store at h
  split at h
  · cases h
    exact ⟨by assumption, rfl⟩
  · cases h

/-- One iteration of the `while` loop of `prng_rand` reads nothing from the output array:
on another output array it marks the same slot and stores the same index. -/
theorem prng_rand_step_out (stream : Nat → Nat) (low high replacement i : Nat)
    (arr o a1 o1 : List Nat)
    (h : prng_rand_step stream low high replacement i (arr, o) = .ok (a1, o1)) :
    ∃ idx, i < o.length ∧ o1 = o.set i idx ∧
      ∀ o2 : List Nat, i < o2.length →
        prng_rand_step stream low high replacement i (arr, o2) = .ok (a1, o2.set i idx) := by
  unfold prng_rand_step at h
  split at h
  · cases h
  · rename_i hne
    split at h
    · rename_i hr
      obtain ⟨idx, hp, h⟩ := bind_eq_ok h
      obtain ⟨arr1, hs, h⟩ := bind_eq_ok h
      obtain ⟨out1, hst, h⟩ := bind_eq_ok h
      obtain ⟨hi, hout⟩ := store_eq_ok hst
      cases h
      refine ⟨idx, hi, hout, ?_⟩
      intro o2 hi2
      unfold prng_rand_step
      rw [if_neg hne, if_pos hr]
      simp only [hp, hs, store_ok _ hi2, bind, Except.bind, pure, Except.pure]
    · rename_i hr
      obtain ⟨out1, hst, h⟩ := bind_eq_ok h
      obtain ⟨hi, hout⟩ := store_eq_ok hst
      cases h
      refine ⟨_, hi, hout, ?_⟩
      intro o2 hi2
      unfold prng_rand_step
      rw [if_neg hne, if_neg hr]
      simp only [store_ok _ hi2, bind, Except.bind, pure, Except.pure]

theorem prng_rand_loop_out (stream : Nat → Nat) (low high replacement : Nat)
    (arr0 o o2 : List Nat) (hlen : o.length = o2.length) :
    ∀ n a o1, forLoop n (prng_rand_step stream low high replacement) (arr0, o) = .ok (a, o1) →
      ∃ o3, forLoop n (prng_rand_step stream low high replacement) (arr0, o2) = .ok (a, o3) ∧
        o3.length = o.length ∧ o1.length = o.length ∧ (∀ i, i < n → o3[i]? = o1[i]?) := by
  intro n
  induction n with
  | zero =>
    intro a o1 h
    cases h
    exact ⟨o2, rfl, hlen.symm, rfl, fun i hi => by omega⟩
  | succ m ih =>
    intro a o1 h
    rw [forLoop_succ] at h
    obtain ⟨⟨am, om⟩, hm, hstep⟩ := bind_eq_ok h
    obtain ⟨o3m, h3, hl3, hl1, hag⟩ := ih am om hm
    obtain ⟨idx, hi, ho1, hall⟩ := prng_rand_step_out stream low high replacement m am om a o1
      hstep
    refine ⟨o3m.set m idx, ?_, by simp [hl3], by simp [ho1, hl1], ?_⟩
    · rw [forLoop_succ, h3]
      exact hall o3m (by omega)
    · intro i hi2
      rw [ho1]
      by_cases him : m = i
      · subst him
        simp [List.getElem?_set, hi, show m < o3m.length by omega]
      · simp only [List.getElem?_set, him, if_false]
        exact hag i (by omega)

/-- A feasible call of `prng_rand` on an output array of exactly `size` entries returns
the same indices whatever the array held before. -/
theorem prng_rand_out_indep (debug : Bool) (now : Nat) (rand : Nat → Nat → Nat)
    (seed : Option Nat) (size : Nat) (low high replacement : Nat)
    (hsize : 1 ≤ size) (hrange : low < high) (h32 : high < 2 ^ 32)
    (hsz : replacement ≠ 0 → size < 2 ^ 32)
    (hfeas : replacement = 0 → size ≤ high - low)
    (hscratch : replacement = 0 → high ≤ 8 * scratch_len low high) :
    ∃ I, I.length = size ∧ (∀ x ∈ I, x < high) ∧
      ∀ out : List Nat, out.length = size →
        prng_rand debug now rand seed size (some out) low high replacement
          = .ok ⟨0, seed_left now seed, some I⟩ := by
  obtain ⟨I, _, hIlen, hIlt, _, arr1, hloop⟩ := prng_rand_ok debug now rand seed size
    (List.replicate size 0) low high replacement hsize hrange h32 (by simp) hsz hfeas hscratch
  rw [List.length_replicate] at hIlen
  refine ⟨I, hIlen, ?_, ?_⟩
  · intro x hx
    obtain ⟨i, hi, rfl⟩ := List.mem_iff_getElem.mp hx
    have := hIlt i (by omega)
    rwa [List.getD_eq_getElem?_getD, List.getElem?_eq_getElem hi] at this
  · intro out hout
    obtain ⟨out1, h, hlen1, _, _, arr2, hloop2⟩ := prng_rand_ok debug now rand seed size out
      low high replacement hsize hrange h32 (by omega) hsz hfeas hscratch
    obtain ⟨o3, h3, hl3, _, hag⟩ := prng_rand_loop_out
      (rand (seed_used now seed % 2 ^ 32)) low high replacement
      (List.replicate (scratch_len low high) 0) (List.replicate size 0) out
      (by simp [hout]) size arr1 I hloop
    rw [hloop2] at h3
    cases h3
    have hII : out1 = I := by
      apply List.ext_getElem?
      intro i
      by_cases hi : i < size
      · exact hag i hi
      · rw [List.getElem?_eq_none (by omega), List.getElem?_eq_none (by omega)]
    rw [← hII]
    exact h


theorem forLoop_preserves {σ : Type} (Q : σ → Prop) (body : Nat → σ → Except Fault σ)
    (h : ∀ i s s1, Q s → body i s = .ok s1 → Q s1) :
    ∀ n s s1, Q s → forLoop n body s = .ok s1 → Q s1 := by
  intro n
  induction n with
  | zero =>
    intro s s1 hq hs
    cases hs
    exact hq
  | succ m ih =>
    intro s s1 hq hs
    rw [forLoop_succ] at hs
    obtain ⟨sm, hm, hstep⟩ := bind_eq_ok hs
    exact h m sm s1 (ih s sm hq hm) hstep

theorem set_bit_v_eq_ok {b b1 : List Nat} {i v : Nat} (h : set_bit_v b i v = .ok b1) :
    i / 8 < b.length ∧ b1 = b.set (i / 8) (put_bit (b.getD (i / 8) 0) (i % 8) v) := by
  by_cases hlt : i / 8 < b.length
  · rw [set_bit_v_ok v hlt] at h
    cases h
    exact ⟨hlt, rfl⟩
  · have hnone : b[i / 8]? = none := List.getElem?_eq_none (by omega)
    simp [set_bit_v, load, hnone, bind, Except.bind] at h

theorem put_bit_lt (t k v : Nat) : put_bit t k v < 256 := by
  unfold put_bit
  exact Nat.mod_lt _ (by norm_num)

/-- The bytes that `unlock` leaves in a key buffer of bytes are bytes. -/
theorem unlock_bytes_lt (source source_indexes vault key key_indexes : List Nat)
    (key_bits n_locks n_xoration : Nat) (K : List Nat) (hkey : ∀ x ∈ key, x < 256)
    (h : unlock source source_indexes vault key key_indexes key_bits n_locks n_xoration
      = .ok K) : ∀ x ∈ K, x < 256 := by
  refine forLoop_preserves (fun k : List Nat => ∀ x ∈ k, x < 256) _ ?_ key_bits key K hkey h
  intro i s s1 hs hstep
  obtain ⟨i0, _, hstep⟩ := bind_eq_ok hstep
  obtain ⟨c, _, hstep⟩ := bind_eq_ok hstep
  obtain ⟨mid, _, hstep⟩ := bind_eq_ok hstep
  obtain ⟨ii, _, hstep⟩ := bind_eq_ok hstep
  have hset : ∃ v, set_bit_v s ii v = .ok s1 := by
    by_cases hc : c > mid
    · exact ⟨1, by simpa [hc] using hstep⟩
    · exact ⟨0, by simpa [hc] using hstep⟩
  obtain ⟨v, hv⟩ := hset
  obtain ⟨_, rfl⟩ := set_bit_v_eq_ok hv
  intro x hx
  rcases List.mem_or_eq_of_mem_set hx with h1 | h1
  · exact hs x h1
  · rw [h1]
    exact put_bit_lt _ _ _

theorem local_bytes_lt (junk : Nat → Nat) (n : Nat) : ∀ x ∈ local_bytes junk n, x < 256 := by
  intro x hx
  simp only [local_bytes, List.mem_map] at hx
  obtain ⟨k, _, rfl⟩ := hx
  exact Nat.mod_lt _ (by norm_num)

theorem bit_of_at (b : List Nat) (j m : Nat) (hj : j < b.length) (hm : m < 8) :
    bit_of b (8 * j + m) = (b[j].testBit m).toNat := by
  unfold bit_of
  have h1 : (8 * j + m) / 8 = j := by omega
  have h2 : (8 * j + m) % 8 = m := by omega
  rw [h1, h2, shr_and_one, List.getD_eq_getElem?_getD, List.getElem?_eq_getElem hj]
  rfl

/-- Two buffers of bytes that hold the same `n` bits, `n` a multiple of 8, in
`bits_to_bytes(n)` bytes each are equal. -/
theorem bytes_eq_of_bits (kp kp2 : List Nat) (n : Nat) (h8 : n % 8 = 0)
    (hl : kp.length = bits_to_bytes n) (hl2 : kp2.length = bits_to_bytes n)
    (hb : ∀ x ∈ kp, x < 256) (hb2 : ∀ x ∈ kp2, x < 256)
    (hbits : ∀ i, i < n → bit_of kp i = bit_of kp2 i) : kp = kp2 := by
  have hbytes : bits_to_bytes n = n / 8 := by
    unfold bits_to_bytes CEIL
    split <;> omega
  apply List.ext_getElem (by omega)
  intro j hj1 hj2
  apply Nat.eq_of_testBit_eq
  intro m
  by_cases hm : m < 8
  · have h := hbits (8 * j + m) (by omega)
    rw [bit_of_at kp j m hj1 hm, bit_of_at kp2 j m hj2 hm] at h
    cases h1 : kp[j].testBit m <;> cases h2 : kp2[j].testBit m <;> simp [h1, h2] at h <;> rfl
  · have hp : (256 : Nat) ≤ 2 ^ m := by
      calc (256 : Nat) = 2 ^ 8 := by norm_num
        _ ≤ 2 ^ m := Nat.pow_le_pow_right (by norm_num) (by omega)
    rw [Nat.testBit_lt_two_pow (lt_of_lt_of_le (hb _ (List.getElem_mem hj1)) hp),
      Nat.testBit_lt_two_pow (lt_of_lt_of_le (hb2 _ (List.getElem_mem hj2)) hp)]


theorem seed_used_nonzero (now s : Nat) (hs : s ≠ 0) : seed_used now (some s) = s := by
  simp [seed_used, hs]

theorem seed_left_nonzero (now s : Nat) (hs : s ≠ 0) : seed_left now (some s) = some s := by
  simp [seed_left, hs]

theorem deref_seed_left (now k : Nat) :
    deref (seed_left now (some k)) = .ok (seed_used now (some k)) := by
  unfold seed_left seed_used deref
  by_cases hk : k = 0 <;> simp [hk]

/-- With a non-zero seed in the seed slot the clock is not read: `prng_rand` does the same
whatever `time(NULL)` would return. -/
theorem prng_rand_seeded (debug : Bool) (now now1 : Nat) (rand : Nat → Nat → Nat) (s : Nat)
    (size : Nat) (indexes : Option (List Nat)) (low high replacement : Nat) (hs : s ≠ 0) :
    prng_rand debug now rand (some s) size indexes low high replacement
      = prng_rand debug now1 rand (some s) size indexes low high replacement := by
  unfold prng_rand
  rw [seed_used_nonzero now s hs, seed_used_nonzero now1 s hs, seed_left_nonzero now s hs,
    seed_left_nonzero now1 s hs]

/-- The statements that `gen` and `rep` share: for parameters within the data-model
invariants and buffers of the declared sizes, the two index sequences are generated
inside their ranges, they do not depend on what the local arrays held, and `unlock`
returns a pre-key whose bits are the majority votes. -/
theorem derive_ok (debug : Bool) (now_src now_key : Nat) (rand : Nat → Nat → Nat)
    (read : List Nat) (source_seed key_seed : Option Nat)
    (source_bits : Nat) (vault : List Nat) (key_pre_bits pool_bits n_locks n_xoration : Nat)
    (hxor : 1 ≤ n_xoration) (hlocks : 1 ≤ n_locks) (hkp : 1 ≤ key_pre_bits)
    (hsrc : pool_bits * n_locks * n_xoration ≤ source_bits)
    (hpool : key_pre_bits ≤ pool_bits)
    (h31 : source_bits < 2 ^ 31)
    (hread : source_bits ≤ 8 * read.length)
    (hvault : pool_bits * n_locks ≤ 8 * vault.length) :
    ∃ I KI, I.length = pool_bits * n_locks * n_xoration ∧ (∀ x ∈ I, x < source_bits) ∧
      KI.length = key_pre_bits ∧ (∀ x ∈ KI, x < pool_bits) ∧
      ∀ junk : Junk,
        prng_rand_without_replacement debug now_src rand source_seed
            (pool_bits * n_locks * n_xoration % 2 ^ 32)
            (some (local_words junk.source_indexes
              (pool_bits * n_locks * n_xoration % 2 ^ 32)))
            0 source_bits = .ok ⟨0, seed_left now_src source_seed, some I⟩ ∧
        prng_rand_without_replacement debug now_key rand key_seed key_pre_bits
            (some (local_words junk.key_indexes key_pre_bits)) 0 pool_bits
            = .ok ⟨0, seed_left now_key key_seed, some KI⟩ ∧
        ∃ kp, unlock read I vault (local_bytes junk.key_pre (bits_to_bytes key_pre_bits)) KI
            key_pre_bits n_locks n_xoration = .ok kp ∧
          kp.length = bits_to_bytes key_pre_bits ∧ (∀ x ∈ kp, x < 256) ∧
          (∀ i, i < key_pre_bits → bit_of kp i
            = if vote_count read I vault n_locks n_xoration (KI.getD i 0) > n_locks / 2
              then 1 else 0) := by
  have h32 : source_bits + 1 < 2 ^ 32 := by omega
  have hpb : 1 ≤ pool_bits := by omega
  have hpl : pool_bits ≤ pool_bits * n_locks := Nat.le_mul_of_pos_right _ hlocks
  have hN1 : pool_bits * n_locks ≤ pool_bits * n_locks * n_xoration :=
    Nat.le_mul_of_pos_right _ hxor
  have hNmod : pool_bits * n_locks * n_xoration % 2 ^ 32 = pool_bits * n_locks * n_xoration :=
    Nat.mod_eq_of_lt (by omega)
  rw [hNmod]
  obtain ⟨I, hIlen, hImem, hI⟩ := prng_rand_out_indep debug now_src rand source_seed
    (pool_bits * n_locks * n_xoration) 0 source_bits 0
    (by omega) (by omega) (by omega) (fun h => absurd rfl h)
    (fun _ => by omega) (fun _ => by rw [scratch_len_zero _ h32]; omega)
  obtain ⟨KI, hKIlen, hKImem, hKI⟩ := prng_rand_out_indep debug now_key rand key_seed
    key_pre_bits 0 pool_bits 0
    hkp (by omega) (by omega) (fun h => absurd rfl h)
    (fun _ => by omega) (fun _ => by rw [scratch_len_zero _ (by omega)]; omega)
  refine ⟨I, KI, hIlen, hImem, hKIlen, hKImem, ?_⟩
  intro junk
  refine ⟨hI _ (local_words_length _ _), hKI _ (local_words_length _ _), ?_⟩
  obtain ⟨kp, hkp1, hkplen, hkpbits, _⟩ := unlock_ok read I vault
    (local_bytes junk.key_pre (bits_to_bytes key_pre_bits)) KI key_pre_bits n_locks
    n_xoration pool_bits (indexes_inside_of_lt hImem hread) (by omega) hvault (by omega)
    (fun i hi => getD_lt_of_forall hKImem (by omega))
    (by rw [local_bytes_length]; exact le_bits_to_bytes _)
    (lt_int_of_lt hImem (by omega)) (by omega) (by omega) (by omega)
  rw [local_bytes_length] at hkplen
  exact ⟨kp, hkp1, hkplen,
    unlock_bytes_lt _ _ _ _ _ _ _ _ _ (local_bytes_lt _ _) hkp1, hkpbits⟩

/-- What `gen` returns once its two index sequences and its pre-key are known: the key is
the digest of the pre-key under the nonce, the token the digest of the key under the key
seed. -/
theorem gen_eq (debug : Bool) (now_src now_key now_nonce : Nat) (rand : Nat → Nat → Nat)
    (HMAC : Nat → List Nat → List Nat) (junk : Junk) (read : List Nat)
    (source_seed : Option Nat) (source_bits : Nat) (vault key : List Nat) (k : Nat)
    (key_bits key_pre_bits : Nat) (token : List Nat)
    (token_bytes pool_bits n_locks n_xoration : Nat) (I KI kp : List Nat)
    (hI : prng_rand_without_replacement debug now_src rand source_seed
      (pool_bits * n_locks * n_xoration % 2 ^ 32)
      (some (local_words junk.source_indexes (pool_bits * n_locks * n_xoration % 2 ^ 32)))
      0 source_bits = .ok ⟨0, seed_left now_src source_seed, some I⟩)
    (hKI : prng_rand_without_replacement debug now_key rand (some k) key_pre_bits
      (some (local_words junk.key_indexes key_pre_bits)) 0 pool_bits
      = .ok ⟨0, seed_left now_key (some k), some KI⟩)
    (hu : unlock read I vault (local_bytes junk.key_pre (bits_to_bytes key_pre_bits)) KI
      key_pre_bits n_locks n_xoration = .ok kp)
    (hkplen : kp.length = bits_to_bytes key_pre_bits)
    (hH : ∀ x m, (HMAC x m).length = 32)
    (hkey : 32 ≤ key.length) (hkb : bits_to_bytes key_bits ≤ key.length)
    (htoken : 32 ≤ token.length) :
    gen debug now_src now_key now_nonce rand HMAC junk read source_seed source_bits vault
        key (some k) key_bits key_pre_bits token token_bytes pool_bits n_locks n_xoration
      = .ok ⟨0, seed_left now_src source_seed, seed_left now_key (some k), kp,
          rand (now_nonce % 2 ^ 32) 0,
          HMAC (rand (now_nonce % 2 ^ 32) 0) kp ++ key.drop 32,
          HMAC (seed_used now_key (some k))
            ((HMAC (rand (now_nonce % 2 ^ 32) 0) kp ++ key.drop 32).take
              (bits_to_bytes key_bits)) ++ token.drop 32⟩ := by
  have hr1 : read_bytes kp (bits_to_bytes key_pre_bits) = .ok kp := by
    simp [read_bytes, hkplen]
  have hw1 : ∀ d, d.length = 32 → write_bytes key d = .ok (d ++ key.drop 32) := by
    intro d hd
    simp [write_bytes, hd, hkey]
  have hr2 : ∀ d, d.length = 32 → read_bytes (d ++ key.drop 32) (bits_to_bytes key_bits)
      = .ok ((d ++ key.drop 32).take (bits_to_bytes key_bits)) := by
    intro d hd
    have : bits_to_bytes key_bits ≤ (d ++ key.drop 32).length := by
      simp [hd]
      omega
    simp only [read_bytes, if_pos this]
  have hw2 : ∀ d, d.length = 32 → write_bytes token d = .ok (d ++ token.drop 32) := by
    intro d hd
    simp [write_bytes, hd, htoken]
  unfold gen
  simp only [hI, hKI, Option.getD_some, hu, hr1, hw1 _ (hH _ _), hr2 _ (hH _ _),
    deref_seed_left, hw2 _ (hH _ _), bind, Except.bind, pure, Except.pure]

/-- C10, as stated, fails: two invocations of `gen` with the same seeds, reading, vault,
buffers and parameters that differ only in the clock reading behind the nonce (3 and 4)
leave different keys and different tokens. -/
theorem gen_key_depends_on_clock :
    gen false 1 2 3 test_rand test_HMAC junk_zeros [181] (some 8) 8 [114]
        (List.replicate 32 0) (some 16) 256 8 (List.replicate 32 0) 32 8 1 1
      = .ok ⟨0, some 8, some 16, [199], 3, List.replicate 32 202, List.replicate 32 218⟩ ∧
    gen false 1 2 4 test_rand test_HMAC junk_zeros [181] (some 8) 8 [114]
        (List.replicate 32 0) (some 16) 256 8 (List.replicate 32 0) 32 8 1 1
      = .ok ⟨0, some 8, some 16, [199], 4, List.replicate 32 203, List.replicate 32 219⟩ ∧
    List.replicate 32 202 ≠ List.replicate 32 203 ∧
    List.replicate 32 218 ≠ List.replicate 32 219 := by
  refine ⟨by rfl, by rfl, by decide, by decide⟩


/-- C10, amended: two invocations of `gen` with the same non-zero `source_seed` and
`key_seed`, the same reading, vault, key and token buffers and parameters (within the
data-model invariants, with `source_bits < 2^31` so that every position fits the type
`int`, and with a digest of 32 bytes) both return and leave the same
`key_pre_bits` bits of the pre-key, whatever the clock readings and the first contents of
the local arrays at each invocation. When `key_pre_bits` is a multiple of 8 and both
invocations draw the same nonce, they leave the same pre-key bytes, key and token too. -/
theorem gen_deterministic_given_nonce (debug : Bool) (rand : Nat → Nat → Nat)
    (HMAC : Nat → List Nat → List Nat) (read vault key token : List Nat) (s k : Nat)
    (source_bits key_bits key_pre_bits token_bytes pool_bits n_locks n_xoration : Nat)
    (now_src now_key now_nonce : Nat) (junk : Junk)
    (now_src2 now_key2 now_nonce2 : Nat) (junk2 : Junk)
    (hs : s ≠ 0) (hk : k ≠ 0)
    (hxor : 1 ≤ n_xoration) (hlocks : 1 ≤ n_locks) (hkp : 1 ≤ key_pre_bits)
    (hsrc : pool_bits * n_locks * n_xoration ≤ source_bits)
    (hpool : key_pre_bits ≤ pool_bits)
    (h31 : source_bits < 2 ^ 31)
    (hread : source_bits ≤ 8 * read.length)
    (hvault : pool_bits * n_locks ≤ 8 * vault.length)
    (hH : ∀ x m, (HMAC x m).length = 32)
    (hkey : 32 ≤ key.length) (hkb : bits_to_bytes key_bits ≤ key.length)
    (htoken : 32 ≤ token.length) :
    ∃ g g2,
      gen debug now_src now_key now_nonce rand HMAC junk read (some s) source_bits vault
        key (some k) key_bits key_pre_bits token token_bytes pool_bits n_locks n_xoration
        = .ok g ∧
      gen debug now_src2 now_key2 now_nonce2 rand HMAC junk2 read (some s) source_bits vault
        key (some k) key_bits key_pre_bits token token_bytes pool_bits n_locks n_xoration
        = .ok g2 ∧
      (∀ i, i < key_pre_bits →
        ∃ p, get_bit g.key_pre i = .ok p ∧ get_bit g2.key_pre i = .ok p) ∧
      (key_pre_bits % 8 = 0 → g.nonce = g2.nonce →
        g.key_pre = g2.key_pre ∧ g.key = g2.key ∧ g.token = g2.token) := by
  obtain ⟨I, KI, _, _, _, _, hall⟩ := derive_ok debug now_src now_key rand read (some s)
    (some k) source_bits vault key_pre_bits pool_bits n_locks n_xoration hxor hlocks hkp
    hsrc hpool h31 hread hvault
  obtain ⟨I2, KI2, _, _, _, _, hall2⟩ := derive_ok debug now_src2 now_key2 rand read (some s)
    (some k) source_bits vault key_pre_bits pool_bits n_locks n_xoration hxor hlocks hkp
    hsrc hpool h31 hread hvault
  obtain ⟨hI, hKI, kp, hu, hkplen, hkplt, hkpbits⟩ := hall junk
  obtain ⟨hI2, hKI2, kp2, hu2, hkplen2, hkplt2, hkpbits2⟩ := hall2 junk2
  -- the index sequences do not depend on the clock
  have hII : I2 = I := by
    have h1 := (hall junk2).1
    unfold prng_rand_without_replacement at h1 hI2
    rw [prng_rand_seeded debug now_src now_src2 rand s _ _ _ _ _ hs, hI2] at h1
    injection h1 with h1
    injection h1 with _ _ h1
    injection h1
  have hKK : KI2 = KI := by
    have h1 := (hall junk2).2.1
    unfold prng_rand_without_replacement at h1 hKI2
    rw [prng_rand_seeded debug now_key now_key2 rand k _ _ _ _ _ hk, hKI2] at h1
    injection h1 with h1
    injection h1 with _ _ h1
    injection h1
  subst hII hKK
  have hg := gen_eq debug now_src now_key now_nonce rand HMAC junk read (some s) source_bits
    vault key k key_bits key_pre_bits token token_bytes pool_bits n_locks n_xoration I2 KI2
    kp hI hKI hu
    hkplen hH hkey hkb htoken
  have hg2 := gen_eq debug now_src2 now_key2 now_nonce2 rand HMAC junk2 read (some s)
    source_bits vault key k key_bits key_pre_bits token token_bytes pool_bits n_locks
    n_xoration I2 KI2 kp2 hI2 hKI2 hu2 hkplen2 hH hkey hkb htoken
  have hbits : ∀ i, i < key_pre_bits → bit_of kp i = bit_of kp2 i := by
    intro i hi
    rw [hkpbits i hi, hkpbits2 i hi]
  refine ⟨_, _, hg, hg2, ?_, ?_⟩
  · intro i hi
    have hb := le_bits_to_bytes key_pre_bits
    refine ⟨bit_of kp i, get_bit_ok (by show i / 8 < kp.length; omega), ?_⟩
    rw [hbits i hi]
    exact get_bit_ok (by show i / 8 < kp2.length; omega)
  · intro h8 hnonce
    have hkk : kp = kp2 :=
      bytes_eq_of_bits kp kp2 key_pre_bits h8 hkplen hkplen2 hkplt hkplt2 hbits
    have hn : rand (now_nonce % 2 ^ 32) 0 = rand (now_nonce2 % 2 ^ 32) 0 := hnonce
    refine ⟨hkk, ?_, ?_⟩
    · show HMAC (rand (now_nonce % 2 ^ 32) 0) kp ++ key.drop 32
        = HMAC (rand (now_nonce2 % 2 ^ 32) 0) kp2 ++ key.drop 32
      rw [hn, hkk]
    · show HMAC (seed_used now_key (some k))
          ((HMAC (rand (now_nonce % 2 ^ 32) 0) kp ++ key.drop 32).take
            (bits_to_bytes key_bits)) ++ token.drop 32
        = HMAC (seed_used now_key2 (some k))
          ((HMAC (rand (now_nonce2 % 2 ^ 32) 0) kp2 ++ key.drop 32).take
            (bits_to_bytes key_bits)) ++ token.drop 32
      rw [hn, hkk, seed_used_nonzero _ _ hk, seed_used_nonzero _ _ hk]

/-- Witness of C10: two invocations with different clock readings for the index
sequences and different first contents of the local arrays. -/
theorem gen_deterministic_given_nonce_witness :
    ∃ g g2,
      gen false 1 2 3 test_rand test_HMAC junk_zeros [181] (some 8) 8 [114]
        (List.replicate 32 0) (some 16) 256 8 (List.replicate 32 0) 32 8 1 1 = .ok g ∧
      gen false 5 6 3 test_rand test_HMAC junk_ones [181] (some 8) 8 [114]
        (List.replicate 32 0) (some 16) 256 8 (List.replicate 32 0) 32 8 1 1 = .ok g2 ∧
      (∀ i, i < 8 → ∃ p, get_bit g.key_pre i = .ok p ∧ get_bit g2.key_pre i = .ok p) ∧
      (8 % 8 = 0 → g.nonce = g2.nonce →
        g.key_pre = g2.key_pre ∧ g.key = g2.key ∧ g.token = g2.token) :=
  gen_deterministic_given_nonce false test_rand test_HMAC [181] [114] (List.replicate 32 0)
    (List.replicate 32 0) 8 16 8 256 8 32 8 1 1 1 2 3 junk_zeros 5 6 3 junk_ones
    (by decide) (by decide) (by decide) (by decide) (by decide) (by decide) (by decide)
    (by decide) (by decide) (by decide) (fun _ _ => by simp [test_HMAC]) (by decide)
    (by decide) (by decide)


theorem strncmp_from_agree (s1 s2 : List Nat) :
    ∀ n i, i + n ≤ s1.length → i + n ≤ s2.length →
      (∀ j, i ≤ j → j < i + n → s1[j]? = s2[j]?) → strncmp_from s1 s2 i n = .ok 0 := by
  intro n
  induction n with
  | zero =>
    intro i _ _ _
    rfl
  | succ m ih =>
    intro i h1 h2 hag
    have hi1 : i < s1.length := by omega
    have hi2 : i < s2.length := by omega
    have heq : s1.getD i 0 = s2.getD i 0 := by
      rw [List.getD_eq_getElem?_getD, List.getD_eq_getElem?_getD, hag i (le_refl _) (by omega)]
    have hrec := ih (i + 1) (by omega) (by omega) (fun j hj1 hj2 => hag j (by omega) (by omega))
    unfold strncmp_from
    simp only [load_ok hi1, load_ok hi2, bind, Except.bind, heq, ne_eq, not_true_eq_false,
      if_false, hrec, pure, Except.pure]
    split <;> rfl

/-- The indices that `prng_rand` writes depend on the seed slot and the clock only
through the value given to `srand`. -/
theorem prng_rand_same_stream (debug : Bool) (now now1 : Nat) (rand : Nat → Nat → Nat)
    (seed seed1 : Option Nat) (size : Nat) (indexes : Option (List Nat))
    (low high replacement : Nat) (I : List Nat)
    (hseed : seed_used now seed = seed_used now1 seed1)
    (h : prng_rand debug now rand seed size indexes low high replacement
      = .ok ⟨0, seed_left now seed, some I⟩) :
    prng_rand debug now1 rand seed1 size indexes low high replacement
      = .ok ⟨0, seed_left now1 seed1, some I⟩ := by
  unfold prng_rand at h ⊢
  split at h
  · cases h
  · rename_i c1
    split at h
    · cases h
    · rename_i c2
      split at h
      · cases h
      · rename_i c3
        split at h
        · cases h
        · rename_i c4
          rw [if_neg c1, if_neg c2, if_neg c3, if_neg c4]
          simp only at h ⊢
          split at h
          · cases h
          · rename_i c5
            rw [if_neg c5, ← hseed]
            obtain ⟨st, hst, h⟩ := bind_eq_ok h
            rw [hst]
            simp only [pure, Except.pure, Except.ok.injEq, RandResult.mk.injEq, true_and] at h
            simp only [bind, Except.bind, pure, Except.pure, h]


theorem seed_left_some (now s : Nat) :
    seed_left now (some s) = some (seed_used now (some s)) := by
  unfold seed_left seed_used
  by_cases hs : s = 0 <;> simp [hs]

/-- The state in which `rep` reaches the comparison once its two index sequences and its
pre-key are known. -/
theorem rep_recompute_eq (debug : Bool) (now_src now_key : Nat) (rand : Nat → Nat → Nat)
    (HMAC : Nat → List Nat → List Nat) (junk : Junk) (read : List Nat)
    (source_seed : Option Nat) (source_bits : Nat) (vault key : List Nat) (k : Nat)
    (key_bits key_pre_bits nonce token_bytes pool_bits n_locks n_xoration : Nat)
    (I KI kp : List Nat)
    (hI : prng_rand_without_replacement debug now_src rand source_seed
      (pool_bits * n_locks * n_xoration % 2 ^ 32)
      (some (local_words junk.source_indexes (pool_bits * n_locks * n_xoration % 2 ^ 32)))
      0 source_bits = .ok ⟨0, seed_left now_src source_seed, some I⟩)
    (hKI : prng_rand_without_replacement debug now_key rand (some k) key_pre_bits
      (some (local_words junk.key_indexes key_pre_bits)) 0 pool_bits
      = .ok ⟨0, seed_left now_key (some k), some KI⟩)
    (hu : unlock read I vault (local_bytes junk.key_pre (bits_to_bytes key_pre_bits)) KI
      key_pre_bits n_locks n_xoration = .ok kp)
    (hkplen : kp.length = bits_to_bytes key_pre_bits)
    (hH : ∀ x m, (HMAC x m).length = 32)
    (hkey : 32 ≤ key.length) (hkb : bits_to_bytes key_bits ≤ key.length)
    (htoken : 32 ≤ token_bytes) :
    rep_recompute debug now_src now_key rand HMAC junk read source_seed source_bits vault
        key (some k) key_bits key_pre_bits nonce token_bytes pool_bits n_locks n_xoration
      = .ok ⟨seed_left now_src source_seed, seed_left now_key (some k), kp,
          HMAC nonce kp ++ key.drop 32,
          HMAC (seed_used now_key (some k))
            ((HMAC nonce kp ++ key.drop 32).take (bits_to_bytes key_bits))
            ++ (local_bytes junk.T token_bytes).drop 32⟩ := by
  have hr1 : read_bytes kp (bits_to_bytes key_pre_bits) = .ok kp := by
    simp [read_bytes, hkplen]
  have hw1 : ∀ d, d.length = 32 → write_bytes key d = .ok (d ++ key.drop 32) := by
    intro d hd
    simp [write_bytes, hd, hkey]
  have hr2 : ∀ d, d.length = 32 → read_bytes (d ++ key.drop 32) (bits_to_bytes key_bits)
      = .ok ((d ++ key.drop 32).take (bits_to_bytes key_bits)) := by
    intro d hd
    have : bits_to_bytes key_bits ≤ (d ++ key.drop 32).length := by
      simp [hd]
      omega
    simp only [read_bytes, if_pos this]
  have hw2 : ∀ d, d.length = 32 → write_bytes (local_bytes junk.T token_bytes) d
      = .ok (d ++ (local_bytes junk.T token_bytes).drop 32) := by
    intro d hd
    simp [write_bytes, hd, local_bytes_length, htoken]
  unfold rep_recompute
  simp only [hI, hKI, Option.getD_some, hu, hr1, hw1 _ (hH _ _), hr2 _ (hH _ _),
    deref_seed_left, hw2 _ (hH _ _), bind, Except.bind, pure, Except.pure]

/-- Noise-free reproduction where the code achieves it: for parameters within the
data-model invariants with `source_bits < 2^31`, `key_pre_bits` a multiple of 8,
`key_bits <= 256`,
`token_bytes = 32`, a digest of 32 bytes and non-zero seeds after `gen`, `rep` on the same
reading and vault, with the seeds, the nonce and the token that `gen` has left, returns
with the same token and leaves in its key buffer the digest that `gen` has left in its
own, whatever the clock readings and the first contents of the local arrays. -/
theorem gen_rep_reproduce (debug : Bool) (rand : Nat → Nat → Nat)
    (HMAC : Nat → List Nat → List Nat) (read vault key key2 token : List Nat) (s k : Nat)
    (source_bits key_bits key_pre_bits token_bytes pool_bits n_locks n_xoration : Nat)
    (now_src now_key now_nonce : Nat) (junk : Junk) (now_src2 now_key2 : Nat) (junk2 : Junk)
    (hs : seed_used now_src (some s) ≠ 0) (hk : seed_used now_key (some k) ≠ 0)
    (hxor : 1 ≤ n_xoration) (hlocks : 1 ≤ n_locks) (hkp : 1 ≤ key_pre_bits)
    (hsrc : pool_bits * n_locks * n_xoration ≤ source_bits)
    (hpool : key_pre_bits ≤ pool_bits)
    (h31 : source_bits < 2 ^ 31)
    (hread : source_bits ≤ 8 * read.length)
    (hvault : pool_bits * n_locks ≤ 8 * vault.length)
    (hH : ∀ x m, (HMAC x m).length = 32)
    (hkey : 32 ≤ key.length) (hkey2 : 32 ≤ key2.length) (htoken : 32 ≤ token.length)
    (h8 : key_pre_bits % 8 = 0) (hkb : key_bits ≤ 256) (htb : token_bytes = 32) :
    ∃ g r,
      gen debug now_src now_key now_nonce rand HMAC junk read (some s) source_bits vault
        key (some k) key_bits key_pre_bits token token_bytes pool_bits n_locks n_xoration
        = .ok g ∧
      rep debug now_src2 now_key2 rand HMAC junk2 read g.source_seed source_bits vault key2
        g.key_seed key_bits key_pre_bits g.nonce g.token token_bytes pool_bits n_locks
        n_xoration = .ok r ∧
      r.key_pre = g.key_pre ∧
      g.key = HMAC g.nonce g.key_pre ++ key.drop 32 ∧
      r.key = HMAC g.nonce g.key_pre ++ key2.drop 32 ∧
      r.T = g.token.take 32 := by
  have hbytes : bits_to_bytes key_bits ≤ 32 := by
    unfold bits_to_bytes CEIL
    split <;> omega
  obtain ⟨I, KI, _, _, _, _, hall⟩ := derive_ok debug now_src now_key rand read (some s)
    (some k) source_bits vault key_pre_bits pool_bits n_locks n_xoration hxor hlocks hkp
    hsrc hpool h31 hread hvault
  obtain ⟨hI, hKI, kp, hu, hkplen, hkplt, hkpbits⟩ := hall junk
  obtain ⟨hI2, hKI2, kp2, hu2, hkplen2, hkplt2, hkpbits2⟩ := hall junk2
  have hkk : kp2 = kp := bytes_eq_of_bits kp2 kp key_pre_bits h8 hkplen2 hkplen hkplt2 hkplt
    (fun i hi => by rw [hkpbits i hi, hkpbits2 i hi])
  subst hkk
  have hg := gen_eq debug now_src now_key now_nonce rand HMAC junk read (some s) source_bits
    vault key k key_bits key_pre_bits token token_bytes pool_bits n_locks n_xoration I KI
    kp2 hI hKI hu hkplen hH hkey (by omega) htoken
  -- the seeds that gen leaves give rep the same two streams
  have hsu : seed_used now_src2 (some (seed_used now_src (some s))) = seed_used now_src (some s) :=
    seed_used_nonzero _ _ hs
  have hku : seed_used now_key2 (some (seed_used now_key (some k))) = seed_used now_key (some k) :=
    seed_used_nonzero _ _ hk
  have hI3 := prng_rand_same_stream debug now_src now_src2 rand (some s)
    (some (seed_used now_src (some s))) _ _ _ _ _ I hsu.symm hI2
  have hKI3 := prng_rand_same_stream debug now_key now_key2 rand (some k)
    (some (seed_used now_key (some k))) _ _ _ _ _ KI hku.symm hKI2
  have hr := rep_recompute_eq debug now_src2 now_key2 rand HMAC junk2 read
    (some (seed_used now_src (some s))) source_bits vault key2 (seed_used now_key (some k))
    key_bits key_pre_bits (rand (now_nonce % 2 ^ 32) 0) token_bytes pool_bits n_locks
    n_xoration I KI kp2 hI3 hKI3 hu2 hkplen hH hkey2 (by omega) (by omega)
  have htake : ∀ rest : List Nat,
      (HMAC (rand (now_nonce % 2 ^ 32) 0) kp2 ++ rest).take (bits_to_bytes key_bits)
        = (HMAC (rand (now_nonce % 2 ^ 32) 0) kp2).take (bits_to_bytes key_bits) := by
    intro rest
    exact List.take_append_of_le_length (by rw [hH]; exact hbytes)
  have hT0 : (local_bytes junk2.T token_bytes).drop 32 = [] := by
    apply List.drop_eq_nil_of_le
    rw [local_bytes_length, htb]
  rw [htake, hT0, List.append_nil, hku] at hr
  refine ⟨_, ⟨0, seed_left now_src2 (some (seed_used now_src (some s))),
    seed_left now_key2 (some (seed_used now_key (some k))), kp2,
    HMAC (rand (now_nonce % 2 ^ 32) 0) kp2 ++ key2.drop 32,
    HMAC (seed_used now_key (some k))
      ((HMAC (rand (now_nonce % 2 ^ 32) 0) kp2).take (bits_to_bytes key_bits))⟩,
    hg, ?_, rfl, rfl, rfl, ?_⟩
  · show rep debug now_src2 now_key2 rand HMAC junk2 read (seed_left now_src (some s))
      source_bits vault key2 (seed_left now_key (some k)) key_bits key_pre_bits
      (rand (now_nonce % 2 ^ 32) 0) _ token_bytes pool_bits n_locks n_xoration = _
    rw [seed_left_some, seed_left_some]
    unfold rep
    rw [hr]
    show rep_check _ key_bits _ token_bytes = _
    unfold rep_check
    have hcmp : strncmp
        (HMAC (seed_used now_key (some k))
          ((HMAC (rand (now_nonce % 2 ^ 32) 0) kp2).take (bits_to_bytes key_bits)))
        (HMAC (seed_used now_key (some k))
          ((HMAC (rand (now_nonce % 2 ^ 32) 0) kp2 ++ key.drop 32).take
            (bits_to_bytes key_bits)) ++ token.drop 32) token_bytes = .ok 0 := by
      rw [htake, htb]
      apply strncmp_from_agree
      · rw [hH]
      · simp [hH]
      · intro j _ hj
        rw [List.getElem?_append_left (by rw [hH]; omega)]
    simp only [hcmp, bind, Except.bind, ne_eq, not_true_eq_false, if_false, pure, Except.pure]
  · show _ = (HMAC (seed_used now_key (some k))
        ((HMAC (rand (now_nonce % 2 ^ 32) 0) kp2 ++ key.drop 32).take
          (bits_to_bytes key_bits)) ++ token.drop 32).take 32
    rw [htake, List.take_append_of_le_length (by rw [hH])]
    exact (List.take_of_length_le (by rw [hH])).symm


/-- C15: point update of the bit buffer. For a bit position `i` inside the buffer `b`
and `v` in `{0, 1}`, `set_bit_v(b, i, v)` returns a buffer of the same length in which
`get_bit` at `i` is `v` and `get_bit` at every other position `j` inside the buffer is
what it was. -/
theorem set_bit_v_point_update (b : List Nat) (i v : Nat) (hi : i / 8 < b.length)
    (hv : v = 0 ∨ v = 1) :
    ∃ b1, set_bit_v b i v = .ok b1 ∧ b1.length = b.length ∧
      get_bit b1 i = .ok v ∧
      ∀ j, j / 8 < b.length → j ≠ i → get_bit b1 j = get_bit b j := by
  have hv1 : v ≤ 1 := by omega
  refine ⟨_, set_bit_v_ok v hi, by simp, ?_, ?_⟩
  · rw [get_bit_ok (by simpa using hi), bit_of_set b i v i hi hv1, if_pos rfl]
  · intro j hj hne
    rw [get_bit_ok (by simpa using hj), get_bit_ok hj, bit_of_set b i v j hi hv1, if_neg hne]

/-- Witness of C15: bit 10 of a buffer of two bytes is set to 1. -/
theorem set_bit_v_point_update_witness :
    ∃ b1, set_bit_v [181, 114] 10 1 = .ok b1 ∧ b1.length = [181, 114].length ∧
      get_bit b1 10 = .ok 1 ∧
      ∀ j, j / 8 < [181, 114].length → j ≠ 10 → get_bit b1 j = get_bit [181, 114] j :=
  set_bit_v_point_update [181, 114] 10 1 (by decide) (Or.inr rfl)

/-- C16: LSB-first bit addressing. For a bit position `i` inside the buffer `b`,
`get_bit(b, i)` returns 0 or 1, and what it returns is bit `i % 8` of the byte
`b[i / 8]`, where bit 0 of a byte is its least significant bit: the byte divided by
`2 ^ (i % 8)`, modulo 2. -/
theorem get_bit_lsb_first (b : List Nat) (i : Nat) (hi : i / 8 < b.length) :
    ∃ x, b[i / 8]? = some x ∧
      get_bit b i = .ok (x / 2 ^ (i % 8) % 2) ∧
      get_bit b i = .ok (if x.testBit (i % 8) then 1 else 0) ∧
      (get_bit b i = .ok 0 ∨ get_bit b i = .ok 1) := by
  refine ⟨b[i / 8], List.getElem?_eq_getElem hi, ?_, ?_, ?_⟩
  · rw [get_bit_ok hi]
    unfold bit_of
    rw [List.getD_eq_getElem?_getD, List.getElem?_eq_getElem hi, Nat.and_one_is_mod,
      Nat.shiftRight_eq_div_pow]
    rfl
  · rw [get_bit_ok hi]
    unfold bit_of
    rw [List.getD_eq_getElem?_getD, List.getElem?_eq_getElem hi, shr_and_one, Option.getD_some]
    cases h : (b[i / 8]).testBit (i % 8) <;> simp
  · rw [get_bit_ok hi]
    have := bit_of_le_one b i
    have h2 : bit_of b i = 0 ∨ bit_of b i = 1 := by omega
    rcases h2 with h | h
    · left
      rw [h]
    · right
      rw [h]

/-- Witness of C16: bit 12 of the buffer `[181, 114]` is bit 4 of the byte 114. -/
theorem get_bit_lsb_first_witness :
    ∃ x, [181, 114][12 / 8]? = some x ∧
      get_bit [181, 114] 12 = .ok (x / 2 ^ (12 % 8) % 2) ∧
      get_bit [181, 114] 12 = .ok (if x.testBit (12 % 8) then 1 else 0) ∧
      (get_bit [181, 114] 12 = .ok 0 ∨ get_bit [181, 114] 12 = .ok 1) :=
  get_bit_lsb_first [181, 114] 12 (by decide)


theorem CEIL_ge (a b : Nat) (hb : 0 < b) : a ≤ b * CEIL a b := by
  unfold CEIL
  have h := Nat.div_add_mod a b
  have hm := Nat.mod_lt a hb
  split
  · rw [Nat.mul_add, Nat.mul_one]
    omega
  · rw [Nat.add_zero]
    omega

theorem CEIL_least (a b m : Nat) (hb : 0 < b) (h : a ≤ b * m) : CEIL a b ≤ m := by
  unfold CEIL
  have hd := Nat.div_add_mod a b
  split
  · rename_i hpos
    by_contra hlt
    have hle : m ≤ a / b := by omega
    have := Nat.mul_le_mul_left b hle
    omega
  · rw [Nat.add_zero]
    by_contra hlt
    have hle : m + 1 ≤ a / b := by omega
    have := Nat.mul_le_mul_left b hle
    rw [Nat.mul_add, Nat.mul_one] at this
    omega

theorem CEIL_no_wrap (a b : Nat) (hb : 0 < b) : CEIL a b ≤ a ∨ (a = 0 ∧ CEIL a b = 0) := by
  unfold CEIL
  have hd := Nat.div_le_self a b
  split
  · rename_i hpos
    left
    have hb2 : 2 ≤ b := by
      by_contra hlt
      have : b = 1 := by omega
      subst this
      rw [Nat.mod_one] at hpos
      exact Nat.lt_irrefl 0 hpos
    have h1 := Nat.div_mul_le_self a b
    have h2 : a / b * 2 ≤ a / b * b := Nat.mul_le_mul_left _ hb2
    have h3 : 0 < a := by
      by_contra h0
      have : a = 0 := by omega
      subst this
      simp at hpos
    omega
  · left
    omega

theorem bits_to_bytes_eq (n : Nat) : bits_to_bytes n = (n + 7) / 8 := by
  unfold bits_to_bytes CEIL
  split <;> omega

theorem bit_inside_bytes (n pos : Nat) (h : pos < n) : pos / 8 < bits_to_bytes n := by
  rw [bits_to_bytes_eq]
  omega

/-- C17: byte sizing. For `b > 0`, `CEIL(a, b)` is the least integer `m` with
`b * m >= a` (the least integer not below `a / b`) and stays inside the `unsigned` range
of `a`; `bits_to_bytes(n)` is `(n + 7) / 8`; a vault of
`bits_to_bytes(pool_bits * n_locks)` bytes has a byte for every bit position below
`pool_bits * n_locks`, and `lock` on such a vault returns without leaving it, for sizes
whose bit positions fit the type `int` and whose index positions fit `unsigned`. -/
theorem CEIL_byte_sizing (a b : Nat) (hb : 0 < b) :
    a ≤ b * CEIL a b ∧ (∀ m, a ≤ b * m → CEIL a b ≤ m) ∧
    (a < 2 ^ 32 → CEIL a b < 2 ^ 32) ∧
    bits_to_bytes a = (a + 7) / 8 ∧
    (∀ pool_bits n_locks pos, pos < pool_bits * n_locks →
      pos / 8 < bits_to_bytes (pool_bits * n_locks)) ∧
    (∀ (source source_indexes pool vault : List Nat) (pool_bits n_locks n_xoration : Nat),
      indexes_inside source source_indexes →
      pool_bits * n_locks * n_xoration ≤ source_indexes.length →
      pool_bits ≤ 8 * pool.length →
      vault.length = bits_to_bytes (pool_bits * n_locks) →
      (∀ x ∈ source_indexes, x < 2 ^ 31) → pool_bits ≤ 2 ^ 31 →
      pool_bits * n_locks < 2 ^ 31 → pool_bits * n_locks * n_xoration < 2 ^ 32 →
      ∃ V, lock source source_indexes pool pool_bits n_locks n_xoration vault = .ok V ∧
        V.length = bits_to_bytes (pool_bits * n_locks)) := by
  refine ⟨CEIL_ge a b hb, fun m h => CEIL_least a b m hb h, ?_, bits_to_bytes_eq a,
    fun pool_bits n_locks pos h => bit_inside_bytes _ _ h, ?_⟩
  · intro ha
    rcases CEIL_no_wrap a b hb with h | ⟨_, h⟩ <;> omega
  · intro source source_indexes pool vault pool_bits n_locks n_xoration hin hI hP hV h31 hPi
      hCi hIi
    obtain ⟨V, hl, hlen, _, _⟩ := lock_ok source source_indexes pool pool_bits n_locks
      n_xoration vault hin hI hP (by rw [hV]; exact le_bits_to_bytes _) h31 hPi hCi hIi
    exact ⟨V, hl, by rw [hlen, hV]⟩

/-- Witness of C17: the reference vault of `256 * 64` bits, `CEIL(16384, 8) = 2048`. -/
theorem CEIL_byte_sizing_witness :
    16384 ≤ 8 * CEIL 16384 8 ∧ (∀ m, 16384 ≤ 8 * m → CEIL 16384 8 ≤ m) ∧
    (16384 < 2 ^ 32 → CEIL 16384 8 < 2 ^ 32) ∧
    bits_to_bytes 16384 = (16384 + 7) / 8 ∧
    (∀ pool_bits n_locks pos, pos < pool_bits * n_locks →
      pos / 8 < bits_to_bytes (pool_bits * n_locks)) ∧
    (∀ (source source_indexes pool vault : List Nat) (pool_bits n_locks n_xoration : Nat),
      indexes_inside source source_indexes →
      pool_bits * n_locks * n_xoration ≤ source_indexes.length →
      pool_bits ≤ 8 * pool.length →
      vault.length = bits_to_bytes (pool_bits * n_locks) →
      (∀ x ∈ source_indexes, x < 2 ^ 31) → pool_bits ≤ 2 ^ 31 →
      pool_bits * n_locks < 2 ^ 31 → pool_bits * n_locks * n_xoration < 2 ^ 32 →
      ∃ V, lock source source_indexes pool pool_bits n_locks n_xoration vault = .ok V ∧
        V.length = bits_to_bytes (pool_bits * n_locks)) :=
  CEIL_byte_sizing 16384 8 (by decide)


/-- The specification-level XOR `xor_src` unfolds along the accessors of the source:
it starts at 0 and its step `k` XORs in `get_bit(source, source_indexes[base + k])`. -/
theorem xor_src_step (source source_indexes : List Nat) (base k : Nat)
    (hin : indexes_inside source source_indexes) (hk : base + k < source_indexes.length) :
    ∃ x s, source_indexes[base + k]? = some x ∧ get_bit source x = .ok s ∧
      xor_src source source_indexes base (k + 1)
        = xor_src source source_indexes base k ^^^ s := by
  refine ⟨source_indexes[base + k], bit_of source source_indexes[base + k],
    List.getElem?_eq_getElem hk, get_bit_ok (hin _ (List.getElem_mem hk)), ?_⟩
  show xor_src source source_indexes base k
      ^^^ bit_of source (source_indexes.getD (base + k) 0) = _
  rw [List.getD_eq_getElem?_getD, List.getElem?_eq_getElem hk]
  rfl

/-- C18: vault cell formula. With the index sequence of length
`pool_bits * n_locks * n_xoration` inside the source, buffers of the declared sizes and
sizes whose bit positions fit the type `int` and whose index positions fit `unsigned`
(`source_bits`, `pool_bits` at most `2^31`, `pool_bits * n_locks < 2^31`,
`pool_bits * n_locks * n_xoration < 2^32`),
`lock` returns a vault whose bit at position `i * n_locks + j` is `P[i]` XOR the XOR
over `k < n_xoration` of `S[I_src[(i * n_locks + j) * n_xoration + k]]`, for every
`i < pool_bits` and `j < n_locks`; the running index `ijk` of `lock` ends at
`pool_bits * n_locks * n_xoration`, and `xor_src` is the XOR of the bits that
`get_bit(source, source_indexes[base + k])` returns. -/
theorem lock_cell_formula (source source_indexes pool vault : List Nat)
    (pool_bits n_locks n_xoration source_bits : Nat)
    (hIlen : source_indexes.length = pool_bits * n_locks * n_xoration)
    (hIlt : ∀ x ∈ source_indexes, x < source_bits)
    (hS : source_bits ≤ 8 * source.length)
    (hP : pool_bits ≤ 8 * pool.length)
    (hV : pool_bits * n_locks ≤ 8 * vault.length)
    (hSi : source_bits ≤ 2 ^ 31) (hPi : pool_bits ≤ 2 ^ 31)
    (hCi : pool_bits * n_locks < 2 ^ 31)
    (hIi : pool_bits * n_locks * n_xoration < 2 ^ 32) :
    ∃ V, lock source source_indexes pool pool_bits n_locks n_xoration vault = .ok V ∧
      lock_loop source source_indexes pool pool_bits n_locks n_xoration vault
        = .ok (V, pool_bits * n_locks * n_xoration) ∧
      (∀ i j, i < pool_bits → j < n_locks →
        ∃ p, get_bit pool i = .ok p ∧
          get_bit V (i * n_locks + j)
            = .ok (p ^^^ xor_src source source_indexes ((i * n_locks + j) * n_xoration)
                n_xoration)) ∧
      (∀ base, xor_src source source_indexes base 0 = 0) ∧
      (∀ base k, base + k < pool_bits * n_locks * n_xoration →
        ∃ x s, source_indexes[base + k]? = some x ∧ get_bit source x = .ok s ∧
          xor_src source source_indexes base (k + 1)
            = xor_src source source_indexes base k ^^^ s) := by
  have hin := indexes_inside_of_lt hIlt hS
  obtain ⟨V, hloop, hlen, hbits, _⟩ := lock_loop_ok source source_indexes pool pool_bits
    n_locks n_xoration vault hin (by omega) hP hV (lt_int_of_lt hIlt hSi) hPi hCi hIi
  refine ⟨V, ?_, hloop, ?_, fun _ => rfl, ?_⟩
  · simp [lock, hloop, bind, Except.bind, pure, Except.pure]
  · intro i j hi hj
    have hpos := cell_lt hi hj
    refine ⟨bit_of pool i, get_bit_ok (by omega), ?_⟩
    rw [get_bit_ok (by omega), hbits i j hi hj]
  · intro base k hk
    exact xor_src_step source source_indexes base k hin (by omega)

/-- Witness of C18: a pool of 4 bits, 3 locks per bit and one source bit per lock. -/
theorem lock_cell_formula_witness :
    ∃ V, lock [181] [0, 1, 2, 3, 4, 5, 6, 7, 0, 1, 2, 3] [5] 4 3 1 [0, 0] = .ok V ∧
      lock_loop [181] [0, 1, 2, 3, 4, 5, 6, 7, 0, 1, 2, 3] [5] 4 3 1 [0, 0]
        = .ok (V, 4 * 3 * 1) ∧
      (∀ i j, i < 4 → j < 3 →
        ∃ p, get_bit [5] i = .ok p ∧
          get_bit V (i * 3 + j)
            = .ok (p ^^^ xor_src [181] [0, 1, 2, 3, 4, 5, 6, 7, 0, 1, 2, 3] ((i * 3 + j) * 1)
                1)) ∧
      (∀ base, xor_src [181] [0, 1, 2, 3, 4, 5, 6, 7, 0, 1, 2, 3] base 0 = 0) ∧
      (∀ base k, base + k < 4 * 3 * 1 →
        ∃ x s, [0, 1, 2, 3, 4, 5, 6, 7, 0, 1, 2, 3][base + k]? = some x ∧
          get_bit [181] x = .ok s ∧
          xor_src [181] [0, 1, 2, 3, 4, 5, 6, 7, 0, 1, 2, 3] base (k + 1)
            = xor_src [181] [0, 1, 2, 3, 4, 5, 6, 7, 0, 1, 2, 3] base k ^^^ s) :=
  lock_cell_formula [181] [0, 1, 2, 3, 4, 5, 6, 7, 0, 1, 2, 3] [5] [0, 0] 4 3 1 8
    (by decide) (by decide) (by decide) (by decide) (by decide) (by decide) (by decide)
    (by decide) (by decide)


theorem getElem?_of_getD {l : List Nat} {i : Nat} (h : i < l.length) :
    l[i]? = some (l.getD i 0) := by
  rw [List.getD_eq_getElem?_getD, List.getElem?_eq_getElem h]
  rfl

theorem cell_index_le (n_xoration : Nat) {i0 j pool_bits n_locks : Nat} (hi0 : i0 < pool_bits)
    (hj : j < n_locks) :
    (i0 * n_locks + j) * n_xoration + n_xoration ≤ pool_bits * n_locks * n_xoration := by
  have := cell_lt hi0 hj
  calc (i0 * n_locks + j) * n_xoration + n_xoration
      = (i0 * n_locks + j + 1) * n_xoration := by ring
    _ ≤ pool_bits * n_locks * n_xoration := Nat.mul_le_mul_right _ (by omega)

/-- C19: majority-vote decode formula. With indices in bounds, buffers of the declared
sizes and sizes whose bit positions and index positions fit the type `int`
(`source_bits`, `key_bits` at most `2^31`, `pool_bits * n_locks` and
`pool_bits * n_locks * n_xoration` below `2^31`) `unlock` returns a key in which, for every `i < key_bits` with
`i0 = key_indexes[i]`: lock cell `(i0, j)` decodes to `V[i0 * n_locks + j]` XOR the XOR
over `k < n_xoration` of `S'[I_src[i0 * n_locks * n_xoration + j * n_xoration + k]]`,
key bit `i` is 0 or 1, and it is 1 if and only if the number of `j < n_locks` whose cell
decodes to 1 is strictly greater than `n_locks / 2`. -/
theorem unlock_decode_formula (source source_indexes vault key key_indexes : List Nat)
    (key_bits n_locks n_xoration pool_bits source_bits : Nat)
    (hIlen : pool_bits * n_locks * n_xoration ≤ source_indexes.length)
    (hIlt : ∀ x ∈ source_indexes, x < source_bits)
    (hS : source_bits ≤ 8 * source.length)
    (hV : pool_bits * n_locks ≤ 8 * vault.length)
    (hK : key_bits ≤ 8 * key.length)
    (hKI : key_bits ≤ key_indexes.length)
    (hKIb : ∀ x ∈ key_indexes, x < pool_bits)
    (hSi : source_bits ≤ 2 ^ 31) (hKi : key_bits ≤ 2 ^ 31)
    (hCi : pool_bits * n_locks < 2 ^ 31)
    (hIi : pool_bits * n_locks * n_xoration < 2 ^ 31) :
    ∃ K, unlock source source_indexes vault key key_indexes key_bits n_locks n_xoration
        = .ok K ∧
      ∀ i, i < key_bits → ∃ i0, key_indexes[i]? = some i0 ∧
        (∀ j, j < n_locks → ∃ v, get_bit vault (i0 * n_locks + j) = .ok v ∧
          unlock_cell source source_indexes vault n_locks n_xoration i0 j
            = .ok (v ^^^ xor_src source source_indexes
                (i0 * n_locks * n_xoration + j * n_xoration) n_xoration)) ∧
        (get_bit K i = .ok 0 ∨ get_bit K i = .ok 1) ∧
        (get_bit K i = .ok 1 ↔
          n_locks / 2 < (List.range n_locks).countP (fun j =>
            decide (unlock_cell source source_indexes vault n_locks n_xoration i0 j
              = .ok 1))) := by
  have hin := indexes_inside_of_lt hIlt hS
  have h31 := lt_int_of_lt hIlt hSi
  obtain ⟨K, hunlock, hKlen, hKbits, _⟩ := unlock_ok source source_indexes vault key
    key_indexes key_bits n_locks n_xoration pool_bits hin hIlen hV hKI
    (fun i1 hi1 => getD_lt_of_forall hKIb (by omega)) hK h31 hCi hIi hKi
  refine ⟨K, hunlock, ?_⟩
  intro i hi
  have hi0 : key_indexes.getD i 0 < pool_bits := getD_lt_of_forall hKIb (by omega)
  have hrow : key_indexes.getD i 0 * n_locks + n_locks ≤ pool_bits * n_locks :=
    cell_succ_le hi0
  have hdi : n_locks * n_xoration ≤ pool_bits * n_locks * n_xoration :=
    le_trans (Nat.mul_le_mul_right _ (Nat.le_add_left _ _)) (Nat.mul_le_mul_right _ hrow)
  have hcell : ∀ j, j < n_locks →
      unlock_cell source source_indexes vault n_locks n_xoration (key_indexes.getD i 0) j
        = .ok (cell_value source source_indexes vault n_locks n_xoration
            (key_indexes.getD i 0) j) := by
    intro j hj
    have h1 := cell_index_le n_xoration hi0 hj
    have h2 := cell_lt hi0 hj
    exact unlock_cell_ok source source_indexes vault n_locks n_xoration _ j hin (by omega)
      (by omega) h31 hj (by omega) (by omega) (by omega) (by omega)
  have hcount : vote_count source source_indexes vault n_locks n_xoration
      (key_indexes.getD i 0)
      = (List.range n_locks).countP (fun j =>
          decide (unlock_cell source source_indexes vault n_locks n_xoration
            (key_indexes.getD i 0) j = .ok 1)) := by
    unfold vote_count
    apply List.countP_congr
    intro j hj
    rw [hcell j (List.mem_range.mp hj)]
    have hle := cell_value_le_one source source_indexes vault n_locks n_xoration
      (key_indexes.getD i 0) j
    simp only [decide_eq_true_eq, ne_eq, Except.ok.injEq]
    omega
  refine ⟨key_indexes.getD i 0, getElem?_of_getD (by omega), ?_, ?_, ?_⟩
  · intro j hj
    have h2 := cell_lt hi0 hj
    refine ⟨bit_of vault (key_indexes.getD i 0 * n_locks + j), get_bit_ok (by omega), ?_⟩
    rw [hcell j hj]
    unfold cell_value
    have : (key_indexes.getD i 0 * n_locks + j) * n_xoration
        = key_indexes.getD i 0 * n_locks * n_xoration + j * n_xoration := by ring
    rw [this]
  · rw [get_bit_ok (by omega), hKbits i hi]
    split
    · right
      rfl
    · left
      rfl
  · rw [get_bit_ok (by omega), hKbits i hi, hcount]
    constructor
    · intro h
      by_contra hn
      rw [if_neg hn] at h
      cases h
    · intro h
      rw [if_pos h]

/-- Witness of C19: two key bits decoded from a vault of 4 pool bits with 2 locks each. -/
theorem unlock_decode_formula_witness :
    ∃ K, unlock [181] [0, 1, 2, 3, 4, 5, 6, 7] [114] [255] [1, 0] 2 2 1 = .ok K ∧
      ∀ i, i < 2 → ∃ i0, [1, 0][i]? = some i0 ∧
        (∀ j, j < 2 → ∃ v, get_bit [114] (i0 * 2 + j) = .ok v ∧
          unlock_cell [181] [0, 1, 2, 3, 4, 5, 6, 7] [114] 2 1 i0 j
            = .ok (v ^^^ xor_src [181] [0, 1, 2, 3, 4, 5, 6, 7] (i0 * 2 * 1 + j * 1) 1)) ∧
        (get_bit K i = .ok 0 ∨ get_bit K i = .ok 1) ∧
        (get_bit K i = .ok 1 ↔
          2 / 2 < (List.range 2).countP (fun j =>
            decide (unlock_cell [181] [0, 1, 2, 3, 4, 5, 6, 7] [114] 2 1 i0 j = .ok 1))) :=
  unlock_decode_formula [181] [0, 1, 2, 3, 4, 5, 6, 7] [114] [255] [1, 0] 2 2 1 4 8
    (by decide) (by decide) (by decide) (by decide) (by decide) (by decide) (by decide)
    (by decide) (by decide) (by decide) (by decide)

/-- C20: unanimous votes under zero noise. Let the sizes be such that every bit position
and index position fits the type `int` (`source_bits`, `pool_bits`, `key_bits` at most
`2^31`, `pool_bits * n_locks` and `pool_bits * n_locks * n_xoration` below `2^31`) and
let `V` be the vault that `lock` writes from `(S, I_src, P)`. `unlock` on `V` with the same `S` and `I_src` and key indexes below
`pool_bits` returns a key, and for every pre-key bit `i` with `i0 = key_indexes[i]`:
every one of the `n_locks` lock cells decodes to `P[i0]`, the vote counter is 0 or
`n_locks`, and for `n_locks >= 1` key bit `i` is `P[i0]`. -/
theorem unanimous_votes (source source_indexes pool vault key key_indexes : List Nat)
    (pool_bits n_locks n_xoration source_bits key_bits : Nat)
    (hIlen : source_indexes.length = pool_bits * n_locks * n_xoration)
    (hIlt : ∀ x ∈ source_indexes, x < source_bits)
    (hS : source_bits ≤ 8 * source.length)
    (hP : pool_bits ≤ 8 * pool.length)
    (hV : pool_bits * n_locks ≤ 8 * vault.length)
    (hK : key_bits ≤ 8 * key.length)
    (hKI : key_bits ≤ key_indexes.length)
    (hKIb : ∀ x ∈ key_indexes, x < pool_bits)
    (hSi : source_bits ≤ 2 ^ 31) (hPi : pool_bits ≤ 2 ^ 31) (hKi : key_bits ≤ 2 ^ 31)
    (hCi : pool_bits * n_locks < 2 ^ 31)
    (hIi : pool_bits * n_locks * n_xoration < 2 ^ 31) :
    ∃ V K, lock source source_indexes pool pool_bits n_locks n_xoration vault = .ok V ∧
      unlock source source_indexes V key key_indexes key_bits n_locks n_xoration = .ok K ∧
      ∀ i, i < key_bits → ∃ i0 p, key_indexes[i]? = some i0 ∧ get_bit pool i0 = .ok p ∧
        (∀ j, j < n_locks →
          unlock_cell source source_indexes V n_locks n_xoration i0 j = .ok p) ∧
        (unlock_votes source source_indexes V n_locks n_xoration i0 = .ok 0 ∨
          unlock_votes source source_indexes V n_locks n_xoration i0 = .ok n_locks) ∧
        (1 ≤ n_locks → get_bit K i = .ok p) := by
  have hin := indexes_inside_of_lt hIlt hS
  have h31 := lt_int_of_lt hIlt hSi
  obtain ⟨V, hlock, hVlen, hVbits, _⟩ := lock_ok source source_indexes pool pool_bits n_locks
    n_xoration vault hin (by omega) hP hV h31 hPi hCi (by omega)
  obtain ⟨K, hunlock, hKlen, hKbits, _⟩ := unlock_ok source source_indexes V key
    key_indexes key_bits n_locks n_xoration pool_bits hin (by omega) (by omega) hKI
    (fun i1 hi1 => getD_lt_of_forall hKIb (by omega)) hK h31 hCi hIi hKi
  refine ⟨V, K, hlock, hunlock, ?_⟩
  intro i hi
  have hi0 : key_indexes.getD i 0 < pool_bits := getD_lt_of_forall hKIb (by omega)
  have hcv : ∀ j, j < n_locks →
      cell_value source source_indexes V n_locks n_xoration (key_indexes.getD i 0) j
        = bit_of pool (key_indexes.getD i 0) := by
    intro j hj
    unfold cell_value
    rw [hVbits _ j hi0 hj, xor_xor_cancel]
  have hvc := vote_count_const source source_indexes V n_locks n_xoration
    (key_indexes.getD i 0) (bit_of pool (key_indexes.getD i 0)) hcv
  have hrow : key_indexes.getD i 0 * n_locks + n_locks ≤ pool_bits * n_locks :=
    cell_succ_le hi0
  have hrowx : (key_indexes.getD i 0 * n_locks + n_locks) * n_xoration
      ≤ pool_bits * n_locks * n_xoration := Nat.mul_le_mul_right _ hrow
  have hdi : n_locks * n_xoration ≤ pool_bits * n_locks * n_xoration :=
    le_trans (Nat.mul_le_mul_right _ (Nat.le_add_left _ _)) hrowx
  have hvotes := unlock_votes_ok source source_indexes V n_locks n_xoration
    (key_indexes.getD i 0) hin
    (le_trans hrowx (by omega)) (by omega) h31 (by omega) (by omega)
  have hp := bit_of_le_one pool (key_indexes.getD i 0)
  refine ⟨key_indexes.getD i 0, bit_of pool (key_indexes.getD i 0),
    getElem?_of_getD (by omega), get_bit_ok (by omega), ?_, ?_, ?_⟩
  · intro j hj
    have h1 := cell_index_le n_xoration hi0 hj
    have h2 := cell_lt hi0 hj
    rw [unlock_cell_ok source source_indexes V n_locks n_xoration _ j hin (by omega)
      (by omega) h31 hj (by omega) (by omega) (by omega) (by omega), hcv j hj]
  · rw [hvotes, hvc]
    by_cases h0 : bit_of pool (key_indexes.getD i 0) = 0
    · left
      rw [if_neg (by simpa using h0)]
    · right
      rw [if_pos h0]
  · intro hL
    rw [get_bit_ok (by omega), hKbits i hi, hvc]
    by_cases h0 : bit_of pool (key_indexes.getD i 0) = 0
    · rw [h0]
      simp
    · have h1 : bit_of pool (key_indexes.getD i 0) = 1 := by omega
      rw [h1]
      have : n_locks / 2 < n_locks := by omega
      simp [this]

/-- Witness of C20: key indexes 2 and 0 into a pool of 4 bits with 3 locks per bit. -/
theorem unanimous_votes_witness :
    ∃ V K, lock [181] [0, 1, 2, 3, 4, 5, 6, 7, 0, 1, 2, 3] [5] 4 3 1 [0, 0] = .ok V ∧
      unlock [181] [0, 1, 2, 3, 4, 5, 6, 7, 0, 1, 2, 3] V [255] [2, 0] 2 3 1 = .ok K ∧
      ∀ i, i < 2 → ∃ i0 p, [2, 0][i]? = some i0 ∧ get_bit [5] i0 = .ok p ∧
        (∀ j, j < 3 →
          unlock_cell [181] [0, 1, 2, 3, 4, 5, 6, 7, 0, 1, 2, 3] V 3 1 i0 j = .ok p) ∧
        (unlock_votes [181] [0, 1, 2, 3, 4, 5, 6, 7, 0, 1, 2, 3] V 3 1 i0 = .ok 0 ∨
          unlock_votes [181] [0, 1, 2, 3, 4, 5, 6, 7, 0, 1, 2, 3] V 3 1 i0 = .ok 3) ∧
        (1 ≤ 3 → get_bit K i = .ok p) :=
  unanimous_votes [181] [0, 1, 2, 3, 4, 5, 6, 7, 0, 1, 2, 3] [5] [0, 0] [255] [2, 0] 4 3 1 8 2
    (by decide) (by decide) (by decide) (by decide) (by decide) (by decide) (by decide)
    (by decide) (by decide) (by decide) (by decide) (by decide) (by decide)


/-- C13: a failing call. With `lowerbound = 1`, `upperbound = 4`, `size = 1` and a raw
value 3 from `rand()`, the index is `(3 + 1) % 4 = 0`, below `lowerbound`: `prng_rand`,
`prng_rand_with_replacement` and `prng_rand_without_replacement` all write the number 0,
which is not in `[1, 4)`. -/
theorem prng_rand_below_lowerbound :
    prng_rand true 5 (fun _ _ => 3) (some 42) 1 (some [7]) 1 4 1
      = .ok ⟨0, some 42, some [0]⟩ ∧
    prng_rand_with_replacement false 5 (fun _ _ => 3) (some 42) 1 (some [7]) 1 4
      = .ok ⟨0, some 42, some [0]⟩ ∧
    prng_rand_without_replacement true 5 (fun _ _ => 3) (some 42) 1 (some [7]) 1 4
      = .ok ⟨0, some 42, some [0]⟩ ∧
    ¬ (1 ≤ 0 ∧ 0 < 4) := by
  refine ⟨by rfl, by rfl, by rfl, by decide⟩

/-- C14, as stated, fails: on the same inputs but for the published token, `rep` returns
0 when the recomputed token (32 bytes 26) equals the published one and the key is kept,
and returns 0 again when the published token is 32 bytes 27 and the key is zeroed. -/
theorem rep_returns_zero_on_both_paths :
    rep false 1 2 test_rand test_HMAC junk_zeros [181] (some 8) 8 [114]
        (List.replicate 32 0) (some 16) 256 4 3 (List.replicate 32 26) 32 8 1 1
      = .ok ⟨0, some 8, some 16, [7], List.replicate 32 10, List.replicate 32 26⟩ ∧
    rep false 1 2 test_rand test_HMAC junk_zeros [181] (some 8) 8 [114]
        (List.replicate 32 0) (some 16) 256 4 3 (List.replicate 32 27) 32 8 1 1
      = .ok ⟨0, some 8, some 16, [7], List.replicate 32 0, List.replicate 32 26⟩ ∧
    strncmp (List.replicate 32 26) (List.replicate 32 26) 32 = .ok 0 ∧
    strncmp (List.replicate 32 26) (List.replicate 32 27) 32 = .ok (-1) := by
  refine ⟨by rfl, by rfl, by rfl, by rfl⟩

/-- C14, amended: whenever `rep` reaches the comparison of the tokens it returns, and it
returns the value 0 whether the comparison fails or succeeds; on a failed comparison the
`bits_to_bytes(key_bits)` first bytes of the key buffer are 0, which is the only signal
of the failure, and on a successful one the key buffer holds the recomputed key. -/
theorem rep_return_value (debug : Bool) (now_src now_key : Nat)
    (rand : Nat → Nat → Nat) (HMAC : Nat → List Nat → List Nat) (junk : Junk)
    (read : List Nat) (source_seed : Option Nat) (source_bits : Nat) (vault key : List Nat)
    (key_seed : Option Nat) (key_bits key_pre_bits nonce : Nat) (token : List Nat)
    (token_bytes pool_bits n_locks n_xoration : Nat) (st : RepState) (c : Int)
    (hst : rep_recompute debug now_src now_key rand HMAC junk read source_seed source_bits
      vault key key_seed key_bits key_pre_bits nonce token_bytes pool_bits n_locks
      n_xoration = .ok st)
    (hcmp : strncmp st.T token token_bytes = .ok c) :
    ∃ r, rep debug now_src now_key rand HMAC junk read source_seed source_bits vault key
        key_seed key_bits key_pre_bits nonce token token_bytes pool_bits n_locks n_xoration
        = .ok r ∧
      r.ret = 0 ∧
      (c ≠ 0 → ∀ i, i < bits_to_bytes key_bits → r.key[i]? = some 0) ∧
      (c = 0 → r.key = st.key) := by
  obtain ⟨hlen, _⟩ := rep_recompute_key_length hst
  obtain ⟨key1, hk, _, hz, _⟩ := zero_loop_ok st.key (bits_to_bytes key_bits) hlen
  by_cases hc : c = 0
  · refine ⟨⟨0, st.source_seed, st.key_seed, st.key_pre, st.key, st.T⟩, ?_, rfl,
      fun h => absurd hc h, fun _ => rfl⟩
    unfold rep
    rw [hst]
    show rep_check st key_bits token token_bytes = _
    unfold rep_check
    rw [hcmp]
    show (if c ≠ 0 then _ else _) = _
    rw [if_neg (by simpa using hc)]
    rfl
  · refine ⟨⟨0, st.source_seed, st.key_seed, st.key_pre, key1, st.T⟩, ?_, rfl,
      fun _ => hz, fun h => absurd h hc⟩
    unfold rep
    rw [hst]
    show rep_check st key_bits token token_bytes = _
    unfold rep_check
    rw [hcmp]
    show (if c ≠ 0 then _ else _) = _
    rw [if_pos hc, hk]
    rfl

/-- Witness of C14: the run of `rep` whose comparison fails with `strncmp` returning -1. -/
theorem rep_return_value_witness :
    ∃ r, rep false 1 2 test_rand test_HMAC junk_zeros [181] (some 8) 8 [114]
        (List.replicate 32 0) (some 16) 256 4 3 (List.replicate 32 27) 32 8 1 1 = .ok r ∧
      r.ret = 0 ∧
      ((-1 : Int) ≠ 0 → ∀ i, i < bits_to_bytes 256 → r.key[i]? = some 0) ∧
      ((-1 : Int) = 0 → r.key = List.replicate 32 10) :=
  rep_return_value false 1 2 test_rand test_HMAC junk_zeros [181] (some 8) 8 [114]
    (List.replicate 32 0) (some 16) 256 4 3 (List.replicate 32 27) 32 8 1 1
    ⟨some 8, some 16, [7], List.replicate 32 10, List.replicate 32 26⟩ (-1)
    (by rfl) (by rfl)



/-- A call of `prng_rand` that passes the parameter checks and returns has run the loop:
it returns 0, the seed slot is as `seed_left` says and the output array is the one the
loop leaves. -/
theorem prng_rand_eq_ok (debug : Bool) (now : Nat) (rand : Nat → Nat → Nat)
    (seed : Option Nat) (size : Nat) (out : List Nat) (low high replacement : Nat)
    (r : RandResult)
    (hsize : 1 ≤ size) (hrange : low < high) (hfeas : replacement = 0 → size ≤ high - low)
    (h : prng_rand debug now rand seed size (some out) low high replacement = .ok r) :
    ∃ arr1 out1, forLoop size
        (prng_rand_step (rand (seed_used now seed % 2 ^ 32)) low high replacement)
        (List.replicate (scratch_len low high) 0, out) = .ok (arr1, out1) ∧
      r = ⟨0, seed_left now seed, some out1⟩ ∧ size < 2 ^ 32 := by
  have c1 : ¬ (debug = true ∧ size < 1) := by omega
  have c2 : ¬ (debug = true ∧ high ≤ low) := by omega
  have c3 : ¬ (debug = true ∧ replacement = 0 ∧ high - low < size) := by
    rintro ⟨_, hr, hlt⟩
    have := hfeas hr
    omega
  have c4 : ¬ (debug = true ∧ some out = none) := by simp
  unfold prng_rand at h
  rw [if_neg c1, if_neg c2, if_neg c3, if_neg c4] at h
  simp only at h
  split at h
  · cases h
  · rename_i c5
    obtain ⟨⟨arr1, out1⟩, hst, h⟩ := bind_eq_ok h
    refine ⟨arr1, out1, hst, ?_, by omega⟩
    simp only [pure, Except.pure, Except.ok.injEq, Option.map_some'] at h
    exact h.symm

theorem strncmp_from_total (s1 s2 : List Nat) :
    ∀ n i, i + n ≤ s1.length → i + n ≤ s2.length →
      ∃ c, strncmp_from s1 s2 i n = .ok c := by
  intro n
  induction n with
  | zero =>
    intro i _ _
    exact ⟨0, rfl⟩
  | succ m ih =>
    intro i h1 h2
    obtain ⟨c, hc⟩ := ih (i + 1) (by omega) (by omega)
    unfold strncmp_from
    simp only [load_ok (show i < s1.length by omega), load_ok (show i < s2.length by omega),
      bind, Except.bind, pure, Except.pure]
    split
    · exact ⟨_, rfl⟩
    · split
      · exact ⟨_, rfl⟩
      · exact ⟨c, hc⟩

/-- The end of `rep` returns when the comparison and the zeroing stay inside their
buffers; it returns 0 and leaves the seeds, the pre-key and `T` as they were. -/
theorem rep_check_ok (st : RepState) (key_bits : Nat) (token : List Nat) (token_bytes : Nat)
    (hT : token_bytes ≤ st.T.length) (htok : token_bytes ≤ token.length)
    (hk : bits_to_bytes key_bits ≤ st.key.length) :
    ∃ r, rep_check st key_bits token token_bytes = .ok r ∧ r.ret = 0 ∧
      r.source_seed = st.source_seed ∧ r.key_seed = st.key_seed ∧
      r.key_pre = st.key_pre ∧ r.T = st.T := by
  obtain ⟨c, hc⟩ := strncmp_from_total st.T token token_bytes 0 (by omega) (by omega)
  obtain ⟨key1, hk1, _⟩ := zero_loop_ok st.key (bits_to_bytes key_bits) hk
  unfold rep_check strncmp
  rw [hc]
  by_cases h0 : c = 0
  · refine ⟨⟨0, st.source_seed, st.key_seed, st.key_pre, st.key, st.T⟩, ?_, rfl, rfl, rfl,
      rfl, rfl⟩
    show (if c ≠ 0 then _ else _) = _
    rw [if_neg (by simpa using h0)]
    rfl
  · refine ⟨⟨0, st.source_seed, st.key_seed, st.key_pre, key1, st.T⟩, ?_, rfl, rfl, rfl,
      rfl, rfl⟩
    show (if c ≠ 0 then _ else _) = _
    rw [if_pos h0, hk1]
    rfl

/-- C21: a failing call. With `lowerbound = 0`, `upperbound = 4`, `size = 3` and the raw
values 2, 3, 2 from `rand()`, the first two indices are 2 and 3 and the scratch array is
then `[8, 0, 0, 0, 0]`: `char_set_bit(arr, 3)` has erased the mark of index 2. The third
scan starts at 2, finds bit 2 unmarked and emits 2 again, where the first value of the
cyclic sequence 2, 3, 0, 1 that is not among the indices emitted before is 0. -/
theorem prng_rand_probe_reuses_index :
    forLoop 2 (prng_rand_step (fun k => [2, 3, 2].getD k 0) 0 4 0)
        (List.replicate (scratch_len 0 4) 0, [0, 0, 0])
      = .ok ([8, 0, 0, 0, 0], [2, 3, 0]) ∧
    char_check_bit [8, 0, 0, 0, 0] 2 = .ok 0 ∧
    char_check_bit [8, 0, 0, 0, 0] 3 = .ok 1 ∧
    probe [8, 0, 0, 0, 0] 4 4 2 = .ok 2 ∧
    prng_rand true 5 (fun _ k => [2, 3, 2].getD k 0) (some 42) 3 (some [0, 0, 0]) 0 4 0
      = .ok ⟨0, some 42, some [2, 3, 2]⟩ ∧
    prng_rand_without_replacement false 5 (fun _ k => [2, 3, 2].getD k 0) (some 42) 3
        (some [0, 0, 0]) 0 4
      = .ok ⟨0, some 42, some [2, 3, 2]⟩ := by
  refine ⟨by rfl, by rfl, by rfl, by rfl, by rfl, by rfl⟩

/-- C22: a failing call. `set_bit(6, 3)` is `(6 & 1) | (1 << 3) = 8`, where 6 with bit 3
set to 1 is 14: the bits 1 and 2 of 6 are lost. `char_set_bit` on the array `[6]` with
bit 3 leaves `[8]`, in which the bits 1 and 2, set before, are 0. -/
theorem set_bit_drops_other_bits :
    set_bit 6 3 = 8 ∧ 6 ||| (1 <<< 3) = 14 ∧
    char_set_bit [6] 3 = .ok [8] ∧
    char_check_bit [6] 1 = .ok 1 ∧ char_check_bit [8] 1 = .ok 0 ∧
    char_check_bit [6] 2 = .ok 1 ∧ char_check_bit [8] 2 = .ok 0 ∧
    char_check_bit [8] 3 = .ok 1 := by
  refine ⟨by rfl, by rfl, by rfl, by rfl, by rfl, by rfl, by rfl, by rfl⟩

/-- C23: a failing call. With replacement and `size = 2 ^ 32`, the `unsigned int` counter
`i` of `while (i < size)` is below the `size_t` value `size` at every iteration and wraps
to 0 after `2 ^ 32 - 1`: the call never returns, whatever the output array, the seed and
the build flag. -/
theorem prng_rand_counter_never_reaches_size :
    ∀ (debug : Bool) (now : Nat) (rand : Nat → Nat → Nat) (seed : Option Nat)
      (out : List Nat),
      prng_rand debug now rand seed (2 ^ 32) (some out) 0 10 1 = .error .loops ∧
      prng_rand_with_replacement debug now rand seed (2 ^ 32) (some out) 0 10
        = .error .loops := by
  intro debug now rand seed out
  constructor <;> simp [prng_rand_with_replacement, prng_rand]

/-- C24: a failing call. With `lowerbound = 60`, `upperbound = 64` and `size = 2` the
parameter checks pass (`64 - 60 >= 2`) and the scratch array has `64 - 60 + 1 = 5` bytes.
The raw value 0 gives the index `(0 + 60) % 64 = 60`, whose mark is in byte `60 / 8 = 7`:
the first `char_check_bit(arr, 60)` reads outside the 5 bytes of `arr`. -/
theorem prng_rand_scratch_too_small :
    scratch_len 60 64 = 5 ∧ ¬ (60 / 8 < scratch_len 60 64) ∧
    char_check_bit (List.replicate (scratch_len 60 64) 0) 60 = .error .oob ∧
    prng_rand true 5 (fun _ _ => 0) (some 42) 2 (some [7, 7]) 60 64 0 = .error .oob ∧
    prng_rand_without_replacement false 5 (fun _ _ => 0) (some 42) 2 (some [7, 7]) 60 64
      = .error .oob := by
  refine ⟨by rfl, by decide, by rfl, by rfl, by rfl⟩



/-- C25: frame of lock. With the indices in bounds, buffers of the declared sizes and
sizes whose bit positions fit the type `int` and whose index positions fit `unsigned`
(`source_bits`, `pool_bits` at most `2^31`, `pool_bits * n_locks < 2^31`,
`pool_bits * n_locks * n_xoration < 2^32`), `lock` returns a vault of the length of the one it was given, in which every bit at a
linear position `>= pool_bits * n_locks` inside the buffer is what it was; this covers
the high bits of the last byte when `pool_bits * n_locks` is not a multiple of 8. The
source, the pool and the index sequence are read-only arguments of `lock`: its only
store is the one of `set_bit_v` into the vault. -/
theorem lock_frame (source source_indexes pool vault : List Nat)
    (pool_bits n_locks n_xoration source_bits : Nat)
    (hIlen : pool_bits * n_locks * n_xoration ≤ source_indexes.length)
    (hIlt : ∀ x ∈ source_indexes, x < source_bits)
    (hS : source_bits ≤ 8 * source.length)
    (hP : pool_bits ≤ 8 * pool.length)
    (hV : pool_bits * n_locks ≤ 8 * vault.length)
    (hSi : source_bits ≤ 2 ^ 31) (hPi : pool_bits ≤ 2 ^ 31)
    (hCi : pool_bits * n_locks < 2 ^ 31)
    (hIi : pool_bits * n_locks * n_xoration < 2 ^ 32) :
    ∃ V, lock source source_indexes pool pool_bits n_locks n_xoration vault = .ok V ∧
      V.length = vault.length ∧
      (∀ pos, pool_bits * n_locks ≤ pos → pos / 8 < vault.length →
        get_bit V pos = get_bit vault pos) ∧
      (pool_bits * n_locks % 8 ≠ 0 →
        ∀ m, pool_bits * n_locks % 8 ≤ m → m < 8 →
          get_bit V (8 * (pool_bits * n_locks / 8) + m)
            = get_bit vault (8 * (pool_bits * n_locks / 8) + m)) := by
  obtain ⟨V, hlock, hlen, _, hframe⟩ := lock_ok source source_indexes pool pool_bits n_locks
    n_xoration vault (indexes_inside_of_lt hIlt hS) hIlen hP hV (lt_int_of_lt hIlt hSi) hPi
    hCi hIi
  refine ⟨V, hlock, hlen, ?_, ?_⟩
  · intro pos hpos hin
    rw [get_bit_ok (by omega), get_bit_ok hin, hframe pos hpos]
  · intro hrem m hm hm8
    have hin : (8 * (pool_bits * n_locks / 8) + m) / 8 < vault.length := by omega
    rw [get_bit_ok (by omega), get_bit_ok hin, hframe _ (by omega)]

/-- Witness of C25: a pool of 4 bits with 3 locks per bit writes 12 bits of a vault of
two bytes; the bits 12 to 15 of the vault stay as they were. -/
theorem lock_frame_witness :
    ∃ V, lock [181] [0, 1, 2, 3, 4, 5, 6, 7, 0, 1, 2, 3] [5] 4 3 1 [255, 255] = .ok V ∧
      V.length = [255, 255].length ∧
      (∀ pos, 4 * 3 ≤ pos → pos / 8 < [255, 255].length →
        get_bit V pos = get_bit [255, 255] pos) ∧
      (4 * 3 % 8 ≠ 0 →
        ∀ m, 4 * 3 % 8 ≤ m → m < 8 →
          get_bit V (8 * (4 * 3 / 8) + m) = get_bit [255, 255] (8 * (4 * 3 / 8) + m)) :=
  lock_frame [181] [0, 1, 2, 3, 4, 5, 6, 7, 0, 1, 2, 3] [5] [255, 255] 4 3 1 8
    (by decide) (by decide) (by decide) (by decide) (by decide) (by decide) (by decide)
    (by decide) (by decide)



theorem local_bytes_const (c n : Nat) :
    local_bytes (fun _ => c) n = List.replicate n (c % 256) := by
  unfold local_bytes
  apply List.ext_getElem
  · simp
  · intro i h1 h2
    simp

theorem bit_of_replicate_ones (n pos : Nat) (h : pos / 8 < n) :
    bit_of (List.replicate n 255) pos = 1 := by
  unfold bit_of
  rw [List.getD_eq_getElem?_getD, List.getElem?_eq_getElem (by simpa using h)]
  simp only [List.getElem_replicate, Option.getD_some]
  have hm : pos % 8 < 8 := Nat.mod_lt _ (by decide)
  generalize pos % 8 = m at hm
  interval_cases m <;> rfl

/-- The pre-key that `gen` and `rep` give to HMAC: the index sets do not depend on the
first contents of the local arrays, the bits below `key_pre_bits` are the votes, and the
bits from `key_pre_bits` on are those the local array `key_pre` held at entry. -/
theorem key_pre_ok (debug : Bool) (now_src now_key : Nat) (rand : Nat → Nat → Nat)
    (read : List Nat) (source_seed key_seed : Option Nat)
    (source_bits : Nat) (vault : List Nat) (key_pre_bits pool_bits n_locks n_xoration : Nat)
    (hxor : 1 ≤ n_xoration) (hlocks : 1 ≤ n_locks) (hkp : 1 ≤ key_pre_bits)
    (hsrc : pool_bits * n_locks * n_xoration ≤ source_bits)
    (hpool : key_pre_bits ≤ pool_bits)
    (h31 : source_bits < 2 ^ 31)
    (hread : source_bits ≤ 8 * read.length)
    (hvault : pool_bits * n_locks ≤ 8 * vault.length) :
    ∃ I KI, ∀ junk : Junk,
        prng_rand_without_replacement debug now_src rand source_seed
            (pool_bits * n_locks * n_xoration % 2 ^ 32)
            (some (local_words junk.source_indexes
              (pool_bits * n_locks * n_xoration % 2 ^ 32)))
            0 source_bits = .ok ⟨0, seed_left now_src source_seed, some I⟩ ∧
        prng_rand_without_replacement debug now_key rand key_seed key_pre_bits
            (some (local_words junk.key_indexes key_pre_bits)) 0 pool_bits
            = .ok ⟨0, seed_left now_key key_seed, some KI⟩ ∧
        ∃ kp, unlock read I vault (local_bytes junk.key_pre (bits_to_bytes key_pre_bits)) KI
            key_pre_bits n_locks n_xoration = .ok kp ∧
          kp.length = bits_to_bytes key_pre_bits ∧ (∀ x ∈ kp, x < 256) ∧
          (∀ i, i < key_pre_bits → bit_of kp i
            = if vote_count read I vault n_locks n_xoration (KI.getD i 0) > n_locks / 2
              then 1 else 0) ∧
          (∀ pos, key_pre_bits ≤ pos → bit_of kp pos
            = bit_of (local_bytes junk.key_pre (bits_to_bytes key_pre_bits)) pos) := by
  obtain ⟨I, KI, hIlen, hImem, hKIlen, hKImem, hall⟩ := derive_ok debug now_src now_key rand
    read source_seed key_seed source_bits vault key_pre_bits pool_bits n_locks n_xoration
    hxor hlocks hkp hsrc hpool h31 hread hvault
  refine ⟨I, KI, ?_⟩
  intro junk
  obtain ⟨hI, hKI, kp, hu, hkplen, hkplt, hkpbits⟩ := hall junk
  obtain ⟨K, hK, _, _, hframe⟩ := unlock_ok read I vault
    (local_bytes junk.key_pre (bits_to_bytes key_pre_bits)) KI key_pre_bits n_locks
    n_xoration pool_bits (indexes_inside_of_lt hImem hread) (by omega) hvault (by omega)
    (fun i hi => getD_lt_of_forall hKImem (by omega))
    (by rw [local_bytes_length]; exact le_bits_to_bytes _)
    (lt_int_of_lt hImem (by omega))
    (by
      have : pool_bits * n_locks ≤ pool_bits * n_locks * n_xoration :=
        Nat.le_mul_of_pos_right _ hxor
      omega)
    (by omega)
    (by
      have h1 : pool_bits * n_locks ≤ pool_bits * n_locks * n_xoration :=
        Nat.le_mul_of_pos_right _ hxor
      have h2 : pool_bits ≤ pool_bits * n_locks := Nat.le_mul_of_pos_right _ hlocks
      omega)
  have hKkp : K = kp := by
    rw [hK] at hu
    injection hu
  subst hKkp
  exact ⟨hI, hKI, K, hu, hkplen, hkplt, hkpbits, hframe⟩


/-- With a key seed in its slot and buffers of the declared sizes `gen` and `rep` return,
and the pre-key each of them has given to HMAC is the buffer that `unlock` has left. -/
theorem gen_rep_key_pre (debug : Bool) (now_src now_key now_nonce : Nat)
    (rand : Nat → Nat → Nat) (HMAC : Nat → List Nat → List Nat)
    (read vault key token key2 token2 : List Nat) (source_seed : Option Nat) (k : Nat)
    (source_bits key_bits key_pre_bits token_bytes pool_bits n_locks n_xoration nonce2 : Nat)
    (junk : Junk) (I KI kp : List Nat)
    (hI : prng_rand_without_replacement debug now_src rand source_seed
      (pool_bits * n_locks * n_xoration % 2 ^ 32)
      (some (local_words junk.source_indexes (pool_bits * n_locks * n_xoration % 2 ^ 32)))
      0 source_bits = .ok ⟨0, seed_left now_src source_seed, some I⟩)
    (hKI : prng_rand_without_replacement debug now_key rand (some k) key_pre_bits
      (some (local_words junk.key_indexes key_pre_bits)) 0 pool_bits
      = .ok ⟨0, seed_left now_key (some k), some KI⟩)
    (hu : unlock read I vault (local_bytes junk.key_pre (bits_to_bytes key_pre_bits)) KI
      key_pre_bits n_locks n_xoration = .ok kp)
    (hkplen : kp.length = bits_to_bytes key_pre_bits)
    (hH : ∀ x m, (HMAC x m).length = 32)
    (hkey : 32 ≤ key.length) (hkb : bits_to_bytes key_bits ≤ key.length)
    (htoken : 32 ≤ token.length)
    (hkey2 : 32 ≤ key2.length) (hkb2 : bits_to_bytes key_bits ≤ key2.length)
    (htb : 32 ≤ token_bytes) (htoken2 : token_bytes ≤ token2.length) :
    ∃ g r,
      gen debug now_src now_key now_nonce rand HMAC junk read source_seed source_bits vault
        key (some k) key_bits key_pre_bits token token_bytes pool_bits n_locks n_xoration
        = .ok g ∧
      rep debug now_src now_key rand HMAC junk read source_seed source_bits vault key2
        (some k) key_bits key_pre_bits nonce2 token2 token_bytes pool_bits n_locks
        n_xoration = .ok r ∧
      g.key_pre = kp ∧ r.key_pre = kp := by
  have hg := gen_eq debug now_src now_key now_nonce rand HMAC junk read source_seed
    source_bits vault key k key_bits key_pre_bits token token_bytes pool_bits n_locks
    n_xoration I KI kp hI hKI hu hkplen hH hkey hkb htoken
  have hr := rep_recompute_eq debug now_src now_key rand HMAC junk read source_seed
    source_bits vault key2 k key_bits key_pre_bits nonce2 token_bytes pool_bits n_locks
    n_xoration I KI kp hI hKI hu hkplen hH hkey2 hkb2 htb
  obtain ⟨r, hcheck, _, _, _, hrkp, _⟩ := rep_check_ok
    ⟨seed_left now_src source_seed, seed_left now_key (some k), kp,
      HMAC nonce2 kp ++ key2.drop 32,
      HMAC (seed_used now_key (some k))
        ((HMAC nonce2 kp ++ key2.drop 32).take (bits_to_bytes key_bits))
        ++ (local_bytes junk.T token_bytes).drop 32⟩ key_bits token2 token_bytes
    (by simp [hH, local_bytes_length]; omega) htoken2
    (by simp [hH]; omega)
  refine ⟨_, r, hg, ?_, rfl, hrkp⟩
  unfold rep
  rw [hr]
  exact hcheck

/-- C26: frame of unlock. In bounds and for sizes whose bit positions and index positions
fit the type `int`, `unlock` returns a key buffer of the length of the one it was given in
which every bit at a position `>= key_bits` is what it was before the call; the reading,
the index sequences and the vault are arguments that `unlock` only reads. For `gen`
and `rep` (data-model invariants, `source_bits < 2^31`, a key seed in its slot, buffers of
the declared sizes):
both return, they give the same `bits_to_bytes(key_pre_bits)` bytes of `K_pre` to HMAC,
and the bits of these bytes from `key_pre_bits` on are the bits that the uninitialised
local array held at entry. When `key_pre_bits` is a multiple of 8 the bytes are the same
whatever the local array held; when it is not, there is another first content of the
local array for which `unlock` writes the same `key_pre_bits` bits and the bytes given
to HMAC differ. -/
theorem unlock_frame (debug : Bool) (now_src now_key now_nonce : Nat)
    (rand : Nat → Nat → Nat) (HMAC : Nat → List Nat → List Nat)
    (read vault key token key2 token2 : List Nat) (source_seed : Option Nat) (k : Nat)
    (source_bits key_bits key_pre_bits token_bytes pool_bits n_locks n_xoration nonce2 : Nat)
    (hxor : 1 ≤ n_xoration) (hlocks : 1 ≤ n_locks) (hkp : 1 ≤ key_pre_bits)
    (hsrc : pool_bits * n_locks * n_xoration ≤ source_bits)
    (hpool : key_pre_bits ≤ pool_bits)
    (h31 : source_bits < 2 ^ 31)
    (hread : source_bits ≤ 8 * read.length)
    (hvault : pool_bits * n_locks ≤ 8 * vault.length)
    (hH : ∀ x m, (HMAC x m).length = 32)
    (hkey : 32 ≤ key.length) (hkb : bits_to_bytes key_bits ≤ key.length)
    (htoken : 32 ≤ token.length)
    (hkey2 : 32 ≤ key2.length) (hkb2 : bits_to_bytes key_bits ≤ key2.length)
    (htb : 32 ≤ token_bytes) (htoken2 : token_bytes ≤ token2.length) :
    (∀ (source source_indexes V K0 key_indexes : List Nat) (kb nl nx pb sb : Nat),
      pb * nl * nx ≤ source_indexes.length → (∀ x ∈ source_indexes, x < sb) →
      sb ≤ 8 * source.length → pb * nl ≤ 8 * V.length → kb ≤ 8 * K0.length →
      kb ≤ key_indexes.length → (∀ x ∈ key_indexes, x < pb) →
      sb ≤ 2 ^ 31 → kb ≤ 2 ^ 31 → pb * nl < 2 ^ 31 → pb * nl * nx < 2 ^ 31 →
      ∃ K, unlock source source_indexes V K0 key_indexes kb nl nx = .ok K ∧
        K.length = K0.length ∧
        ∀ pos, kb ≤ pos → pos / 8 < K0.length → get_bit K pos = get_bit K0 pos) ∧
    (∀ junk : Junk, ∃ g r,
      gen debug now_src now_key now_nonce rand HMAC junk read source_seed source_bits vault
        key (some k) key_bits key_pre_bits token token_bytes pool_bits n_locks n_xoration
        = .ok g ∧
      rep debug now_src now_key rand HMAC junk read source_seed source_bits vault key2
        (some k) key_bits key_pre_bits nonce2 token2 token_bytes pool_bits n_locks
        n_xoration = .ok r ∧
      r.key_pre = g.key_pre ∧ g.key_pre.length = bits_to_bytes key_pre_bits ∧
      (∀ pos, key_pre_bits ≤ pos → pos < 8 * bits_to_bytes key_pre_bits →
        get_bit g.key_pre pos
          = get_bit (local_bytes junk.key_pre (bits_to_bytes key_pre_bits)) pos) ∧
      (key_pre_bits % 8 = 0 → ∀ (junk2 : Junk) (g2 : GenResult),
        gen debug now_src now_key now_nonce rand HMAC junk2 read source_seed source_bits
          vault key (some k) key_bits key_pre_bits token token_bytes pool_bits n_locks
          n_xoration = .ok g2 → g2.key_pre = g.key_pre) ∧
      (key_pre_bits % 8 ≠ 0 → ∃ (junk2 : Junk) (g2 : GenResult),
        gen debug now_src now_key now_nonce rand HMAC junk2 read source_seed source_bits
          vault key (some k) key_bits key_pre_bits token token_bytes pool_bits n_locks
          n_xoration = .ok g2 ∧
        (∀ i, i < key_pre_bits → get_bit g2.key_pre i = get_bit g.key_pre i) ∧
        g2.key_pre ≠ g.key_pre)) := by
  constructor
  · intro source source_indexes V K0 key_indexes kb nl nx pb sb hIlen hIlt hS hV hK hKI hKIb
      hSi hKi hCi hIi
    obtain ⟨K, hunlock, hKlen, _, hframe⟩ := unlock_ok source source_indexes V K0
      key_indexes kb nl nx pb (indexes_inside_of_lt hIlt hS) hIlen hV hKI
      (fun i1 hi1 => getD_lt_of_forall hKIb (by omega)) hK (lt_int_of_lt hIlt hSi) hCi hIi
      hKi
    refine ⟨K, hunlock, hKlen, ?_⟩
    intro pos hpos hin
    rw [get_bit_ok (by omega), get_bit_ok hin, hframe pos hpos]
  · obtain ⟨I, KI, hall⟩ := key_pre_ok debug now_src now_key rand read source_seed (some k)
      source_bits vault key_pre_bits pool_bits n_locks n_xoration hxor hlocks hkp hsrc hpool
      h31 hread hvault
    have hrun : ∀ junk : Junk, ∃ g r kp,
        gen debug now_src now_key now_nonce rand HMAC junk read source_seed source_bits
          vault key (some k) key_bits key_pre_bits token token_bytes pool_bits n_locks
          n_xoration = .ok g ∧
        rep debug now_src now_key rand HMAC junk read source_seed source_bits vault key2
          (some k) key_bits key_pre_bits nonce2 token2 token_bytes pool_bits n_locks
          n_xoration = .ok r ∧
        g.key_pre = kp ∧ r.key_pre = kp ∧
        kp.length = bits_to_bytes key_pre_bits ∧ (∀ x ∈ kp, x < 256) ∧
        (∀ i, i < key_pre_bits → bit_of kp i
          = if vote_count read I vault n_locks n_xoration (KI.getD i 0) > n_locks / 2
            then 1 else 0) ∧
        (∀ pos, key_pre_bits ≤ pos → bit_of kp pos
          = bit_of (local_bytes junk.key_pre (bits_to_bytes key_pre_bits)) pos) := by
      intro junk
      obtain ⟨hI, hKI, kp, hu, hkplen, hkplt, hkpbits, hframe⟩ := hall junk
      obtain ⟨g, r, hg, hr, hgk, hrk⟩ := gen_rep_key_pre debug now_src now_key now_nonce rand
        HMAC read vault key token key2 token2 source_seed k source_bits key_bits
        key_pre_bits token_bytes pool_bits n_locks n_xoration nonce2 junk I KI kp hI hKI hu
        hkplen hH hkey hkb htoken hkey2 hkb2 htb htoken2
      exact ⟨g, r, kp, hg, hr, hgk, hrk, hkplen, hkplt, hkpbits, hframe⟩
    intro junk
    obtain ⟨g, r, kp, hg, hr, hgk, hrk, hkplen, hkplt, hkpbits, hframe⟩ := hrun junk
    refine ⟨g, r, hg, hr, by rw [hgk, hrk], by rw [hgk, hkplen], ?_, ?_, ?_⟩
    · intro pos hpos hlt
      rw [hgk, get_bit_ok (by omega), get_bit_ok (by rw [local_bytes_length]; omega),
        hframe pos hpos]
    · intro h8 junk2 g2 hg2
      obtain ⟨g3, _, kp2, hg3, _, hgk3, _, hkplen2, hkplt2, hkpbits2, _⟩ := hrun junk2
      have hgg : g3 = g2 := by
        rw [hg3] at hg2
        injection hg2
      subst hgg
      rw [hgk, hgk3]
      exact bytes_eq_of_bits kp2 kp key_pre_bits h8 hkplen2 hkplen hkplt2 hkplt
        (fun i hi => by rw [hkpbits i hi, hkpbits2 i hi])
    · intro h8
      have hpos : key_pre_bits / 8 < bits_to_bytes key_pre_bits := by
        rw [bits_to_bytes_eq]
        omega
      have hb := bit_of_le_one (local_bytes junk.key_pre (bits_to_bytes key_pre_bits))
        key_pre_bits
      by_cases h0 : bit_of (local_bytes junk.key_pre (bits_to_bytes key_pre_bits))
          key_pre_bits = 0
      · obtain ⟨g2, _, kp2, hg2, _, hgk2, _, _, _, hkpbits2, hframe2⟩ :=
          hrun ⟨fun _ => 255, junk.source_indexes, junk.key_indexes, junk.T⟩
        refine ⟨_, g2, hg2, ?_, ?_⟩
        · intro i hi
          rw [hgk, hgk2, get_bit_ok (by omega), get_bit_ok (by omega), hkpbits i hi,
            hkpbits2 i hi]
        · intro heq
          have h1 := hframe2 key_pre_bits (Nat.le_refl _)
          have h2 := hframe key_pre_bits (Nat.le_refl _)
          rw [local_bytes_const, bit_of_replicate_ones _ _ hpos] at h1
          rw [hgk, hgk2] at heq
          rw [heq, h2, h0] at h1
          exact absurd h1 (by decide)
      · obtain ⟨g2, _, kp2, hg2, _, hgk2, _, _, _, hkpbits2, hframe2⟩ :=
          hrun ⟨fun _ => 0, junk.source_indexes, junk.key_indexes, junk.T⟩
        refine ⟨_, g2, hg2, ?_, ?_⟩
        · intro i hi
          rw [hgk, hgk2, get_bit_ok (by omega), get_bit_ok (by omega), hkpbits i hi,
            hkpbits2 i hi]
        · intro heq
          have h1 := hframe2 key_pre_bits (Nat.le_refl _)
          have h2 := hframe key_pre_bits (Nat.le_refl _)
          rw [local_bytes_const, bit_of_replicate_zero] at h1
          rw [hgk, hgk2] at heq
          rw [heq, h2] at h1
          exact h0 h1


/-- Witness of C26: a pre-key of 4 bits in one byte and a local array that holds zeros at
entry; the bytes given to HMAC depend on what the local array held. -/
theorem unlock_frame_witness :
    ∃ g r,
      gen false 1 2 3 test_rand test_HMAC junk_zeros [181] (some 8) 8 [114]
        (List.replicate 32 0) (some 16) 256 4 (List.replicate 32 0) 32 8 1 1 = .ok g ∧
      rep false 1 2 test_rand test_HMAC junk_zeros [181] (some 8) 8 [114]
        (List.replicate 32 0) (some 16) 256 4 3 (List.replicate 32 26) 32 8 1 1 = .ok r ∧
      r.key_pre = g.key_pre ∧ g.key_pre.length = bits_to_bytes 4 ∧
      (∀ pos, 4 ≤ pos → pos < 8 * bits_to_bytes 4 →
        get_bit g.key_pre pos = get_bit (local_bytes junk_zeros.key_pre (bits_to_bytes 4)) pos) ∧
      (4 % 8 = 0 → ∀ (junk2 : Junk) (g2 : GenResult),
        gen false 1 2 3 test_rand test_HMAC junk2 [181] (some 8) 8 [114]
          (List.replicate 32 0) (some 16) 256 4 (List.replicate 32 0) 32 8 1 1 = .ok g2 →
        g2.key_pre = g.key_pre) ∧
      (4 % 8 ≠ 0 → ∃ (junk2 : Junk) (g2 : GenResult),
        gen false 1 2 3 test_rand test_HMAC junk2 [181] (some 8) 8 [114]
          (List.replicate 32 0) (some 16) 256 4 (List.replicate 32 0) 32 8 1 1 = .ok g2 ∧
        (∀ i, i < 4 → get_bit g2.key_pre i = get_bit g.key_pre i) ∧
        g2.key_pre ≠ g.key_pre) :=
  (unlock_frame false 1 2 3 test_rand test_HMAC [181] [114] (List.replicate 32 0)
    (List.replicate 32 0) (List.replicate 32 0) (List.replicate 32 26) (some 8) 16 8 256 4
    32 8 1 1 3
    (by decide) (by decide) (by decide) (by decide) (by decide) (by decide) (by decide)
    (by decide) (fun _ _ => by simp [test_HMAC]) (by decide) (by decide) (by decide)
    (by decide) (by decide) (by decide) (by decide)).2 junk_zeros

/-- The scan of `prng_rand` stays below `upperbound`: the slot it returns is the one it
started from or a value of `(index + 1) % upperbound`. -/
theorem probe_lt (arr : List Nat) (high : Nat) (hhigh : 0 < high) :
    ∀ fuel s r, s < high → probe arr high fuel s = .ok r → r < high := by
  intro fuel
  induction fuel with
  | zero =>
    intro s r _ h
    cases h
  | succ m ih =>
    intro s r hs h
    unfold probe at h
    obtain ⟨c, _, h⟩ := bind_eq_ok h
    split at h
    · exact ih _ r (Nat.mod_lt _ hhigh) h
    · cases h
      exact hs

/-- One iteration of the loop of `prng_rand` that returns has stored an index below
`upperbound` at position `i` of the output array and has left the other entries. -/
theorem prng_rand_step_range (stream : Nat → Nat) (low high replacement i : Nat)
    (arr o a1 o1 : List Nat)
    (h : prng_rand_step stream low high replacement i (arr, o) = .ok (a1, o1)) :
    ∃ idx, idx < high ∧ i < o.length ∧ o1 = o.set i idx := by
  unfold prng_rand_step at h
  split at h
  · cases h
  · rename_i hne
    have hhigh : 0 < high := Nat.pos_of_ne_zero hne
    split at h
    · obtain ⟨idx, hp, h⟩ := bind_eq_ok h
      obtain ⟨arr1, _, h⟩ := bind_eq_ok h
      obtain ⟨out1, hst, h⟩ := bind_eq_ok h
      obtain ⟨hi, hout⟩ := store_eq_ok hst
      cases h
      exact ⟨idx, probe_lt arr high hhigh high _ idx (Nat.mod_lt _ hhigh) hp, hi, hout⟩
    · obtain ⟨out1, hst, h⟩ := bind_eq_ok h
      obtain ⟨hi, hout⟩ := store_eq_ok hst
      cases h
      exact ⟨_, Nat.mod_lt _ hhigh, hi, hout⟩

/-- After `n` iterations of the loop of `prng_rand` that have returned, the first `n`
entries of the output array are below `upperbound`. -/
theorem prng_rand_loop_range (stream : Nat → Nat) (low high replacement : Nat)
    (arr0 o : List Nat) :
    ∀ n a o1, forLoop n (prng_rand_step stream low high replacement) (arr0, o) = .ok (a, o1) →
      o1.length = o.length ∧ n ≤ o.length ∧ ∀ i, i < n → ∃ x, o1[i]? = some x ∧ x < high := by
  intro n
  induction n with
  | zero =>
    intro a o1 h
    cases h
    exact ⟨rfl, Nat.zero_le _, fun i hi => by omega⟩
  | succ m ih =>
    intro a o1 h
    rw [forLoop_succ] at h
    obtain ⟨⟨am, om⟩, hm, hstep⟩ := bind_eq_ok h
    obtain ⟨hlen, hle, hall⟩ := ih am om hm
    obtain ⟨idx, hidx, hi, ho1⟩ := prng_rand_step_range stream low high replacement m am om a
      o1 hstep
    subst ho1
    refine ⟨by simp [hlen], by omega, ?_⟩
    intro i hi2
    by_cases him : m = i
    · subst him
      exact ⟨idx, by simp [List.getElem?_set, hi], hidx⟩
    · obtain ⟨x, hx, hxlt⟩ := hall i (by omega)
      exact ⟨x, by simp only [List.getElem?_set, him, if_false]; exact hx, hxlt⟩

/-- C4: index range. For `size >= 1` and `upperbound > lowerbound` (without replacement
also `upperbound - lowerbound >= size`): after any number `n` of iterations of the loop
of `prng_rand` the `n` indices written so far are in `[0, upperbound)`; when the call
returns it returns 0 and every one of the `size` indices it has written is in
`[0, upperbound)`; and the call returns when its array accesses stay in bounds and
`size` fits the `unsigned` counter. -/
theorem prng_rand_index_range (debug : Bool) (now : Nat) (rand : Nat → Nat → Nat)
    (seed : Option Nat) (size : Nat) (out : List Nat) (low high replacement : Nat)
    (hsize : 1 ≤ size) (hrange : low < high)
    (hfeas : replacement = 0 → size ≤ high - low) :
    (∀ n arr1 out1,
      forLoop n (prng_rand_step (rand (seed_used now seed % 2 ^ 32)) low high replacement)
        (List.replicate (scratch_len low high) 0, out) = .ok (arr1, out1) →
      ∀ i, i < n → ∃ x, out1[i]? = some x ∧ 0 ≤ x ∧ x < high) ∧
    (∀ r, prng_rand debug now rand seed size (some out) low high replacement = .ok r →
      r.ret = 0 ∧ ∃ out1, r.indexes = some out1 ∧
        ∀ i, i < size → ∃ x, out1[i]? = some x ∧ 0 ≤ x ∧ x < high) ∧
    (size ≤ out.length → high < 2 ^ 32 → (replacement ≠ 0 → size < 2 ^ 32) →
      (replacement = 0 → high ≤ 8 * scratch_len low high) →
      ∃ r, prng_rand debug now rand seed size (some out) low high replacement = .ok r) := by
  refine ⟨?_, ?_, ?_⟩
  · intro n arr1 out1 h i hi
    obtain ⟨_, _, hall⟩ := prng_rand_loop_range _ low high replacement _ out n arr1 out1 h
    obtain ⟨x, hx, hlt⟩ := hall i hi
    exact ⟨x, hx, Nat.zero_le _, hlt⟩
  · intro r h
    obtain ⟨arr1, out1, hloop, hr, _⟩ := prng_rand_eq_ok debug now rand seed size out low high
      replacement r hsize hrange hfeas h
    obtain ⟨_, _, hall⟩ := prng_rand_loop_range _ low high replacement _ out size arr1 out1
      hloop
    rw [hr]
    refine ⟨rfl, out1, rfl, ?_⟩
    intro i hi
    obtain ⟨x, hx, hlt⟩ := hall i hi
    exact ⟨x, hx, Nat.zero_le _, hlt⟩
  · intro hout h32 hsz hscratch
    obtain ⟨out1, h, _⟩ := prng_rand_ok debug now rand seed size out low high replacement
      hsize hrange h32 hout hsz hfeas hscratch
    exact ⟨_, h⟩

/-- Witness of C4: ten indices in `[0, 10)` without replacement. -/
theorem prng_rand_index_range_witness :
    ∃ r, prng_rand false 5 (fun _ k => [1, 2, 1, 3, 4, 5, 6, 7, 8, 9].getD k 0) (some 42)
        10 (some (List.replicate 10 0)) 0 10 0 = .ok r ∧
      r.ret = 0 ∧ ∃ out1, r.indexes = some out1 ∧
        ∀ i, i < 10 → ∃ x, out1[i]? = some x ∧ 0 ≤ x ∧ x < 10 := by
  have h := prng_rand_index_range false 5 (fun _ k => [1, 2, 1, 3, 4, 5, 6, 7, 8, 9].getD k 0)
    (some 42) 10 (List.replicate 10 0) 0 10 0 (by decide) (by decide) (by decide)
  obtain ⟨r, hr⟩ := h.2.2 (by decide) (by decide) (by decide) (by decide)
  exact ⟨r, hr, h.2.1 r hr⟩

/-- When `gen` returns, the pre-key it has given to HMAC is the buffer that `unlock` has
left from the two index sequences. -/
theorem gen_key_pre_of_ok (debug : Bool) (now_src now_key now_nonce : Nat)
    (rand : Nat → Nat → Nat) (HMAC : Nat → List Nat → List Nat) (junk : Junk)
    (read : List Nat) (source_seed : Option Nat) (source_bits : Nat) (vault key : List Nat)
    (key_seed : Option Nat) (key_bits key_pre_bits : Nat) (token : List Nat)
    (token_bytes pool_bits n_locks n_xoration : Nat) (r1 r2 : RandResult) (I KI kp : List Nat)
    (g : GenResult)
    (hI : prng_rand_without_replacement debug now_src rand source_seed
      (pool_bits * n_locks * n_xoration % 2 ^ 32)
      (some (local_words junk.source_indexes (pool_bits * n_locks * n_xoration % 2 ^ 32)))
      0 source_bits = .ok r1)
    (hr1 : r1.indexes = some I)
    (hKI : prng_rand_without_replacement debug now_key rand key_seed key_pre_bits
      (some (local_words junk.key_indexes key_pre_bits)) 0 pool_bits = .ok r2)
    (hr2 : r2.indexes = some KI)
    (hu : unlock read I vault (local_bytes junk.key_pre (bits_to_bytes key_pre_bits)) KI
      key_pre_bits n_locks n_xoration = .ok kp)
    (h : gen debug now_src now_key now_nonce rand HMAC junk read source_seed source_bits
      vault key key_seed key_bits key_pre_bits token token_bytes pool_bits n_locks
      n_xoration = .ok g) : g.key_pre = kp := by
  unfold gen at h
  obtain ⟨q1, h1, h⟩ := bind_eq_ok h
  obtain ⟨q2, h2, h⟩ := bind_eq_ok h
  obtain ⟨kp1, hu1, h⟩ := bind_eq_ok h
  obtain ⟨msg, _, h⟩ := bind_eq_ok h
  obtain ⟨key1, _, h⟩ := bind_eq_ok h
  obtain ⟨ks, _, h⟩ := bind_eq_ok h
  obtain ⟨msg2, _, h⟩ := bind_eq_ok h
  obtain ⟨token1, _, h⟩ := bind_eq_ok h
  rw [hI] at h1
  rw [hKI] at h2
  cases h1
  cases h2
  rw [hr1, hr2, Option.getD_some, Option.getD_some, hu] at hu1
  cases hu1
  cases h
  rfl

/-- When `rep` returns, the pre-key it has given to HMAC is the buffer that `unlock` has
left from the two index sequences. -/
theorem rep_key_pre_of_ok (debug : Bool) (now_src now_key : Nat)
    (rand : Nat → Nat → Nat) (HMAC : Nat → List Nat → List Nat) (junk : Junk)
    (read : List Nat) (source_seed : Option Nat) (source_bits : Nat) (vault key : List Nat)
    (key_seed : Option Nat) (key_bits key_pre_bits nonce : Nat) (token : List Nat)
    (token_bytes pool_bits n_locks n_xoration : Nat) (r1 r2 : RandResult) (I KI kp : List Nat)
    (r : RepResult)
    (hI : prng_rand_without_replacement debug now_src rand source_seed
      (pool_bits * n_locks * n_xoration % 2 ^ 32)
      (some (local_words junk.source_indexes (pool_bits * n_locks * n_xoration % 2 ^ 32)))
      0 source_bits = .ok r1)
    (hr1 : r1.indexes = some I)
    (hKI : prng_rand_without_replacement debug now_key rand key_seed key_pre_bits
      (some (local_words junk.key_indexes key_pre_bits)) 0 pool_bits = .ok r2)
    (hr2 : r2.indexes = some KI)
    (hu : unlock read I vault (local_bytes junk.key_pre (bits_to_bytes key_pre_bits)) KI
      key_pre_bits n_locks n_xoration = .ok kp)
    (h : rep debug now_src now_key rand HMAC junk read source_seed source_bits vault key
      key_seed key_bits key_pre_bits nonce token token_bytes pool_bits n_locks n_xoration
      = .ok r) : r.key_pre = kp := by
  unfold rep at h
  obtain ⟨st, hst, hcheck⟩ := bind_eq_ok h
  have hstkp : st.key_pre = kp := by
    unfold rep_recompute at hst
    obtain ⟨q1, h1, hst⟩ := bind_eq_ok hst
    obtain ⟨q2, h2, hst⟩ := bind_eq_ok hst
    obtain ⟨kp1, hu1, hst⟩ := bind_eq_ok hst
    obtain ⟨msg, _, hst⟩ := bind_eq_ok hst
    obtain ⟨key1, _, hst⟩ := bind_eq_ok hst
    obtain ⟨ks, _, hst⟩ := bind_eq_ok hst
    obtain ⟨msg2, _, hst⟩ := bind_eq_ok hst
    obtain ⟨T1, _, hst⟩ := bind_eq_ok hst
    rw [hI] at h1
    rw [hKI] at h2
    cases h1
    cases h2
    rw [hr1, hr2, Option.getD_some, Option.getD_some, hu] at hu1
    cases hu1
    cases hst
    rfl
  unfold rep_check at hcheck
  obtain ⟨c, _, hcheck⟩ := bind_eq_ok hcheck
  split at hcheck
  · obtain ⟨key1, _, hcheck⟩ := bind_eq_ok hcheck
    cases hcheck
    exact hstkp
  · cases hcheck
    exact hstkp

/-- C11: gen and rep agree on the pre-key. For non-zero `source_seed` and `key_seed`, a
reading, a vault and parameters within the data-model invariants (local arrays of at
least one element, reading and vault of the declared sizes, `source_bits < 2^31` so that
every position fits the type `int`): the two calls that draw the index sequences and the
call of `unlock`, which are the first statements of `gen` and of `rep`, return in both
procedures with the same index sequences, whatever the clock readings and the first
contents of the local arrays; the `key_pre_bits` bits of the pre-key that `unlock` leaves
in `gen` are those it leaves in `rep`; whenever `gen` or `rep` returns, whatever the
digest function, the key and token buffers, `key_bits`, `token_bytes` and the nonce, the
pre-key it has given to HMAC is that buffer; and both return when the digest has 32
bytes and the key and token buffers have room for it. -/
theorem gen_rep_same_pre_key (debug : Bool) (rand : Nat → Nat → Nat)
    (read vault : List Nat) (s k : Nat)
    (source_bits key_pre_bits pool_bits n_locks n_xoration : Nat)
    (now_src now_key : Nat) (junk : Junk) (now_src2 now_key2 : Nat) (junk2 : Junk)
    (hs : s ≠ 0) (hk : k ≠ 0)
    (hxor : 1 ≤ n_xoration) (hlocks : 1 ≤ n_locks) (hkp : 1 ≤ key_pre_bits)
    (hsrc : pool_bits * n_locks * n_xoration ≤ source_bits)
    (hpool : key_pre_bits ≤ pool_bits)
    (h31 : source_bits < 2 ^ 31)
    (hread : source_bits ≤ 8 * read.length)
    (hvault : pool_bits * n_locks ≤ 8 * vault.length) :
    ∃ I KI kp kp2,
      prng_rand_without_replacement debug now_src rand (some s)
        (pool_bits * n_locks * n_xoration % 2 ^ 32)
        (some (local_words junk.source_indexes (pool_bits * n_locks * n_xoration % 2 ^ 32)))
        0 source_bits = .ok ⟨0, some s, some I⟩ ∧
      prng_rand_without_replacement debug now_key rand (some k) key_pre_bits
        (some (local_words junk.key_indexes key_pre_bits)) 0 pool_bits
        = .ok ⟨0, some k, some KI⟩ ∧
      unlock read I vault (local_bytes junk.key_pre (bits_to_bytes key_pre_bits)) KI
        key_pre_bits n_locks n_xoration = .ok kp ∧
      prng_rand_without_replacement debug now_src2 rand (some s)
        (pool_bits * n_locks * n_xoration % 2 ^ 32)
        (some (local_words junk2.source_indexes (pool_bits * n_locks * n_xoration % 2 ^ 32)))
        0 source_bits = .ok ⟨0, some s, some I⟩ ∧
      prng_rand_without_replacement debug now_key2 rand (some k) key_pre_bits
        (some (local_words junk2.key_indexes key_pre_bits)) 0 pool_bits
        = .ok ⟨0, some k, some KI⟩ ∧
      unlock read I vault (local_bytes junk2.key_pre (bits_to_bytes key_pre_bits)) KI
        key_pre_bits n_locks n_xoration = .ok kp2 ∧
      (∀ i, i < key_pre_bits → ∃ p, get_bit kp i = .ok p ∧ get_bit kp2 i = .ok p) ∧
      (∀ (HMAC : Nat → List Nat → List Nat) (key token : List Nat)
        (key_bits token_bytes now_nonce : Nat) (g : GenResult),
        gen debug now_src now_key now_nonce rand HMAC junk read (some s) source_bits vault
          key (some k) key_bits key_pre_bits token token_bytes pool_bits n_locks n_xoration
          = .ok g → g.key_pre = kp) ∧
      (∀ (HMAC : Nat → List Nat → List Nat) (key2 token2 : List Nat)
        (key_bits token_bytes nonce2 : Nat) (r : RepResult),
        rep debug now_src2 now_key2 rand HMAC junk2 read (some s) source_bits vault key2
          (some k) key_bits key_pre_bits nonce2 token2 token_bytes pool_bits n_locks
          n_xoration = .ok r → r.key_pre = kp2) ∧
      (∀ (HMAC : Nat → List Nat → List Nat) (key token key2 token2 : List Nat)
        (key_bits token_bytes now_nonce nonce2 : Nat),
        (∀ x m, (HMAC x m).length = 32) →
        32 ≤ key.length → bits_to_bytes key_bits ≤ key.length → 32 ≤ token.length →
        32 ≤ key2.length → bits_to_bytes key_bits ≤ key2.length →
        32 ≤ token_bytes → token_bytes ≤ token2.length →
        ∃ g r,
          gen debug now_src now_key now_nonce rand HMAC junk read (some s) source_bits vault
            key (some k) key_bits key_pre_bits token token_bytes pool_bits n_locks
            n_xoration = .ok g ∧
          rep debug now_src2 now_key2 rand HMAC junk2 read (some s) source_bits vault key2
            (some k) key_bits key_pre_bits nonce2 token2 token_bytes pool_bits n_locks
            n_xoration = .ok r) := by
  obtain ⟨I, KI, _, _, _, _, hall⟩ := derive_ok debug now_src now_key rand read (some s)
    (some k) source_bits vault key_pre_bits pool_bits n_locks n_xoration hxor hlocks hkp
    hsrc hpool h31 hread hvault
  obtain ⟨I2, KI2, _, _, _, _, hall2⟩ := derive_ok debug now_src2 now_key2 rand read (some s)
    (some k) source_bits vault key_pre_bits pool_bits n_locks n_xoration hxor hlocks hkp
    hsrc hpool h31 hread hvault
  obtain ⟨hI, hKI, kp, hu, hkplen, _, hkpbits⟩ := hall junk
  obtain ⟨hI2, hKI2, kp2, hu2, hkplen2, _, hkpbits2⟩ := hall2 junk2
  have hII : I2 = I := by
    have h1 := (hall junk2).1
    unfold prng_rand_without_replacement at h1 hI2
    rw [prng_rand_seeded debug now_src now_src2 rand s _ _ _ _ _ hs, hI2] at h1
    injection h1 with h1
    injection h1 with _ _ h1
    injection h1
  have hKK : KI2 = KI := by
    have h1 := (hall junk2).2.1
    unfold prng_rand_without_replacement at h1 hKI2
    rw [prng_rand_seeded debug now_key now_key2 rand k _ _ _ _ _ hk, hKI2] at h1
    injection h1 with h1
    injection h1 with _ _ h1
    injection h1
  subst hII hKK
  have hb := le_bits_to_bytes key_pre_bits
  refine ⟨I2, KI2, kp, kp2, ?_, ?_, hu, ?_, ?_, hu2, ?_, ?_, ?_, ?_⟩
  · rw [hI, seed_left_nonzero _ _ hs]
  · rw [hKI, seed_left_nonzero _ _ hk]
  · rw [hI2, seed_left_nonzero _ _ hs]
  · rw [hKI2, seed_left_nonzero _ _ hk]
  · intro i hi
    refine ⟨bit_of kp i, get_bit_ok (by show i / 8 < kp.length; omega), ?_⟩
    rw [hkpbits i hi, ← hkpbits2 i hi]
    exact get_bit_ok (by show i / 8 < kp2.length; omega)
  · intro HMAC key token key_bits token_bytes now_nonce g hg
    exact gen_key_pre_of_ok debug now_src now_key now_nonce rand HMAC junk read (some s)
      source_bits vault key (some k) key_bits key_pre_bits token token_bytes pool_bits
      n_locks n_xoration _ _ I2 KI2 kp g hI rfl hKI rfl hu hg
  · intro HMAC key2 token2 key_bits token_bytes nonce2 r hr
    exact rep_key_pre_of_ok debug now_src2 now_key2 rand HMAC junk2 read (some s)
      source_bits vault key2 (some k) key_bits key_pre_bits nonce2 token2 token_bytes
      pool_bits n_locks n_xoration _ _ I2 KI2 kp2 r hI2 rfl hKI2 rfl hu2 hr
  · intro HMAC key token key2 token2 key_bits token_bytes now_nonce nonce2 hH hkey hkb htoken
      hkey2 hkb2 htb htoken2
    have hg := gen_eq debug now_src now_key now_nonce rand HMAC junk read (some s)
      source_bits vault key k key_bits key_pre_bits token token_bytes pool_bits n_locks
      n_xoration I2 KI2 kp hI hKI hu hkplen hH hkey hkb htoken
    have hr := rep_recompute_eq debug now_src2 now_key2 rand HMAC junk2 read (some s)
      source_bits vault key2 k key_bits key_pre_bits nonce2 token_bytes pool_bits n_locks
      n_xoration I2 KI2 kp2 hI2 hKI2 hu2 hkplen2 hH hkey2 hkb2 htb
    obtain ⟨r, hcheck, _⟩ := rep_check_ok
      ⟨seed_left now_src2 (some s), seed_left now_key2 (some k), kp2,
        HMAC nonce2 kp2 ++ key2.drop 32,
        HMAC (seed_used now_key2 (some k))
          ((HMAC nonce2 kp2 ++ key2.drop 32).take (bits_to_bytes key_bits))
          ++ (local_bytes junk2.T token_bytes).drop 32⟩ key_bits token2 token_bytes
      (by simp [hH, local_bytes_length]; omega) htoken2
      (by simp [hH]; omega)
    refine ⟨_, r, hg, ?_⟩
    unfold rep
    rw [hr]
    exact hcheck

/-- Witness of C11: `gen` and `rep` at different clock readings, with different first
contents of the local arrays, for a pre-key of 4 bits. -/
theorem gen_rep_same_pre_key_witness :
    ∃ kp kp2,
      unlock [181] [0, 1, 2, 3, 4, 5, 6, 7] [114] (local_bytes junk_zeros.key_pre 1)
        [0, 1, 2, 3] 4 1 1 = .ok kp ∧
      unlock [181] [0, 1, 2, 3, 4, 5, 6, 7] [114] (local_bytes junk_ones.key_pre 1)
        [0, 1, 2, 3] 4 1 1 = .ok kp2 ∧
      (∀ i, i < 4 → ∃ p, get_bit kp i = .ok p ∧ get_bit kp2 i = .ok p) ∧
      (∀ g, gen false 1 2 3 test_rand test_HMAC junk_zeros [181] (some 8) 8 [114]
        (List.replicate 32 0) (some 16) 256 4 (List.replicate 32 0) 32 8 1 1 = .ok g →
        g.key_pre = kp) ∧
      (∀ r, rep false 5 6 test_rand test_HMAC junk_ones [181] (some 8) 8 [114]
        (List.replicate 32 0) (some 16) 256 4 3 (List.replicate 32 26) 32 8 1 1 = .ok r →
        r.key_pre = kp2) := by
  obtain ⟨I, KI, kp, kp2, hI, hKI, hu, _, _, hu2, hbits, hg, hr, _⟩ :=
    gen_rep_same_pre_key false test_rand [181] [114] 8 16 8 4 8 1 1 1 2 junk_zeros 5 6
      junk_ones (by decide) (by decide) (by decide) (by decide) (by decide) (by decide)
      (by decide) (by decide) (by decide) (by decide)
  have hI0 : I = [0, 1, 2, 3, 4, 5, 6, 7] := by
    have h : prng_rand_without_replacement false 1 test_rand (some 8) (8 * 1 * 1 % 2 ^ 32)
        (some (local_words junk_zeros.source_indexes (8 * 1 * 1 % 2 ^ 32))) 0 8
        = .ok ⟨0, some 8, some [0, 1, 2, 3, 4, 5, 6, 7]⟩ := by rfl
    rw [h] at hI
    injection hI with hI
    injection hI with _ _ hI
    injection hI with hI
    exact hI.symm
  have hKI0 : KI = [0, 1, 2, 3] := by
    have h : prng_rand_without_replacement false 2 test_rand (some 16) 4
        (some (local_words junk_zeros.key_indexes 4)) 0 8
        = .ok ⟨0, some 16, some [0, 1, 2, 3]⟩ := by rfl
    rw [h] at hKI
    injection hKI with hKI
    injection hKI with _ _ hKI
    injection hKI with hKI
    exact hKI.symm
  subst hI0 hKI0
  exact ⟨kp, kp2, hu, hu2, hbits, fun g h => hg test_HMAC _ _ 256 32 3 g h,
    fun r h => hr test_HMAC _ _ 256 32 3 r h⟩


end XLock
